import Mathlib

/-!
# AlphaJsonParser: value model, recursive-descent parser and the two generators

A shallow embedding of `src/JsonParser.h` and what is proved about it.

* A text is a list of characters; the cursor `pos` is a natural number (a
  `size_t` that never comes near `2^64` on a buffer that fits in memory).
* A `Node` wraps exactly one `Value`, so both are the one type `Value`.
* `std::map<std::string, Node>` is an association list kept in strictly
  ascending key order.
* A parser production takes the text and the cursor and gives back a `Res`:
  the returned `std::optional<Value>` with the new cursor, an escaping C++
  exception, a read outside the buffer (undefined behaviour in C++), or the
  exhaustion of the recursion budget of the embedding. `parser` runs with a
  budget that is proved sufficient for every text (`parser_ne_outOfFuel`).
* The two library calls on `double` (`std::stod`, `std::to_string`) are not
  modelled: they are the parameter `FloatLib`, and every theorem holds for
  every such library.
* A reference returned by an accessor is modelled by the node it designates
  together with the node after the call; a write through it is a separate
  function (`Node.storeKey`, `Node.storeIndex`).
* The static `currentIndentLevel` of the indented generator is a value passed
  into every call and returned with the text.

The definitions come first, then the theorems: the ordered map, the compact
format, the accessors, assignment through accessors, the cursor and the
budget of the parser, object keys, the round trip through the compact
generator, the inputs on which the code departs from its specification, the
indented format and its counter, malformed input, the order of the keys,
leading whitespace and trailing content, a missing closing bracket, and the
round trip through the indented generator.
-/

namespace json

/-- The bytes of a `std::string` / `std::string_view`. -/
abbrev Text := List Char

/-- The variant `Value` (and `Node`, its one-field wrapper): `Null`, `Bool`,
`Int`, `Float`, `String`, `Array`, `Object`, in the order of the source. -/
inductive Value (F : Type) where
  | null
  | bool (b : Bool)
  | int (i : Int)
  | float (x : F)
  | string (s : Text)
  | array (a : List (Value F))
  | object (o : List (Text × Value F))

/-- `Node() : value(Null{})`: a default-constructed node holds `Null`. -/
instance {F : Type} : Inhabited (Value F) := ⟨.null⟩

/-- `struct Node { Value value; }`. -/
abbrev Node (F : Type) := Value F

/-- `using Array = std::vector<Node>`. -/
abbrev Array (F : Type) := List (Node F)

/-- `using Object = std::map<std::string, Node>`: the entries in iteration order. -/
abbrev Object (F : Type) := List (Text × Node F)

/-- The library functions on `double` that the source calls. `stod` is `none`
where `std::stod` throws. -/
structure FloatLib (F : Type) where
  stod : Text → Option F
  to_string : F → Text

/-- The C++ exceptions that can leave the code. -/
inductive Exn where
  | bad_optional_access
  | out_of_range
  | runtime_error (what : String)
  deriving DecidableEq

/-- Outcome of a parser production. -/
inductive Res (α : Type) where
  /-- normal return -/
  | ret (a : α)
  /-- an exception escapes -/
  | throw (e : Exn)
  /-- `json_str[i]` was read with `i >= json_str.size()` -/
  | oobRead (i : Nat)
  /-- the recursion budget of the embedding ran out -/
  | outOfFuel

/-! ## Character classes and library functions -/

/-- `std::isspace` in the "C" locale. -/
def isspace (c : Char) : Bool :=
  c = ' ' || c = '\t' || c = '\n' || c = '\x0b' || c = '\x0c' || c = '\r'

/-- `std::isdigit`. -/
def isdigit (c : Char) : Bool :=
  decide ('0' ≤ c) && decide (c ≤ '9')

/-- A loop `while (pos < size && p(json_str[pos])) ++pos`, run on the text from
the cursor on; gives the final cursor. -/
def scanWhile (p : Char → Bool) : Text → Nat → Nat
  | [], pos => pos
  | c :: rest, pos => if p c then scanWhile p rest (pos + 1) else pos

/-- `std::string_view::substr(pos, n)`: throws when `pos > size()`. -/
def substr {α : Type} (json_str : Text) (pos n : Nat) (k : Text → Res α) : Res α :=
  if pos > json_str.length then .throw .out_of_range
  else k ((json_str.drop pos).take n)

/-- Value of a decimal digit. -/
def digitValue (c : Char) : Nat := c.toNat - 48

/-- Value of a string of decimal digits. -/
def decimalValue (ds : Text) : Nat :=
  ds.foldl (fun acc c => 10 * acc + digitValue c) 0

/-- Largest `int`. -/
def INT_MAX : Nat := 2147483647

/-- `std::stoi` on the text `parseNumber` hands it (decimal digits only, no
sign, no blank): `none` where it throws, `std::invalid_argument` when there
is no digit and `std::out_of_range` when the value does not fit an `int`. -/
def stoi (number : Text) : Option Int :=
  let ds := number.takeWhile isdigit
  if ds.isEmpty then none
  else if decimalValue ds ≤ INT_MAX then some (Int.ofNat (decimalValue ds))
  else none

/-- Decimal digits of a natural number, most significant first. -/
def natDigits : Nat → Nat → Text → Text
  | 0, _, acc => acc
  | fuel + 1, n, acc =>
    let acc := Char.ofNat (48 + n % 10) :: acc
    if n / 10 = 0 then acc else natDigits fuel (n / 10) acc

/-- `std::to_string(int64_t)`. -/
def to_string (i : Int) : Text :=
  match i with
  | Int.ofNat n => natDigits (n + 1) n []
  | Int.negSucc n => '-' :: natDigits (n + 2) (n + 1) []

/-! ## JsonParser -/

/-- `JsonParser::parseWhiteSpace`. -/
def parseWhiteSpace (json_str : Text) (pos : Nat) : Nat :=
  scanWhile isspace (json_str.drop pos) pos

/-- `JsonParser::parseNull`. -/
def parseNull {F : Type} (json_str : Text) (pos : Nat) : Res (Option (Value F) × Nat) :=
  substr json_str pos 4 fun t =>
    if t = "null".toList then .ret (some .null, pos + 4) else .ret (none, pos)

/-- `JsonParser::parseTrue`. -/
def parseTrue {F : Type} (json_str : Text) (pos : Nat) : Res (Option (Value F) × Nat) :=
  substr json_str pos 4 fun t =>
    if t = "true".toList then .ret (some (.bool true), pos + 4) else .ret (none, pos)

/-- `JsonParser::parseFalse`. -/
def parseFalse {F : Type} (json_str : Text) (pos : Nat) : Res (Option (Value F) × Nat) :=
  substr json_str pos 5 fun t =>
    if t = "false".toList then .ret (some (.bool false), pos + 5) else .ret (none, pos)

/-- The characters the number scan accepts. -/
def isNumberChar (c : Char) : Bool :=
  isdigit c || c = 'e' || c = '.'

/-- The lambda `isFloat` of `parseNumber`. -/
def isFloat (number : Text) : Bool :=
  number.contains '.' || number.contains 'e'

/-- `JsonParser::parseNumber`. The cursor is set before the conversion, so it
has moved also when the conversion fails. -/
def parseNumber {F : Type} (L : FloatLib F) (json_str : Text) (pos : Nat) :
    Res (Option (Value F) × Nat) :=
  let endpos := scanWhile isNumberChar (json_str.drop pos) pos
  substr json_str pos (endpos - pos) fun number =>
    if isFloat number then
      match L.stod number with
      | some ret => .ret (some (.float ret), endpos)
      | none => .ret (none, endpos)
    else
      match stoi number with
      | some ret => .ret (some (.int ret), endpos)
      | none => .ret (none, endpos)

/-- The scan of `parseString` once entered,
`while (pos < size && json_str[endpos] != '"') endpos++`, on the text from
`endpos` on. The guard tests `pos`, which the loop does not change, so nothing
stops the scan at the end of the buffer: the next read is outside it. -/
def scanQuote {α : Type} : Text → Nat → (Nat → Res α) → Res α
  | [], endpos, _ => .oobRead endpos
  | c :: rest, endpos, k => if c ≠ '"' then scanQuote rest (endpos + 1) k else k endpos

/-- `JsonParser::parseString`. -/
def parseString {F : Type} (json_str : Text) (pos : Nat) : Res (Option (Value F) × Nat) :=
  let pos := pos + 1
  let rest : Nat → Res (Option (Value F) × Nat) := fun endpos =>
    substr json_str pos (endpos - pos) fun str => .ret (some (.string str), endpos + 1)
  if pos < json_str.length then scanQuote (json_str.drop pos) pos rest else rest pos

/-- `std::less<std::string>`: lexicographic order. -/
def strLt : Text → Text → Bool
  | [], [] => false
  | [], _ :: _ => true
  | _ :: _, [] => false
  | a :: as, b :: bs => if a < b then true else if b < a then false else strLt as bs

/-- `obj[key] = val` on a `std::map`: replaces the value of an entry with an
equivalent key, else inserts the entry at its place in the order. -/
def mapAssign {F : Type} : Object F → Text → Node F → Object F
  | [], key, val => [(key, val)]
  | (k, v) :: rest, key, val =>
    if strLt k key then (k, v) :: mapAssign rest key val
    else if strLt key k then (key, val) :: (k, v) :: rest
    else (k, val) :: rest

mutual
/-- `JsonParser::parseValue`, with a recursion budget. -/
def parseValue {F : Type} (L : FloatLib F) (json_str : Text) :
    Nat → Nat → Res (Option (Value F) × Nat)
  | 0, _ => .outOfFuel
  | fuel + 1, pos =>
    let pos := parseWhiteSpace json_str pos
    match json_str[pos]? with
    | none => .oobRead pos
    | some c =>
      if c = 'n' then parseNull json_str pos
      else if c = 't' then parseTrue json_str pos
      else if c = 'f' then parseFalse json_str pos
      else if c = '"' then parseString json_str pos
      else if c = '[' then parseArrayLoop L json_str fuel (pos + 1) []
      else if c = '{' then parseObjectLoop L json_str fuel (pos + 1) []
      else parseNumber L json_str pos
/-- The loop of `JsonParser::parseArray` with what follows it, from the
cursor `pos` and the elements `arr` read so far. -/
def parseArrayLoop {F : Type} (L : FloatLib F) (json_str : Text) :
    Nat → Nat → Array F → Res (Option (Value F) × Nat)
  | 0, _, _ => .outOfFuel
  | fuel + 1, pos, arr =>
    if pos < json_str.length ∧ json_str[pos]? ≠ some ']' then
      match parseValue L json_str fuel pos with
      | .ret (some value, pos) =>
        let pos := parseWhiteSpace json_str pos
        let pos := if pos < json_str.length ∧ json_str[pos]? = some ',' then pos + 1 else pos
        let pos := parseWhiteSpace json_str pos
        parseArrayLoop L json_str fuel pos (arr ++ [value])
      | .ret (none, _) => .throw .bad_optional_access
      | .throw e => .throw e
      | .oobRead i => .oobRead i
      | .outOfFuel => .outOfFuel
    else .ret (some (.array arr), pos + 1)
/-- The loop of `JsonParser::parseObject` with what follows it, from the
cursor `pos` and the entries `obj` read so far. -/
def parseObjectLoop {F : Type} (L : FloatLib F) (json_str : Text) :
    Nat → Nat → Object F → Res (Option (Value F) × Nat)
  | 0, _, _ => .outOfFuel
  | fuel + 1, pos, obj =>
    if pos < json_str.length ∧ json_str[pos]? ≠ some '}' then
      match parseValue L json_str fuel pos with
      | .ret (some (.string key), pos) =>
        let pos := parseWhiteSpace json_str pos
        let pos := if pos < json_str.length ∧ json_str[pos]? = some ':' then pos + 1 else pos
        let pos := parseWhiteSpace json_str pos
        match parseValue L json_str fuel pos with
        | .ret (some val, pos) =>
          let obj := mapAssign obj key val
          let pos := parseWhiteSpace json_str pos
          let pos := if pos < json_str.length ∧ json_str[pos]? = some ',' then pos + 1 else pos
          let pos := parseWhiteSpace json_str pos
          parseObjectLoop L json_str fuel pos obj
        | .ret (none, _) => .throw .bad_optional_access
        | .throw e => .throw e
        | .oobRead i => .oobRead i
        | .outOfFuel => .outOfFuel
      | .ret (some _, pos) => .ret (none, pos)
      | .ret (none, _) => .throw .bad_optional_access
      | .throw e => .throw e
      | .oobRead i => .oobRead i
      | .outOfFuel => .outOfFuel
    else .ret (some (.object obj), pos + 1)
end

/-- `JsonParser::parseArray`: skip `[`, run the loop. -/
def parseArray {F : Type} (L : FloatLib F) (json_str : Text) (fuel pos : Nat) :
    Res (Option (Value F) × Nat) :=
  parseArrayLoop L json_str fuel (pos + 1) []

/-- `JsonParser::parseObject`: skip `{`, run the loop. -/
def parseObject {F : Type} (L : FloatLib F) (json_str : Text) (fuel pos : Nat) :
    Res (Option (Value F) × Nat) :=
  parseObjectLoop L json_str fuel (pos + 1) []

/-- `JsonParser::parse`. -/
def parse {F : Type} (L : FloatLib F) (json_str : Text) (fuel pos : Nat) :
    Res (Option (Node F)) :=
  let pos := parseWhiteSpace json_str pos
  match parseValue L json_str fuel pos with
  | .ret (some value, _) => .ret (some value)
  | .ret (none, _) => .ret none
  | .throw e => .throw e
  | .oobRead i => .oobRead i
  | .outOfFuel => .outOfFuel

/-- `json::parser`: a fresh `JsonParser` (cursor 0) and `parse`. The budget
`2 * size + 1` is never exhausted (`parseValue_fuel_enough`). -/
def parser {F : Type} (L : FloatLib F) (json_str : Text) : Res (Option (Node F)) :=
  parse L json_str (2 * json_str.length + 1) 0

/-! ## Node accessors -/

/-- `std::map::operator[]`: the mapped value and the map after the call. A
missing key is first inserted, at its place in the order, with a default
`Node()`, which is `Null`. -/
def mapSubscript {F : Type} : Object F → Text → Node F × Object F
  | [], key => (.null, [(key, .null)])
  | (k, v) :: rest, key =>
    if strLt k key then
      ((mapSubscript rest key).1, (k, v) :: (mapSubscript rest key).2)
    else if strLt key k then (.null, (key, .null) :: (k, v) :: rest)
    else (v, (k, v) :: rest)

/-- `Node::operator[](const std::string& key)`: the node the returned
reference designates and the node after the call. -/
def Node.operatorKey {F : Type} (n : Node F) (key : Text) : Except Exn (Node F × Node F) :=
  match n with
  | .object object => .ok ((mapSubscript object key).1, .object (mapSubscript object key).2)
  | _ => .error (.runtime_error "not an object")

/-- `Node::operator[](size_t index)`: the node the returned reference
designates and the node after the call; `std::vector::at` throws
`std::out_of_range` when `index >= size()`. -/
def Node.operatorIndex {F : Type} (n : Node F) (index : Nat) : Except Exn (Node F × Node F) :=
  match n with
  | .array array =>
    match array[index]? with
    | some x => .ok (x, n)
    | none => .error .out_of_range
  | _ => .error (.runtime_error "not an array")

/-- `Node::push`: the node after the call. -/
def Node.push {F : Type} (n : Node F) (rhs : Node F) : Node F :=
  match n with
  | .array array => .array (array ++ [rhs])
  | _ => n

/-- A write through the reference that `operator[](key)` returned. -/
def Node.storeKey {F : Type} (n : Node F) (key : Text) (v : Node F) : Node F :=
  match n with
  | .object object => .object (mapAssign object key v)
  | _ => n

/-- A write through the reference that `operator[](index)` returned. -/
def Node.storeIndex {F : Type} (n : Node F) (index : Nat) (v : Node F) : Node F :=
  match n with
  | .array array => .array (array.set index v)
  | _ => n

/-- One accessor of a chain `n[...][...]`. -/
inductive Step where
  | key (k : Text)
  | index (i : Nat)
  deriving DecidableEq

/-- The statement `n[s1][s2]...[sk] = v` (in `main`, `.value = v`): the
accessors are called from left to right, each on the node the one before
returned a reference to, then `v` is written through the last reference.
Gives the root node afterwards. -/
def Node.assign {F : Type} (n : Node F) : List Step → Node F → Except Exn (Node F)
  | [], v => .ok v
  | .key k :: path, v =>
    match Node.operatorKey n k with
    | .error e => .error e
    | .ok (child, n1) =>
      match Node.assign child path v with
      | .error e => .error e
      | .ok child1 => .ok (Node.storeKey n1 k child1)
  | .index i :: path, v =>
    match Node.operatorIndex n i with
    | .error e => .error e
    | .ok (child, n1) =>
      match Node.assign child path v with
      | .error e => .error e
      | .ok child1 => .ok (Node.storeIndex n1 i child1)

/-! ## JsonGenerator -/

/-- `JsonGenerator::generateString`. -/
def generateString (str : Text) : Text :=
  (['"'] ++ str) ++ ['"']

mutual
/-- `JsonGenerator::generate`, with `generateArray` and `generateObject`. -/
def generate {F : Type} (L : FloatLib F) : Node F → Text
  | .null => "null".toList
  | .bool b => if b then "true".toList else "false".toList
  | .int i => to_string i
  | .float x => L.to_string x
  | .string s => generateString s
  | .array array =>
    let json_str := generateArrayLoop L array ['[']
    let json_str := if array.isEmpty then json_str else json_str.dropLast
    json_str ++ [']']
  | .object object =>
    let json_str := generateObjectLoop L object ['{']
    let json_str := if object.isEmpty then json_str else json_str.dropLast
    json_str ++ ['}']
/-- The `for` loop of `generateArray` over the elements left, `json_str`
being the text built so far. -/
def generateArrayLoop {F : Type} (L : FloatLib F) : Array F → Text → Text
  | [], json_str => json_str
  | node :: rest, json_str =>
    generateArrayLoop L rest ((json_str ++ generate L node) ++ [','])
/-- The `for` loop of `generateObject` over the entries left. -/
def generateObjectLoop {F : Type} (L : FloatLib F) : Object F → Text → Text
  | [], json_str => json_str
  | (key, node) :: rest, json_str =>
    generateObjectLoop L rest
      ((((json_str ++ generateString key) ++ [':']) ++ generate L node) ++ [','])
end

/-- `JsonGenerator::generateArray`. -/
def generateArray {F : Type} (L : FloatLib F) (array : Array F) : Text :=
  generate L (.array array)

/-- `JsonGenerator::generateObject`. -/
def generateObject {F : Type} (L : FloatLib F) (object : Object F) : Text :=
  generate L (.object object)

/-! ## Notions the statements use -/

/-- The invariant of `std::map`: keys strictly ascending. -/
def mapOrdered {F : Type} (o : Object F) : Prop :=
  o.Pairwise (fun a b => strLt a.1 b.1 = true)

/-- The value stored at a key, if any. -/
def mapFind {F : Type} : Object F → Text → Option (Node F)
  | [], _ => none
  | e :: rest, key => if e.1 = key then some e.2 else mapFind rest key

/-- The node holds the `Object` alternative. -/
def Value.isObject {F : Type} : Value F → Bool
  | .object _ => true
  | _ => false

/-- The node holds the `Array` alternative. -/
def Value.isArray {F : Type} : Value F → Bool
  | .array _ => true
  | _ => false

/-- The node holds the `String` alternative. -/
def Value.isString {F : Type} : Value F → Bool
  | .string _ => true
  | _ => false

/-- A library instance to run the definitions on concrete texts: a double is
kept as the text it was read from. -/
def textFloat : FloatLib Text where
  stod := fun t => if (t.takeWhile isdigit).isEmpty then none else some t
  to_string := id

/-! ## Paths in a tree -/

/-- The subtree a path of keys and indices leads to; `none` when the path is
not valid in the tree (a key that is absent, an index past the end, a step
that does not fit the variant). -/
def getAt {F : Type} (n : Node F) : List Step → Option (Node F)
  | [] => some n
  | .key k :: path =>
    match n with
    | .object o =>
      match mapFind o k with
      | some child => getAt child path
      | none => none
    | _ => none
  | .index i :: path =>
    match n with
    | .array a =>
      match a[i]? with
      | some child => getAt child path
      | none => none
    | _ => none

/-- The tree with the subtree at a path replaced by `v`, every entry and
element elsewhere kept as it is and where it is. -/
def replaceAt {F : Type} (n : Node F) : List Step → Node F → Node F
  | [], v => v
  | .key k :: path, v =>
    match n with
    | .object o => .object (o.map fun e => if e.1 = k then (e.1, replaceAt e.2 path v) else e)
    | _ => n
  | .index i :: path, v =>
    match n with
    | .array a =>
      match a[i]? with
      | some child => .array (a.set i (replaceAt child path v))
      | none => n
    | _ => n

mutual
/-- Every Object of the tree satisfies the invariant of `std::map`. -/
def Value.wellFormed {F : Type} : Value F → Prop
  | .array a => wellFormedArray a
  | .object o => mapOrdered o ∧ wellFormedObject o
  | _ => True
/-- Every element is well formed. -/
def wellFormedArray {F : Type} : List (Value F) → Prop
  | [] => True
  | x :: rest => x.wellFormed ∧ wellFormedArray rest
/-- Every mapped value is well formed. -/
def wellFormedObject {F : Type} : List (Text × Value F) → Prop
  | [] => True
  | e :: rest => e.2.wellFormed ∧ wellFormedObject rest
end

/-- The three lines after a parsed item in `parseArray` and `parseObject`:
`parseWhiteSpace(); if (pos < size && json_str[pos] == c) pos++;
parseWhiteSpace();`. -/
def skipSeparator (json_str : Text) (c : Char) (pos : Nat) : Nat :=
  let pos := parseWhiteSpace json_str pos
  let pos := if pos < json_str.length ∧ json_str[pos]? = some c then pos + 1 else pos
  parseWhiteSpace json_str pos

/-! ## Trees that the parser reads back -/

mutual
/-- The trees of the round trip: Null, Bool, Int from 0 to `INT_MAX`, strings
and keys without a double quote, arrays and objects of such trees, the keys of
every object in ascending order; no Float. -/
def Value.plain {F : Type} : Value F → Prop
  | .null => True
  | .bool _ => True
  | .int i => 0 ≤ i ∧ i ≤ (INT_MAX : Int)
  | .float _ => False
  | .string s => '"' ∉ s
  | .array a => plainArray a
  | .object o => mapOrdered o ∧ plainObject o
/-- Every element is plain. -/
def plainArray {F : Type} : List (Value F) → Prop
  | [] => True
  | x :: rest => x.plain ∧ plainArray rest
/-- Every key is free of double quotes and every mapped value is plain. -/
def plainObject {F : Type} : List (Text × Value F) → Prop
  | [] => True
  | e :: rest => ('"' ∉ e.1 ∧ e.2.plain) ∧ plainObject rest
end

/-- The parser reads the tree back from its compact rendering, wherever the
rendering stands in a text, provided the number scan stops behind it. -/
def ParsesBack {F : Type} (L : FloatLib F) (T : Node F) : Prop :=
  ∀ (s : Text) (pos : Nat) (post : Text), s.drop pos = generate L T ++ post →
    (∀ c, post.head? = some c → isNumberChar c = false) →
    ∃ f, parseValue L s f pos = .ret (some T, pos + (generate L T).length)

/-! ## JsonGeneratorFormat

The static `currentIndentLevel` is passed in and handed back: every function
takes the value of the counter at the call and returns the text together with
the value of the counter afterwards. The counter is an `int`; it is modelled
by an integer, as it could overflow only inside a tree nested `2^31` deep. -/

/-- `JsonGeneratorFormat::addIndent`: appends two spaces `currentIndentLevel`
times (not at all when the counter is not positive). -/
def JsonGeneratorFormat.addIndent (currentIndentLevel : Int) (str : Text) : Text :=
  str ++ (List.replicate currentIndentLevel.toNat [' ', ' ']).flatten

/-- `JsonGeneratorFormat::generateString`. -/
def JsonGeneratorFormat.generateString (str : Text) : Text :=
  (['"'] ++ str) ++ ['"']

mutual
/-- `JsonGeneratorFormat::generate(node, needIndent)`, with `generateArray`
and `generateObject`. -/
def JsonGeneratorFormat.generate {F : Type} (L : FloatLib F) :
    Node F → Bool → Int → Text × Int
  | .null, needIndent, lvl =>
    ((if needIndent then JsonGeneratorFormat.addIndent lvl [] else []) ++ "null".toList, lvl)
  | .bool b, needIndent, lvl =>
    ((if needIndent then JsonGeneratorFormat.addIndent lvl [] else []) ++
      (if b then "true".toList else "false".toList), lvl)
  | .int i, needIndent, lvl =>
    ((if needIndent then JsonGeneratorFormat.addIndent lvl [] else []) ++ to_string i, lvl)
  | .float x, needIndent, lvl =>
    ((if needIndent then JsonGeneratorFormat.addIndent lvl [] else []) ++ L.to_string x, lvl)
  | .string s, needIndent, lvl =>
    ((if needIndent then JsonGeneratorFormat.addIndent lvl [] else []) ++
      JsonGeneratorFormat.generateString s, lvl)
  | .array array, needIndent, lvl =>
    let str := if needIndent then JsonGeneratorFormat.addIndent lvl [] else []
    let r := JsonGeneratorFormat.generateArrayLoop L array ("[\n".toList, lvl + 1)
    let lvl := r.2 - 1
    (str ++ (JsonGeneratorFormat.addIndent lvl r.1 ++ [']']), lvl)
  | .object object, needIndent, lvl =>
    let str := if needIndent then JsonGeneratorFormat.addIndent lvl [] else []
    let r := JsonGeneratorFormat.generateObjectLoop L object ("\x7b\n".toList, lvl + 1)
    let body := if object.isEmpty then r.1 else r.1.dropLast.dropLast ++ ['\n']
    let lvl := r.2 - 1
    (str ++ (JsonGeneratorFormat.addIndent lvl body ++ ['}']), lvl)
/-- The `for` loop of `JsonGeneratorFormat::generateArray` over the elements
left; an element is the last one (`i == array.size() - 1`) when none is left
behind it. -/
def JsonGeneratorFormat.generateArrayLoop {F : Type} (L : FloatLib F) :
    Array F → Text × Int → Text × Int
  | [], st => st
  | node :: rest, st =>
    let r := JsonGeneratorFormat.generate L node true st.2
    let str := st.1 ++ r.1
    let str := if rest.isEmpty then str else str ++ [',']
    JsonGeneratorFormat.generateArrayLoop L rest (str ++ ['\n'], r.2)
/-- The `for` loop of `JsonGeneratorFormat::generateObject` over the entries
left. -/
def JsonGeneratorFormat.generateObjectLoop {F : Type} (L : FloatLib F) :
    Object F → Text × Int → Text × Int
  | [], st => st
  | e :: rest, st =>
    let str := JsonGeneratorFormat.addIndent st.2 st.1
    let str := str ++ JsonGeneratorFormat.generateString e.1
    let str := str ++ ": ".toList
    let r := JsonGeneratorFormat.generate L e.2 false st.2
    JsonGeneratorFormat.generateObjectLoop L rest ((str ++ r.1) ++ ",\n".toList, r.2)
end

/-- `JsonGeneratorFormat::generateToFormatString`: resets the counter, then
`generate(node)`. -/
def JsonGeneratorFormat.generateToFormatString {F : Type} (L : FloatLib F) (node : Node F) :
    Text × Int :=
  JsonGeneratorFormat.generate L node true 0

/-- `operator<<(std::ostream&, const Node&)`: `generate(t)` on the counter as
it stands; gives the text written and the counter afterwards. -/
def operatorOut {F : Type} (L : FloatLib F) (t : Node F) (currentIndentLevel : Int) :
    Text × Int :=
  JsonGeneratorFormat.generate L t true currentIndentLevel

/-- The initial value of the static: `int JsonGeneratorFormat::currentIndentLevel = 0`. -/
def JsonGeneratorFormat.initialIndentLevel : Int := 0

/-! ## The indented rendering with an explicit depth -/

/-- `2 * d` spaces. -/
def indentText (d : Nat) : Text := List.replicate (2 * d) ' '

/-- A container as the specification words it: the opening bracket, a
newline, the items separated by `,` and a newline, then a newline, `2 * d`
spaces and the closing bracket. -/
def specContainer (opening closing : Char) (items : List Text) (d : Nat) : Text :=
  [opening] ++ ['\n'] ++ [',', '\n'].intercalate items ++ ['\n'] ++ indentText d ++ [closing]

/-- A container as the code writes it: as the specification words it when
there is an item; with no item, the opening bracket, one newline, `2 * d`
spaces and the closing bracket. -/
def codeContainer (opening closing : Char) (items : List Text) (d : Nat) : Text :=
  if items.isEmpty then [opening] ++ ['\n'] ++ indentText d ++ [closing]
  else specContainer opening closing items d

mutual
/-- The pure rendering at depth `d`, for a given shape of containers: a scalar
is its compact text; the items of an Array are its children at depth `d + 1`,
each behind `2 * (d + 1)` spaces; the items of an Object are its entries, each
`2 * (d + 1)` spaces, the quoted key, `: ` and the value at depth `d + 1`. -/
def renderWith {F : Type} (L : FloatLib F) (container : Char → Char → List Text → Nat → Text) :
    Node F → Nat → Text
  | .null, _ => generate L .null
  | .bool b, _ => generate L (.bool b)
  | .int i, _ => generate L (.int i)
  | .float x, _ => generate L (.float x)
  | .string s, _ => generate L (.string s)
  | .array a, d => container '[' ']' (renderItems L container a (d + 1)) d
  | .object o, d => container '{' '}' (renderEntries L container o (d + 1)) d
/-- The children of an Array, each behind `2 * d` spaces. -/
def renderItems {F : Type} (L : FloatLib F) (container : Char → Char → List Text → Nat → Text) :
    List (Node F) → Nat → List Text
  | [], _ => []
  | x :: rest, d =>
    (indentText d ++ renderWith L container x d) :: renderItems L container rest d
/-- The entries of an Object: `2 * d` spaces, the quoted key, `: `, the value. -/
def renderEntries {F : Type} (L : FloatLib F) (container : Char → Char → List Text → Nat → Text) :
    List (Text × Node F) → Nat → List Text
  | [], _ => []
  | e :: rest, d =>
    (indentText d ++ ((['"'] ++ e.1 ++ ['"']) ++ ([':', ' '] ++ renderWith L container e.2 d)))
      :: renderEntries L container rest d
end

/-- The reference `R(T, d)` of the specification. -/
def specRender {F : Type} (L : FloatLib F) (T : Node F) (d : Nat) : Text :=
  renderWith L specContainer T d

/-- The reference with the empty containers as the code writes them. -/
def codeRender {F : Type} (L : FloatLib F) (T : Node F) (d : Nat) : Text :=
  renderWith L codeContainer T d

/-- A call that renders a tree with the indented generator: through
`operator<<` (`true`), which leaves the counter as it stands, or through
`generateToFormatString` (`false`), which resets it first. Gives the text and
the counter afterwards. -/
def renderCall {F : Type} (L : FloatLib F) (viaStream : Bool) (t : Node F)
    (currentIndentLevel : Int) : Text × Int :=
  if viaStream then operatorOut L t currentIndentLevel
  else JsonGeneratorFormat.generateToFormatString L t

/-- Calls made one after the other on the shared counter: the texts in order
and the counter at the end. -/
def renderCalls {F : Type} (L : FloatLib F) : List (Bool × Node F) → Int → List Text × Int
  | [], c => ([], c)
  | call :: rest, c =>
    let r := renderCall L call.1 call.2 c
    let rs := renderCalls L rest r.2
    (r.1 :: rs.1, rs.2)

/-! ## Insertions into an object -/

/-- One insertion into the `std::map` of an Object: the assignment
`obj[key] = val`, as `parseObject` does it, or the bare access `obj[key]`, as
`Node::operator[]` does it (a missing key enters with `Null`). -/
inductive Insertion (F : Type) where
  | assign (key : Text) (val : Node F)
  | access (key : Text)

/-- The key an insertion names. -/
def Insertion.key {F : Type} : Insertion F → Text
  | .assign key _ => key
  | .access key => key

/-- The map after one insertion. -/
def Insertion.apply {F : Type} (obj : Object F) : Insertion F → Object F
  | .assign key val => mapAssign obj key val
  | .access key => (mapSubscript obj key).2

/-- The map after a sequence of insertions, first to last. -/
def insertAll {F : Type} (obj : Object F) (ins : List (Insertion F)) : Object F :=
  ins.foldl Insertion.apply obj

/-! ## Outcomes seen from a longer text -/

/-- The outcome of a production seen from a text with `n` more characters in
front: the cursor and the index of a read outside the buffer move by `n`. -/
def Res.shift {α : Type} (n : Nat) : Res (α × Nat) → Res (α × Nat)
  | .ret (a, p) => .ret (a, p + n)
  | .throw e => .throw e
  | .oobRead i => .oobRead (i + n)
  | .outOfFuel => .outOfFuel

/-- The outcome of `parser` seen from a text with `n` more characters in
front: only the index of a read outside the buffer moves. -/
def Res.shiftRead {α : Type} (n : Nat) : Res α → Res α
  | .oobRead i => .oobRead (i + n)
  | r => r

/-- The node holds the `Int` or the `Float` alternative. -/
def Value.isNumber {F : Type} : Value F → Bool
  | .int _ => true
  | .float _ => true
  | _ => false

/-! ## Trees that the parser reads back from the indented rendering -/

mutual
/-- Every Array and every Object of the tree has at least one item. -/
def Value.filled {F : Type} : Value F → Prop
  | .array a => a ≠ [] ∧ filledArray a
  | .object o => o ≠ [] ∧ filledObject o
  | _ => True
/-- Every element is filled. -/
def filledArray {F : Type} : List (Value F) → Prop
  | [] => True
  | x :: rest => x.filled ∧ filledArray rest
/-- Every mapped value is filled. -/
def filledObject {F : Type} : List (Text × Value F) → Prop
  | [] => True
  | e :: rest => e.2.filled ∧ filledObject rest
end

/-- The parser reads the tree back from its indented rendering at depth `d`,
wherever the rendering stands in a text, provided the number scan stops behind
it; the cursor ends behind the rendering. -/
def ParsesBackAt {F : Type} (L : FloatLib F) (T : Node F) (d : Nat) : Prop :=
  ∀ (s : Text) (pos : Nat) (post : Text), s.drop pos = codeRender L T d ++ post →
    (∀ c, post.head? = some c → isNumberChar c = false) →
    ∃ f p1, parseValue L s f pos = .ret (some T, p1) ∧ s.drop p1 = post

/-! ## The order on keys -/

theorem strLt_irrefl (a : Text) : strLt a a = false := by
  induction a with
  | nil => rfl
  | cons c cs ih => simp [strLt, ih]

theorem strLt_trans {a b c : Text} (hab : strLt a b = true) (hbc : strLt b c = true) :
    strLt a c = true := by
  induction a generalizing b c with
  | nil =>
    cases b with
    | nil => simp [strLt] at hab
    | cons y ys =>
      cases c with
      | nil => simp [strLt] at hbc
      | cons z zs => simp [strLt]
  | cons x xs ih =>
    cases b with
    | nil => simp [strLt] at hab
    | cons y ys =>
      cases c with
      | nil => simp [strLt] at hbc
      | cons z zs =>
        simp only [strLt] at hab hbc ⊢
        by_cases hxy : x < y
        · by_cases hyz : y < z
          · simp [lt_trans hxy hyz]
          · by_cases hzy : z < y
            · simp [hyz, hzy] at hbc
            · have hyz' : y = z := le_antisymm (not_lt.mp hzy) (not_lt.mp hyz)
              subst hyz'
              simp [hxy]
        · by_cases hyx : y < x
          · simp [hxy, hyx] at hab
          · have hxy' : x = y := le_antisymm (not_lt.mp hyx) (not_lt.mp hxy)
            subst hxy'
            simp only [hxy, if_false, lt_self_iff_false] at hab
            by_cases hxz : x < z
            · simp [hxz]
            · by_cases hzx : z < x
              · simp [hxz, hzx] at hbc
              · simp only [hxz, hzx, if_false] at hbc ⊢
                exact ih hab hbc

theorem strLt_asymm {a b : Text} (hab : strLt a b = true) : strLt b a = false := by
  cases h : strLt b a with
  | false => rfl
  | true =>
    have := strLt_trans hab h
    rw [strLt_irrefl] at this
    exact absurd this (by simp)

theorem strLt_connex {a b : Text} (hab : strLt a b = false) (hba : strLt b a = false) :
    a = b := by
  induction a generalizing b with
  | nil =>
    cases b with
    | nil => rfl
    | cons y ys => simp [strLt] at hab
  | cons x xs ih =>
    cases b with
    | nil => simp [strLt] at hba
    | cons y ys =>
      simp only [strLt] at hab hba
      by_cases hxy : x < y
      · simp [hxy] at hab
      · by_cases hyx : y < x
        · simp [hyx] at hba
        · have hxy' : x = y := le_antisymm (not_lt.mp hyx) (not_lt.mp hxy)
          subst hxy'
          simp only [hxy, if_false] at hab hba
          rw [ih hab hba]

theorem strLt_ne {a b : Text} (hab : strLt a b = true) : a ≠ b := by
  intro h
  subst h
  rw [strLt_irrefl] at hab
  exact absurd hab (by simp)

/-! ## The ordered map -/

theorem mapFind_none_of_forall_lt {F : Type} {o : Object F} {key : Text}
    (h : ∀ e ∈ o, strLt key e.1 = true) : mapFind o key = none := by
  induction o with
  | nil => rfl
  | cons e rest ih =>
    obtain ⟨k, v⟩ := e
    have hk : k ≠ key := fun hk => strLt_ne (h (k, v) (List.mem_cons_self _ _)) hk.symm
    simp only [mapFind, hk, if_false]
    exact ih fun e he => h e (List.mem_cons_of_mem _ he)

theorem mapFind_none_of_lt_head {F : Type} {k key : Text} {v : Node F} {rest : Object F}
    (ho : mapOrdered ((k, v) :: rest)) (hlt : strLt key k = true) :
    mapFind ((k, v) :: rest) key = none := by
  apply mapFind_none_of_forall_lt
  intro e he
  rcases List.mem_cons.mp he with rfl | he
  · exact hlt
  · exact strLt_trans hlt ((List.pairwise_cons.mp ho).1 e he)

theorem mapOrdered_tail {F : Type} {e : Text × Node F} {rest : Object F}
    (ho : mapOrdered (e :: rest)) : mapOrdered rest :=
  (List.pairwise_cons.mp ho).2

theorem mapSubscript_found {F : Type} {o : Object F} {key : Text} {v : Node F}
    (ho : mapOrdered o) (hf : mapFind o key = some v) : mapSubscript o key = (v, o) := by
  induction o with
  | nil => simp [mapFind] at hf
  | cons e rest ih =>
    obtain ⟨k, w⟩ := e
    by_cases h1 : strLt k key = true
    · have hk : k ≠ key := strLt_ne h1
      simp only [mapFind, hk, if_false] at hf
      simp [mapSubscript, h1, ih (mapOrdered_tail ho) hf]
    · by_cases h2 : strLt key k = true
      · rw [mapFind_none_of_lt_head ho h2] at hf
        exact absurd hf (by simp)
      · have hk : k = key := strLt_connex (by simpa using h1) (by simpa using h2)
        subst hk
        simp only [mapFind, if_true, Option.some.injEq] at hf
        subst hf
        simp [mapSubscript, strLt_irrefl]

theorem mapSubscript_missing {F : Type} {o : Object F} {key : Text}
    (hf : mapFind o key = none) : mapSubscript o key = (.null, mapAssign o key .null) := by
  induction o with
  | nil => rfl
  | cons e rest ih =>
    obtain ⟨k, w⟩ := e
    by_cases hk : k = key
    · simp [mapFind, hk] at hf
    · simp only [mapFind, hk, if_false] at hf
      by_cases h1 : strLt k key = true
      · simp [mapSubscript, mapAssign, h1, ih hf]
      · by_cases h2 : strLt key k = true
        · simp [mapSubscript, mapAssign, h1, h2]
        · exact absurd (strLt_connex (by simpa using h1) (by simpa using h2)) hk

theorem mapFind_mapAssign_self {F : Type} (o : Object F) (key : Text) (val : Node F) :
    mapFind (mapAssign o key val) key = some val := by
  induction o with
  | nil => simp [mapAssign, mapFind]
  | cons e rest ih =>
    obtain ⟨k, w⟩ := e
    by_cases h1 : strLt k key = true
    · simp [mapAssign, h1, mapFind, strLt_ne h1, ih]
    · by_cases h2 : strLt key k = true
      · simp [mapAssign, h1, h2, mapFind]
      · have hk : k = key := strLt_connex (by simpa using h1) (by simpa using h2)
        subst hk
        simp [mapAssign, strLt_irrefl, mapFind]

theorem mapFind_mapAssign_ne {F : Type} (o : Object F) {key k1 : Text} (val : Node F)
    (hne : k1 ≠ key) : mapFind (mapAssign o key val) k1 = mapFind o k1 := by
  induction o with
  | nil => simp [mapAssign, mapFind, hne.symm]
  | cons e rest ih =>
    obtain ⟨k, w⟩ := e
    by_cases h1 : strLt k key = true
    · simp [mapAssign, h1, mapFind, ih]
    · by_cases h2 : strLt key k = true
      · simp [mapAssign, h1, h2, mapFind, hne.symm]
      · have hk : k = key := strLt_connex (by simpa using h1) (by simpa using h2)
        subst hk
        simp [mapAssign, h1, mapFind, hne.symm]

theorem mem_mapAssign {F : Type} {o : Object F} {key : Text} {val : Node F}
    {e : Text × Node F} (he : e ∈ mapAssign o key val) : e = (key, val) ∨ e ∈ o := by
  induction o with
  | nil => simpa [mapAssign] using he
  | cons e0 rest ih =>
    obtain ⟨k, w⟩ := e0
    by_cases h1 : strLt k key = true
    · simp only [mapAssign, h1, ↓reduceIte] at he
      rw [List.mem_cons] at he
      cases he with
      | inl he => exact Or.inr (by simp [he])
      | inr he =>
        cases ih he with
        | inl h => exact Or.inl h
        | inr h => exact Or.inr (List.mem_cons_of_mem _ h)
    · by_cases h2 : strLt key k = true
      · simp only [mapAssign, h1, h2, Bool.false_eq_true, ↓reduceIte] at he
        rw [List.mem_cons] at he
        cases he with
        | inl he => exact Or.inl he
        | inr he => exact Or.inr he
      · have hk : k = key := strLt_connex (by simpa using h1) (by simpa using h2)
        simp only [mapAssign, h1, h2, Bool.false_eq_true, ↓reduceIte] at he
        rw [List.mem_cons] at he
        cases he with
        | inl he => exact Or.inl (by rw [he, hk])
        | inr he => exact Or.inr (List.mem_cons_of_mem _ he)

theorem mapOrdered_mapAssign {F : Type} {o : Object F} (key : Text) (val : Node F)
    (ho : mapOrdered o) : mapOrdered (mapAssign o key val) := by
  induction o with
  | nil => simp [mapAssign, mapOrdered]
  | cons e0 rest ih =>
    obtain ⟨k, w⟩ := e0
    have hp := List.pairwise_cons.mp ho
    by_cases h1 : strLt k key = true
    · simp only [mapAssign, h1, ↓reduceIte]
      refine List.pairwise_cons.mpr ⟨?_, ih hp.2⟩
      intro e he
      rcases mem_mapAssign he with rfl | he
      · exact h1
      · exact hp.1 e he
    · by_cases h2 : strLt key k = true
      · simp only [mapAssign, h1, h2, Bool.false_eq_true, ↓reduceIte]
        refine List.pairwise_cons.mpr ⟨?_, ho⟩
        intro e he
        rcases List.mem_cons.mp he with rfl | he
        · exact h2
        · exact strLt_trans h2 (hp.1 e he)
      · simp only [mapAssign, h1, h2, Bool.false_eq_true, ↓reduceIte]
        exact List.pairwise_cons.mpr ⟨hp.1, hp.2⟩

/-- Assigning to a key that is present keeps the sequence of keys. -/
theorem map_fst_mapAssign_found {F : Type} {o : Object F} {key : Text} {v : Node F}
    (val : Node F) (ho : mapOrdered o) (hf : mapFind o key = some v) :
    (mapAssign o key val).map Prod.fst = o.map Prod.fst := by
  induction o with
  | nil => simp [mapFind] at hf
  | cons e rest ih =>
    obtain ⟨k, w⟩ := e
    by_cases h1 : strLt k key = true
    · have hk : k ≠ key := strLt_ne h1
      simp only [mapFind, hk, if_false] at hf
      simp [mapAssign, h1, ih (mapOrdered_tail ho) hf]
    · by_cases h2 : strLt key k = true
      · rw [mapFind_none_of_lt_head ho h2] at hf
        exact absurd hf (by simp)
      · simp [mapAssign, h1, h2]

/-! ## The compact generator as a join -/

theorem generateArrayLoop_eq {F : Type} (L : FloatLib F) (a : Array F) (acc : Text) :
    generateArrayLoop L a acc = acc ++ (a.map fun x => generate L x ++ [',']).flatten := by
  induction a generalizing acc with
  | nil => simp [generateArrayLoop]
  | cons x rest ih => simp [generateArrayLoop, ih]

theorem generateObjectLoop_eq {F : Type} (L : FloatLib F) (o : Object F) (acc : Text) :
    generateObjectLoop L o acc =
      acc ++ (o.map fun e => ((generateString e.1 ++ [':']) ++ generate L e.2) ++ [',']).flatten := by
  induction o generalizing acc with
  | nil => simp [generateObjectLoop]
  | cons e rest ih =>
    obtain ⟨k, v⟩ := e
    simp [generateObjectLoop, ih]

theorem dropLast_join_sep {α : Type} (c : α) (xs : List (List α)) (h : xs ≠ []) :
    ((xs.map fun x => x ++ [c]).flatten).dropLast = [c].intercalate xs := by
  induction xs with
  | nil => exact absurd rfl h
  | cons x rest ih =>
    cases rest with
    | nil => simp [List.intercalate, List.dropLast_concat]
    | cons y r =>
      have hne : ((y :: r).map fun x => x ++ [c]).flatten ≠ [] := by simp
      rw [List.map_cons, List.flatten_cons, List.dropLast_append_of_ne_nil _ hne,
        ih (by simp)]
      simp [List.intercalate, List.intersperse]

theorem generate_array_eq {F : Type} (L : FloatLib F) (a : Array F) :
    generate L (.array a) = ['['] ++ [','].intercalate (a.map (generate L)) ++ [']'] := by
  cases a with
  | nil => rfl
  | cons x rest =>
    have h := dropLast_join_sep ',' ((x :: rest).map (generate L)) (by simp)
    rw [List.map_map] at h
    have hne : ((x :: rest).map fun y => generate L y ++ [',']).flatten ≠ [] := by simp
    simp only [generate, generateArrayLoop_eq, List.isEmpty_cons, Bool.false_eq_true,
      if_false]
    rw [List.dropLast_append_of_ne_nil _ hne]
    rw [← h]
    rfl

theorem generate_object_eq {F : Type} (L : FloatLib F) (o : Object F) :
    generate L (.object o) = ['{'] ++ [','].intercalate
      (o.map fun e => (['"'] ++ e.1 ++ ['"'] ++ [':']) ++ generate L e.2) ++ ['}'] := by
  cases o with
  | nil => rfl
  | cons x rest =>
    have h := dropLast_join_sep ','
      ((x :: rest).map fun e => (['"'] ++ e.1 ++ ['"'] ++ [':']) ++ generate L e.2) (by simp)
    rw [List.map_map] at h
    have hne : ((x :: rest).map fun e =>
        ((generateString e.1 ++ [':']) ++ generate L e.2) ++ [',']).flatten ≠ [] := by simp
    simp only [generate, generateObjectLoop_eq, List.isEmpty_cons, Bool.false_eq_true,
      if_false]
    rw [List.dropLast_append_of_ne_nil _ hne]
    rw [← h]
    rfl

theorem intercalate_single {α : Type} (sep g : List α) : sep.intercalate [g] = g := by
  simp [List.intercalate]

theorem intercalate_cons_cons {α : Type} (sep g g2 : List α) (gs : List (List α)) :
    sep.intercalate (g :: g2 :: gs) = g ++ (sep ++ sep.intercalate (g2 :: gs)) := by
  simp [List.intercalate, List.intersperse]

/-! ## The node accessors and the compact format -/

/-- C6. `Node::operator[](key)` fails exactly when the node holds no Object,
and then with `runtime_error("not an object")`. On an Object it returns the
value stored at `key`, the map unchanged; when `key` is absent it returns
`Null` after inserting `key` with `Null`; in both cases the returned value is
what the map then holds at `key`, every other key keeps its value and the keys
stay in order. -/
theorem operatorKey_contract {F : Type} (n : Node F) (key : Text) :
    ((∃ e, Node.operatorKey n key = .error e) ↔ n.isObject = false) ∧
    (∀ e, Node.operatorKey n key = .error e → e = .runtime_error "not an object") ∧
    (∀ o, n = .object o → mapOrdered o →
      ∃ v o1, Node.operatorKey n key = .ok (v, .object o1) ∧
        mapFind o1 key = some v ∧
        (∀ v0, mapFind o key = some v0 → v = v0 ∧ o1 = o) ∧
        (mapFind o key = none → v = .null) ∧
        (∀ k, k ≠ key → mapFind o1 k = mapFind o k) ∧
        mapOrdered o1) := by
  refine ⟨?_, ?_, ?_⟩
  · cases n <;> simp [Node.operatorKey, Value.isObject]
  · intro e he
    cases n <;> simp [Node.operatorKey] at he <;> exact he.symm
  · intro o hn ho
    subst hn
    refine ⟨(mapSubscript o key).1, (mapSubscript o key).2, rfl, ?_⟩
    cases hf : mapFind o key with
    | some v0 =>
      rw [mapSubscript_found ho hf]
      refine ⟨hf, ?_, ?_, fun _ _ => rfl, ho⟩
      · intro v1 h1
        exact ⟨by simpa using h1, rfl⟩
      · intro h
        exact absurd h (by simp)
    | none =>
      rw [mapSubscript_missing hf]
      refine ⟨mapFind_mapAssign_self o key .null, ?_, fun _ => rfl,
        fun k hk => mapFind_mapAssign_ne o .null hk, mapOrdered_mapAssign key .null ho⟩
      intro v0 h0
      exact absurd h0 (by simp)

/-- C6, at a concrete node: `{"a":1,"c":3}` read at the present key `c` and at
the absent key `b`. -/
theorem operatorKey_contract_witness :
    mapOrdered ([("a".toList, Value.int 1), ("c".toList, Value.int 3)] : Object Text) ∧
    Node.operatorKey (Value.object [("a".toList, Value.int 1), ("c".toList, Value.int 3)] : Node Text)
        "c".toList
      = .ok (.int 3, .object [("a".toList, .int 1), ("c".toList, .int 3)]) ∧
    Node.operatorKey (Value.object [("a".toList, Value.int 1), ("c".toList, Value.int 3)] : Node Text)
        "b".toList
      = .ok (.null, .object [("a".toList, .int 1), ("b".toList, .null), ("c".toList, .int 3)]) ∧
    ∃ v o1, Node.operatorKey
        (Value.object [("a".toList, Value.int 1), ("c".toList, Value.int 3)] : Node Text) "b".toList
        = .ok (v, .object o1) ∧ mapFind o1 "b".toList = some v := by
  have ho : mapOrdered ([("a".toList, Value.int 1), ("c".toList, Value.int 3)] : Object Text) := by
    simp [mapOrdered, strLt]
  refine ⟨ho, rfl, rfl, ?_⟩
  obtain ⟨v, o1, h1, h2, -⟩ :=
    (operatorKey_contract
      (Value.object [("a".toList, Value.int 1), ("c".toList, Value.int 3)] : Node Text)
      "b".toList).2.2 _ rfl ho
  exact ⟨v, o1, h1, h2⟩

/-- C7. `Node::operator[](index)` raises `runtime_error("not an array")`
exactly when the node holds no Array, raises `std::out_of_range` exactly when
the node holds an Array and `index >= length`, and otherwise returns the
element at `index` with the node unchanged; the two errors differ. -/
theorem operatorIndex_contract {F : Type} (n : Node F) (index : Nat) :
    (Node.operatorIndex n index = .error (.runtime_error "not an array") ↔ n.isArray = false) ∧
    (Node.operatorIndex n index = .error .out_of_range ↔
      ∃ a, n = .array a ∧ a.length ≤ index) ∧
    (∀ a, n = .array a → ∀ h : index < a.length,
      Node.operatorIndex n index = .ok (a.get ⟨index, h⟩, .array a)) ∧
    Exn.runtime_error "not an array" ≠ Exn.out_of_range := by
  refine ⟨?_, ?_, ?_, by simp⟩
  · cases n with
    | array a =>
      simp only [Node.operatorIndex, Value.isArray]
      cases a[index]? <;> simp
    | _ => simp [Node.operatorIndex, Value.isArray]
  · cases n with
    | array a =>
      simp only [Node.operatorIndex]
      cases h : a[index]? with
      | none => simpa using List.getElem?_eq_none_iff.mp h
      | some x =>
        have hlt : index < a.length := by
          by_contra hge
          rw [List.getElem?_eq_none_iff.mpr (Nat.le_of_not_lt hge)] at h
          exact absurd h (by simp)
        simp [hlt]
    | _ => simp [Node.operatorIndex]
  · intro a hn h
    subst hn
    simp [Node.operatorIndex, List.getElem?_eq_getElem h]

/-- C7, at a concrete node: index 1 of `[null,true]`. -/
theorem operatorIndex_contract_witness :
    Node.operatorIndex (Value.array [.null, .bool true] : Node Text) 1
      = .ok (.bool true, .array [.null, .bool true]) :=
  (operatorIndex_contract (Value.array [.null, .bool true] : Node Text) 1).2.2.1
    [.null, .bool true] rfl (by decide)

/-- C8. `Node::push` on an Array `xs` gives `xs` followed by the value: one
element more, the earlier ones unchanged and in place, the new one last. On
every other variant the node is unchanged. The function has no failing path:
it returns a node for every input. -/
theorem push_contract {F : Type} (n v : Node F) :
    (∀ xs, n = .array xs →
      Node.push n v = .array (xs ++ [v]) ∧
      (xs ++ [v]).length = xs.length + 1 ∧
      (∀ i, i < xs.length → (xs ++ [v])[i]? = xs[i]?) ∧
      (xs ++ [v])[xs.length]? = some v) ∧
    (n.isArray = false → Node.push n v = n) := by
  refine ⟨?_, ?_⟩
  · intro xs hn
    subst hn
    refine ⟨rfl, by simp, ?_, by simp⟩
    intro i hi
    exact List.getElem?_append_left hi
  · intro h
    cases n <;> first | rfl | simp [Value.isArray] at h

/-- C8, at concrete nodes: a push on `[null]` and a push on a String. -/
theorem push_contract_witness :
    Node.push (Value.array [.null] : Node Text) (.int 7) = .array [.null, .int 7] ∧
    Node.push (Value.string "s".toList : Node Text) (.int 7) = .string "s".toList :=
  ⟨((push_contract (Value.array [.null] : Node Text) (.int 7)).1 [.null] rfl).1,
    (push_contract (Value.string "s".toList : Node Text) (.int 7)).2 rfl⟩

/-- C10. `JsonGenerator::generate` renders an Array as `[`, the renderings
of its elements joined by one `,`, and `]`; an Object as `{`, the entries
`"key":value` joined by one `,`, and `}`. Nothing else is added, so the empty
containers render as `[]` and `{}`, also after parsing these two texts. -/
theorem generate_compact_format {F : Type} (L : FloatLib F) :
    (∀ a : Array F, generate L (.array a) =
      ['['] ++ [','].intercalate (a.map (generate L)) ++ [']']) ∧
    (∀ o : Object F, generate L (.object o) =
      ['{'] ++ [','].intercalate
        (o.map fun e => (['"'] ++ e.1 ++ ['"'] ++ [':']) ++ generate L e.2) ++ ['}']) ∧
    generate L (.array []) = "[]".toList ∧
    generate L (.object []) = "{}".toList ∧
    (∃ t, parser L "[]".toList = .ret (some t) ∧ generate L t = "[]".toList) ∧
    (∃ t, parser L "{}".toList = .ret (some t) ∧ generate L t = "{}".toList) :=
  ⟨generate_array_eq L, generate_object_eq L, rfl, rfl, ⟨.array [], rfl, rfl⟩,
    ⟨.object [], rfl, rfl⟩⟩

/-! ## Assignment through a chain of accessors -/

theorem wellFormedArray_iff {F : Type} (a : List (Value F)) :
    wellFormedArray a ↔ ∀ x ∈ a, x.wellFormed := by
  induction a with
  | nil => simp [wellFormedArray]
  | cons x rest ih => simp [wellFormedArray, ih]

theorem wellFormedObject_iff {F : Type} (o : List (Text × Value F)) :
    wellFormedObject o ↔ ∀ e ∈ o, e.2.wellFormed := by
  induction o with
  | nil => simp [wellFormedObject]
  | cons x rest ih => simp [wellFormedObject, ih]

theorem mapFind_mem {F : Type} {o : Object F} {k : Text} {c : Node F}
    (hf : mapFind o k = some c) : (k, c) ∈ o := by
  induction o with
  | nil => simp [mapFind] at hf
  | cons e rest ih =>
    obtain ⟨k0, w⟩ := e
    by_cases hk : k0 = k
    · subst hk
      simp only [mapFind, if_true, Option.some.injEq] at hf
      simp [hf]
    · simp only [mapFind, hk, if_false] at hf
      exact List.mem_cons_of_mem _ (ih hf)

theorem map_entry_of_absent {F : Type} {o : Object F} {k : Text} (g : Node F → Node F)
    (h : ∀ e ∈ o, e.1 ≠ k) : (o.map fun e => if e.1 = k then (e.1, g e.2) else e) = o := by
  induction o with
  | nil => rfl
  | cons e rest ih =>
    have he : e.1 ≠ k := h e (List.mem_cons_self _ _)
    simp only [List.map_cons, he, if_false]
    rw [ih fun e he => h e (List.mem_cons_of_mem _ he)]

theorem mapAssign_eq_map {F : Type} {o : Object F} {k : Text} {c : Node F}
    (g : Node F → Node F) (ho : mapOrdered o) (hf : mapFind o k = some c) :
    mapAssign o k (g c) = o.map fun e => if e.1 = k then (e.1, g e.2) else e := by
  induction o with
  | nil => simp [mapFind] at hf
  | cons e rest ih =>
    obtain ⟨k0, w⟩ := e
    by_cases h1 : strLt k0 k = true
    · have hk : k0 ≠ k := strLt_ne h1
      simp only [mapFind, hk, if_false] at hf
      simp [mapAssign, h1, hk, ih (mapOrdered_tail ho) hf]
    · by_cases h2 : strLt k k0 = true
      · rw [mapFind_none_of_lt_head ho h2] at hf
        exact absurd hf (by simp)
      · have hk : k0 = k := strLt_connex (by simpa using h1) (by simpa using h2)
        subst hk
        simp only [mapFind, if_true, Option.some.injEq] at hf
        subst hf
        have habs : ∀ e ∈ rest, e.1 ≠ k0 := fun e he =>
          (strLt_ne ((List.pairwise_cons.mp ho).1 e he)).symm
        simp [mapAssign, strLt_irrefl, map_entry_of_absent g habs]

theorem mapFind_map_entry {F : Type} (o : Object F) (k k1 : Text) (g : Node F → Node F) :
    mapFind (o.map fun e => if e.1 = k then (e.1, g e.2) else e) k1 =
      if k1 = k then (mapFind o k1).map g else mapFind o k1 := by
  induction o with
  | nil => simp [mapFind]
  | cons e rest ih =>
    obtain ⟨k0, w⟩ := e
    by_cases hk : k0 = k
    · subst hk
      by_cases hk1 : k0 = k1
      · subst hk1
        simp [mapFind]
      · have hk1s : ¬ k1 = k0 := fun h => hk1 h.symm
        simp [mapFind, hk1, hk1s, ih]
    · by_cases hk1 : k0 = k1
      · subst hk1
        simp [mapFind, hk]
      · simp [mapFind, hk, hk1, ih]

theorem map_fst_map_entry {F : Type} (o : Object F) (k : Text) (g : Node F → Node F) :
    (o.map fun e => if e.1 = k then (e.1, g e.2) else e).map Prod.fst = o.map Prod.fst := by
  induction o with
  | nil => rfl
  | cons e rest ih =>
    by_cases hk : e.1 = k
    · simp [hk] at ih ⊢
      exact ih
    · simp [hk] at ih ⊢
      exact ih

theorem mapOrdered_map_entry {F : Type} {o : Object F} (k : Text) (g : Node F → Node F)
    (ho : mapOrdered o) : mapOrdered (o.map fun e => if e.1 = k then (e.1, g e.2) else e) := by
  unfold mapOrdered at *
  rw [List.pairwise_map]
  refine ho.imp ?_
  intro a b hab
  by_cases ha : a.1 = k <;> by_cases hb : b.1 = k <;> simp [ha, hb] <;> simpa [ha, hb] using hab

theorem wellFormed_of_mapFind {F : Type} {o : Object F} {k : Text} {c : Node F}
    (hw : Value.wellFormed (.object o)) (hf : mapFind o k = some c) : c.wellFormed := by
  simp only [Value.wellFormed] at hw
  exact (wellFormedObject_iff o).mp hw.2 _ (mapFind_mem hf)

theorem wellFormed_of_getElem {F : Type} {a : Array F} {i : Nat} {c : Node F}
    (hw : Value.wellFormed (.array a)) (hf : a[i]? = some c) : c.wellFormed := by
  simp only [Value.wellFormed] at hw
  exact (wellFormedArray_iff a).mp hw _ (List.getElem?_mem hf)

/-- Under a valid path the chained accessors and the final write give the
tree with the subtree replaced. -/
theorem assign_eq_replaceAt {F : Type} (path : List Step) (T v old : Node F)
    (hT : T.wellFormed) (hvalid : getAt T path = some old) :
    Node.assign T path v = .ok (replaceAt T path v) := by
  induction path generalizing T with
  | nil => rfl
  | cons s path ih =>
    cases s with
    | key k =>
      cases T with
      | object o =>
        simp only [getAt] at hvalid
        cases hf : mapFind o k with
        | none => simp [hf] at hvalid
        | some c =>
          simp only [hf] at hvalid
          have hc := ih c (wellFormed_of_mapFind hT hf) hvalid
          have ho : mapOrdered o := by
            simp only [Value.wellFormed] at hT
            exact hT.1
          simp only [Node.assign, Node.operatorKey, mapSubscript_found ho hf, hc,
            Node.storeKey, replaceAt]
          rw [mapAssign_eq_map (fun x => replaceAt x path v) ho hf]
      | _ => simp [getAt] at hvalid
    | index i =>
      cases T with
      | array a =>
        simp only [getAt] at hvalid
        cases hf : a[i]? with
        | none => simp [hf] at hvalid
        | some c =>
          simp only [hf] at hvalid
          have hc := ih c (wellFormed_of_getElem hT hf) hvalid
          simp only [Node.assign, Node.operatorIndex, hf, hc, Node.storeIndex, replaceAt]
      | _ => simp [getAt] at hvalid

theorem getAt_replaceAt_initial {F : Type} (q r : List Step) (T n v : Node F)
    (hq : getAt T q = some n) :
    getAt (replaceAt T (q ++ r) v) q = some (replaceAt n r v) := by
  induction q generalizing T with
  | nil =>
    simp only [getAt, Option.some.injEq] at hq
    subst hq
    simp [getAt]
  | cons s q ih =>
    cases s with
    | key k =>
      cases T with
      | object o =>
        simp only [getAt] at hq
        cases hf : mapFind o k with
        | none => simp [hf] at hq
        | some c =>
          simp only [hf] at hq
          rw [List.cons_append]
          simp only [replaceAt, getAt]
          rw [mapFind_map_entry o k k (fun x => replaceAt x (q ++ r) v)]
          simp only [↓reduceIte, hf, Option.map_some']
          exact ih c hq
      | _ => simp [getAt] at hq
    | index i =>
      cases T with
      | array a =>
        simp only [getAt] at hq
        cases hf : a[i]? with
        | none => simp [hf] at hq
        | some c =>
          simp only [hf] at hq
          have hi : i < a.length := by
            by_contra hge
            rw [List.getElem?_eq_none_iff.mpr (Nat.le_of_not_lt hge)] at hf
            exact absurd hf (by simp)
          rw [List.cons_append]
          simp only [replaceAt, hf, getAt, List.getElem?_set_self hi]
          exact ih c hq
      | _ => simp [getAt] at hq

theorem getAt_replaceAt_disjoint {F : Type} (p q : List Step) (T v : Node F)
    (hqp : ¬ q <+: p) (hpq : ¬ p <+: q) :
    getAt (replaceAt T p v) q = getAt T q := by
  induction p generalizing T q with
  | nil => exact absurd (List.nil_prefix) hpq
  | cons s p ih =>
    cases q with
    | nil => exact absurd (List.nil_prefix) hqp
    | cons t q =>
      rw [List.cons_prefix_cons] at hqp hpq
      cases s with
      | key k =>
        cases T with
        | object o =>
          cases t with
          | key k1 =>
            simp only [replaceAt, getAt]
            rw [mapFind_map_entry o k k1 (fun x => replaceAt x p v)]
            by_cases hk : k1 = k
            · subst hk
              simp only [↓reduceIte]
              cases hf : mapFind o k1 with
              | none => rfl
              | some c =>
                simp only [Option.map_some']
                exact ih q c (fun h => hqp ⟨rfl, h⟩) (fun h => hpq ⟨rfl, h⟩)
            · simp only [hk, ↓reduceIte]
          | index j => simp [replaceAt, getAt]
        | _ => rfl
      | index i =>
        cases T with
        | array a =>
          simp only [replaceAt]
          cases hf : a[i]? with
          | none => rfl
          | some c =>
            simp only
            cases t with
            | key k1 => simp [getAt]
            | index j =>
              have hi : i < a.length := by
                by_contra hge
                rw [List.getElem?_eq_none_iff.mpr (Nat.le_of_not_lt hge)] at hf
                exact absurd hf (by simp)
              simp only [getAt]
              by_cases hj : i = j
              · subst hj
                simp only [List.getElem?_set_self hi, hf]
                exact ih q c (fun h => hqp ⟨rfl, h⟩) (fun h => hpq ⟨rfl, h⟩)
              · rw [List.getElem?_set_ne hj]
        | _ => rfl

theorem wellFormed_replaceAt {F : Type} (p : List Step) (T v : Node F)
    (hT : T.wellFormed) (hv : v.wellFormed) : (replaceAt T p v).wellFormed := by
  induction p generalizing T with
  | nil => exact hv
  | cons s p ih =>
    cases s with
    | key k =>
      cases T with
      | object o =>
        simp only [Value.wellFormed] at hT
        simp only [replaceAt, Value.wellFormed]
        refine ⟨mapOrdered_map_entry k (fun x => replaceAt x p v) hT.1, ?_⟩
        rw [wellFormedObject_iff]
        intro e he
        obtain ⟨e0, he0, rfl⟩ := List.mem_map.mp he
        have hw0 := (wellFormedObject_iff o).mp hT.2 e0 he0
        by_cases hk : e0.1 = k
        · simp only [hk, if_true]
          exact ih _ hw0
        · simp only [hk, if_false]
          exact hw0
      | _ => exact hT
    | index i =>
      cases T with
      | array a =>
        simp only [replaceAt]
        cases hf : a[i]? with
        | none => exact hT
        | some c =>
          simp only [Value.wellFormed] at hT ⊢
          rw [wellFormedArray_iff] at hT ⊢
          intro x hx
          rcases List.mem_or_eq_of_mem_set hx with h | h
          · exact hT x h
          · rw [h]
            exact ih c (hT c (List.getElem?_mem hf))
      | _ => exact hT

theorem replaceAt_object_keys {F : Type} (o : Object F) (s : Step) (r : List Step)
    (v : Node F) :
    ∃ o1, replaceAt (.object o) (s :: r) v = .object o1 ∧
      o1.map Prod.fst = o.map Prod.fst := by
  cases s with
  | key k => exact ⟨_, rfl, map_fst_map_entry o k (fun x => replaceAt x r v)⟩
  | index i => exact ⟨o, rfl, rfl⟩

theorem replaceAt_array_length {F : Type} (a : Array F) (s : Step) (r : List Step)
    (v : Node F) :
    ∃ a1, replaceAt (.array a) (s :: r) v = .array a1 ∧ a1.length = a.length := by
  cases s with
  | key k => exact ⟨a, rfl, rfl⟩
  | index i =>
    simp only [replaceAt]
    cases hf : a[i]? with
    | none => exact ⟨a, rfl, rfl⟩
    | some c => exact ⟨_, rfl, by simp⟩

/-- C9. For a tree `T` (its maps ordered, as `std::map` keeps them) and a
path valid in `T`, the assignment `T[s1]...[sk] = v` succeeds and leaves the
tree with the subtree at the path replaced by `v`: the compact rendering is
that of the replaced tree, the path now leads to `v`, every path that neither
extends the path nor is a prefix of it leads to what it led to before, every
Object above the assigned place keeps its keys in the same order and every
Array above it keeps its length, and all maps stay ordered (so their keys stay
unique). -/
theorem assign_through_access {F : Type} (L : FloatLib F) (T v old : Node F)
    (path : List Step) (hT : T.wellFormed) (hv : v.wellFormed)
    (hvalid : getAt T path = some old) :
    ∃ T1, Node.assign T path v = .ok T1 ∧
      generate L T1 = generate L (replaceAt T path v) ∧
      getAt T1 path = some v ∧
      (∀ q, ¬ q <+: path → ¬ path <+: q → getAt T1 q = getAt T q) ∧
      (∀ q r o, path = q ++ r → r ≠ [] → getAt T q = some (.object o) →
        ∃ o1, getAt T1 q = some (.object o1) ∧ o1.map Prod.fst = o.map Prod.fst) ∧
      (∀ q r a, path = q ++ r → r ≠ [] → getAt T q = some (.array a) →
        ∃ a1, getAt T1 q = some (.array a1) ∧ a1.length = a.length) ∧
      T1.wellFormed := by
  refine ⟨replaceAt T path v, assign_eq_replaceAt path T v old hT hvalid, rfl, ?_,
    fun q h1 h2 => getAt_replaceAt_disjoint path q T v h1 h2, ?_, ?_,
    wellFormed_replaceAt path T v hT hv⟩
  · have h := getAt_replaceAt_initial path [] T old v hvalid
    simpa [replaceAt] using h
  · intro q r o hp hr hq
    subst hp
    rw [getAt_replaceAt_initial q r T _ v hq]
    cases r with
    | nil => exact absurd rfl hr
    | cons s r =>
      obtain ⟨o1, h1, h2⟩ := replaceAt_object_keys o s r v
      exact ⟨o1, by rw [h1], h2⟩
  · intro q r a hp hr hq
    subst hp
    rw [getAt_replaceAt_initial q r T _ v hq]
    cases r with
    | nil => exact absurd rfl hr
    | cons s r =>
      obtain ⟨a1, h1, h2⟩ := replaceAt_array_length a s r v
      exact ⟨a1, by rw [h1], h2⟩

/-- C9, at the tree of the specification: `T = {"a":[{"b":1}]}` and
`T["a"][0]["b"] = 2` give the rendering `{"a":[{"b":2}]}`. -/
theorem assign_through_access_witness :
    Node.assign
        (Value.object [("a".toList, .array [.object [("b".toList, .int 1)]])] : Node Text)
        [.key "a".toList, .index 0, .key "b".toList] (.int 2)
      = .ok (.object [("a".toList, .array [.object [("b".toList, .int 2)]])]) ∧
    generate textFloat
        (Value.object [("a".toList, .array [.object [("b".toList, .int 2)]])] : Node Text)
      = "\x7b\"a\":[\x7b\"b\":2\x7d]\x7d".toList ∧
    ∃ T1, Node.assign
        (Value.object [("a".toList, .array [.object [("b".toList, .int 1)]])] : Node Text)
        [.key "a".toList, .index 0, .key "b".toList] (.int 2) = .ok T1 ∧
      generate textFloat T1 = "\x7b\"a\":[\x7b\"b\":2\x7d]\x7d".toList := by
  refine ⟨rfl, rfl, ?_⟩
  obtain ⟨T1, h1, h2, -⟩ := assign_through_access textFloat
    (Value.object [("a".toList, .array [.object [("b".toList, .int 1)]])] : Node Text)
    (.int 2) (.int 1) [.key "a".toList, .index 0, .key "b".toList]
    (by simp [Value.wellFormed, wellFormedObject, wellFormedArray, mapOrdered])
    (by simp [Value.wellFormed]) rfl
  exact ⟨T1, h1, by rw [h2]; rfl⟩

/-! ## The cursor of the leaf productions -/

theorem scanWhile_ge (p : Char → Bool) (l : Text) (pos : Nat) : pos ≤ scanWhile p l pos := by
  induction l generalizing pos with
  | nil => simp [scanWhile]
  | cons c rest ih =>
    simp only [scanWhile]
    split
    · exact Nat.le_trans (Nat.le_succ pos) (ih (pos + 1))
    · exact Nat.le_refl pos

theorem parseWhiteSpace_ge (s : Text) (pos : Nat) : pos ≤ parseWhiteSpace s pos :=
  scanWhile_ge _ _ _

theorem skipSeparator_ge (s : Text) (c : Char) (pos : Nat) : pos ≤ skipSeparator s c pos := by
  unfold skipSeparator
  refine Nat.le_trans (parseWhiteSpace_ge s pos) (Nat.le_trans ?_ (parseWhiteSpace_ge s _))
  split
  · exact Nat.le_succ _
  · exact Nat.le_refl _

theorem parseNull_progress {F : Type} {s : Text} {pos p1 : Nat} {v : Value F}
    (h : parseNull s pos = .ret (some v, p1)) : pos < p1 := by
  unfold parseNull substr at h
  split at h
  · simp at h
  · dsimp only at h
    split at h <;> simp at h
    omega

theorem parseTrue_progress {F : Type} {s : Text} {pos p1 : Nat} {v : Value F}
    (h : parseTrue s pos = .ret (some v, p1)) : pos < p1 := by
  unfold parseTrue substr at h
  split at h
  · simp at h
  · dsimp only at h
    split at h <;> simp at h
    omega

theorem parseFalse_progress {F : Type} {s : Text} {pos p1 : Nat} {v : Value F}
    (h : parseFalse s pos = .ret (some v, p1)) : pos < p1 := by
  unfold parseFalse substr at h
  split at h
  · simp at h
  · dsimp only at h
    split at h <;> simp at h
    omega

theorem scanQuote_progress {α : Type} (l : Text) (endpos : Nat) (k : Nat → Res α) (a : α)
    (h : scanQuote l endpos k = .ret a) : ∃ e, endpos ≤ e ∧ k e = .ret a := by
  induction l generalizing endpos with
  | nil => simp [scanQuote] at h
  | cons c rest ih =>
    simp only [scanQuote] at h
    split at h
    · obtain ⟨e, he, hk⟩ := ih (endpos + 1) h
      exact ⟨e, by omega, hk⟩
    · exact ⟨endpos, Nat.le_refl _, h⟩

theorem parseString_progress {F : Type} {s : Text} {pos p1 : Nat} {x : Option (Value F)}
    (h : parseString s pos = .ret (x, p1)) : pos < p1 := by
  unfold parseString at h
  simp only at h
  split at h
  · obtain ⟨e, he, hk⟩ := scanQuote_progress _ _ _ _ h
    unfold substr at hk
    split at hk <;> simp at hk
    omega
  · unfold substr at h
    split at h <;> simp at h
    omega

theorem stoi_some_ne_nil {number : Text} {i : Int} (h : stoi number = some i) :
    number ≠ [] := by
  intro hn
  subst hn
  simp [stoi] at h

theorem isFloat_ne_nil {number : Text} (h : isFloat number = true) : number ≠ [] := by
  intro hn
  subst hn
  simp [isFloat] at h

theorem parseNumber_progress {F : Type} {L : FloatLib F} {s : Text} {pos p1 : Nat}
    {v : Value F} (h : parseNumber L s pos = .ret (some v, p1)) : pos < p1 := by
  unfold parseNumber substr at h
  simp only at h
  split at h
  · simp at h
  · have hge := scanWhile_ge isNumberChar (List.drop pos s) pos
    have key : ∀ number : Text, number = List.take (scanWhile isNumberChar (List.drop pos s) pos - pos)
        (List.drop pos s) → number ≠ [] → pos < scanWhile isNumberChar (List.drop pos s) pos := by
      intro number hnum hne
      by_contra hlt
      have : scanWhile isNumberChar (List.drop pos s) pos - pos = 0 := by omega
      rw [this] at hnum
      simp at hnum
      exact hne hnum
    split at h
    · rename_i hf
      have := key _ rfl (isFloat_ne_nil hf)
      split at h <;> simp at h
      omega
    · split at h
      · rename_i ret hs
        have := key _ rfl (stoi_some_ne_nil hs)
        simp at h
        omega
      · simp at h

/-! ## Unfolding the recursive productions -/

theorem parseValue_succ {F : Type} (L : FloatLib F) (s : Text) (f pos : Nat) :
    parseValue L s (f + 1) pos =
      match s[parseWhiteSpace s pos]? with
      | none => .oobRead (parseWhiteSpace s pos)
      | some c =>
        if c = 'n' then parseNull s (parseWhiteSpace s pos)
        else if c = 't' then parseTrue s (parseWhiteSpace s pos)
        else if c = 'f' then parseFalse s (parseWhiteSpace s pos)
        else if c = '"' then parseString s (parseWhiteSpace s pos)
        else if c = '[' then parseArray L s f (parseWhiteSpace s pos)
        else if c = '{' then parseObject L s f (parseWhiteSpace s pos)
        else parseNumber L s (parseWhiteSpace s pos) := by
  simp only [parseValue, parseArray, parseObject]

theorem parseArrayLoop_succ {F : Type} (L : FloatLib F) (s : Text) (f pos : Nat)
    (arr : Array F) :
    parseArrayLoop L s (f + 1) pos arr =
      if pos < s.length ∧ s[pos]? ≠ some ']' then
        match parseValue L s f pos with
        | .ret (some value, p1) =>
          parseArrayLoop L s f (skipSeparator s ',' p1) (arr ++ [value])
        | .ret (none, _) => .throw .bad_optional_access
        | .throw e => .throw e
        | .oobRead i => .oobRead i
        | .outOfFuel => .outOfFuel
      else .ret (some (.array arr), pos + 1) := by
  simp only [parseArrayLoop, skipSeparator]

theorem parseObjectLoop_succ {F : Type} (L : FloatLib F) (s : Text) (f pos : Nat)
    (obj : Object F) :
    parseObjectLoop L s (f + 1) pos obj =
      if pos < s.length ∧ s[pos]? ≠ some '}' then
        match parseValue L s f pos with
        | .ret (some (.string key), p1) =>
          match parseValue L s f (skipSeparator s ':' p1) with
          | .ret (some val, p2) =>
            parseObjectLoop L s f (skipSeparator s ',' p2) (mapAssign obj key val)
          | .ret (none, _) => .throw .bad_optional_access
          | .throw e => .throw e
          | .oobRead i => .oobRead i
          | .outOfFuel => .outOfFuel
        | .ret (some _, p1) => .ret (none, p1)
        | .ret (none, _) => .throw .bad_optional_access
        | .throw e => .throw e
        | .oobRead i => .oobRead i
        | .outOfFuel => .outOfFuel
      else .ret (some (.object obj), pos + 1) := by
  simp only [parseObjectLoop, skipSeparator]

/-- A production that returns a value has moved the cursor forward; so has a
loop that returns. -/
theorem parse_progress {F : Type} (L : FloatLib F) (s : Text) (f : Nat) :
    (∀ pos v p1, parseValue L s f pos = .ret (some v, p1) → pos < p1) ∧
    (∀ pos arr x p1, parseArrayLoop L s f pos arr = .ret (x, p1) → pos < p1) ∧
    (∀ pos obj x p1, parseObjectLoop L s f pos obj = .ret (x, p1) → pos < p1) := by
  induction f with
  | zero =>
    refine ⟨?_, ?_, ?_⟩ <;> intros <;> simp_all [parseValue, parseArrayLoop, parseObjectLoop]
  | succ f ih =>
    obtain ⟨ihv, iha, iho⟩ := ih
    refine ⟨?_, ?_, ?_⟩
    · intro pos v p1 h
      rw [parseValue_succ] at h
      have hq := parseWhiteSpace_ge s pos
      split at h
      · simp at h
      · split_ifs at h
        · exact Nat.lt_of_le_of_lt hq (parseNull_progress h)
        · exact Nat.lt_of_le_of_lt hq (parseTrue_progress h)
        · exact Nat.lt_of_le_of_lt hq (parseFalse_progress h)
        · exact Nat.lt_of_le_of_lt hq (parseString_progress h)
        · have := iha _ _ _ _ h
          omega
        · have := iho _ _ _ _ h
          omega
        · exact Nat.lt_of_le_of_lt hq (parseNumber_progress h)
    · intro pos arr x p1 h
      rw [parseArrayLoop_succ] at h
      split_ifs at h
      · split at h
        · rename_i value q hv
          have h1 := ihv _ _ _ hv
          have h2 := iha _ _ _ _ h
          have h3 := skipSeparator_ge s ',' q
          omega
        all_goals simp at h
      · simp at h
        omega
    · intro pos obj x p1 h
      rw [parseObjectLoop_succ] at h
      split_ifs at h
      · split at h
        · rename_i key q hk
          have h1 := ihv _ _ _ hk
          have h3 := skipSeparator_ge s ':' q
          split at h
          · rename_i val q2 hv
            have h4 := ihv _ _ _ hv
            have h5 := iho _ _ _ _ h
            have h6 := skipSeparator_ge s ',' q2
            omega
          all_goals simp at h
        · rename_i v q hne hk
          have h1 := ihv _ _ _ hk
          simp at h
          omega
        all_goals simp at h
      · simp at h
        omega

/-! ## The recursion budget -/

/-- One more unit of budget does not change an outcome other than `outOfFuel`. -/
theorem parse_fuel_succ {F : Type} (L : FloatLib F) (s : Text) (f : Nat) :
    (∀ pos, parseValue L s f pos ≠ .outOfFuel →
      parseValue L s (f + 1) pos = parseValue L s f pos) ∧
    (∀ pos arr, parseArrayLoop L s f pos arr ≠ .outOfFuel →
      parseArrayLoop L s (f + 1) pos arr = parseArrayLoop L s f pos arr) ∧
    (∀ pos obj, parseObjectLoop L s f pos obj ≠ .outOfFuel →
      parseObjectLoop L s (f + 1) pos obj = parseObjectLoop L s f pos obj) := by
  induction f with
  | zero =>
    refine ⟨?_, ?_, ?_⟩ <;> intros <;> simp_all [parseValue, parseArrayLoop, parseObjectLoop]
  | succ f ih =>
    obtain ⟨ihv, iha, iho⟩ := ih
    refine ⟨?_, ?_, ?_⟩
    · intro pos h
      rw [parseValue_succ] at h
      rw [parseValue_succ L s (f + 1), parseValue_succ L s f]
      split
      · rfl
      · rename_i c hc
        simp only [hc] at h
        split_ifs at h ⊢
        all_goals first
          | rfl
          | exact iha _ _ h
          | exact iho _ _ h
    · intro pos arr h
      rw [parseArrayLoop_succ] at h
      rw [parseArrayLoop_succ L s (f + 1), parseArrayLoop_succ L s f]
      split_ifs at h ⊢
      · have hv : parseValue L s f pos ≠ .outOfFuel := by
          intro hv
          rw [hv] at h
          exact h rfl
        rw [ihv pos hv]
        cases hr : parseValue L s f pos with
        | ret a =>
          obtain ⟨x, q⟩ := a
          cases x with
          | none => rfl
          | some v =>
            simp only [hr] at h
            exact iha _ _ h
        | _ => rfl
      · rfl
    · intro pos obj h
      rw [parseObjectLoop_succ] at h
      rw [parseObjectLoop_succ L s (f + 1), parseObjectLoop_succ L s f]
      split_ifs at h ⊢
      · have hv : parseValue L s f pos ≠ .outOfFuel := by
          intro hv
          rw [hv] at h
          exact h rfl
        rw [ihv pos hv]
        cases hr : parseValue L s f pos with
        | ret a =>
          obtain ⟨x, q⟩ := a
          cases x with
          | none => rfl
          | some v =>
            cases v with
            | string key =>
              simp only [hr] at h
              have hv2 : parseValue L s f (skipSeparator s ':' q) ≠ .outOfFuel := by
                intro hv2
                rw [hv2] at h
                exact h rfl
              simp only
              rw [ihv _ hv2]
              cases hr2 : parseValue L s f (skipSeparator s ':' q) with
              | ret a2 =>
                obtain ⟨x2, q2⟩ := a2
                cases x2 with
                | none => rfl
                | some v2 =>
                  simp only [hr2] at h
                  exact iho _ _ h
              | _ => rfl
            | _ => rfl
        | _ => rfl
      · rfl

theorem parseValue_fuel_mono {F : Type} (L : FloatLib F) (s : Text) {f g : Nat} (pos : Nat)
    (hfg : f ≤ g) (h : parseValue L s f pos ≠ .outOfFuel) :
    parseValue L s g pos = parseValue L s f pos := by
  induction hfg with
  | refl => rfl
  | step _ ih =>
    rw [← ih]
    exact (parse_fuel_succ L s _).1 pos (by rw [ih]; exact h)

theorem parseArrayLoop_fuel_mono {F : Type} (L : FloatLib F) (s : Text) {f g : Nat}
    (pos : Nat) (arr : Array F) (hfg : f ≤ g) (h : parseArrayLoop L s f pos arr ≠ .outOfFuel) :
    parseArrayLoop L s g pos arr = parseArrayLoop L s f pos arr := by
  induction hfg with
  | refl => rfl
  | step _ ih =>
    rw [← ih]
    exact (parse_fuel_succ L s _).2.1 pos arr (by rw [ih]; exact h)

theorem parseObjectLoop_fuel_mono {F : Type} (L : FloatLib F) (s : Text) {f g : Nat}
    (pos : Nat) (obj : Object F) (hfg : f ≤ g)
    (h : parseObjectLoop L s f pos obj ≠ .outOfFuel) :
    parseObjectLoop L s g pos obj = parseObjectLoop L s f pos obj := by
  induction hfg with
  | refl => rfl
  | step _ ih =>
    rw [← ih]
    exact (parse_fuel_succ L s _).2.2 pos obj (by rw [ih]; exact h)

theorem substr_ne_outOfFuel {α : Type} (s : Text) (pos n : Nat) (k : Text → Res α)
    (hk : ∀ t, k t ≠ .outOfFuel) : substr s pos n k ≠ .outOfFuel := by
  unfold substr
  split
  · simp
  · exact hk _

theorem parseNull_ne_outOfFuel {F : Type} (s : Text) (pos : Nat) :
    (parseNull s pos : Res (Option (Value F) × Nat)) ≠ .outOfFuel := by
  apply substr_ne_outOfFuel
  intro t
  split <;> simp

theorem parseTrue_ne_outOfFuel {F : Type} (s : Text) (pos : Nat) :
    (parseTrue s pos : Res (Option (Value F) × Nat)) ≠ .outOfFuel := by
  apply substr_ne_outOfFuel
  intro t
  split <;> simp

theorem parseFalse_ne_outOfFuel {F : Type} (s : Text) (pos : Nat) :
    (parseFalse s pos : Res (Option (Value F) × Nat)) ≠ .outOfFuel := by
  apply substr_ne_outOfFuel
  intro t
  split <;> simp

theorem scanQuote_ne_outOfFuel {α : Type} (l : Text) (endpos : Nat) (k : Nat → Res α)
    (hk : ∀ e, k e ≠ .outOfFuel) : scanQuote l endpos k ≠ .outOfFuel := by
  induction l generalizing endpos with
  | nil => simp [scanQuote]
  | cons c rest ih =>
    simp only [scanQuote]
    split
    · exact ih _
    · exact hk _

theorem parseString_ne_outOfFuel {F : Type} (s : Text) (pos : Nat) :
    (parseString s pos : Res (Option (Value F) × Nat)) ≠ .outOfFuel := by
  have hk : ∀ e, substr s (pos + 1) (e - (pos + 1))
      (fun str => (.ret (some (.string str), e + 1) : Res (Option (Value F) × Nat)))
      ≠ .outOfFuel := by
    intro e
    apply substr_ne_outOfFuel
    intro t
    simp
  unfold parseString
  simp only
  split
  · exact scanQuote_ne_outOfFuel _ _ _ hk
  · exact hk _

theorem parseNumber_ne_outOfFuel {F : Type} (L : FloatLib F) (s : Text) (pos : Nat) :
    parseNumber L s pos ≠ .outOfFuel := by
  unfold parseNumber
  apply substr_ne_outOfFuel
  intro t
  split
  · split <;> simp
  · split <;> simp

/-- A budget of twice the text left plus one is enough for `parseValue`. -/
theorem parse_fuel_enough {F : Type} (L : FloatLib F) (s : Text) (f : Nat) :
    (∀ pos, 2 * (s.length - pos) + 1 ≤ f → parseValue L s f pos ≠ .outOfFuel) ∧
    (∀ pos arr, 2 * (s.length - pos) + 2 ≤ f → parseArrayLoop L s f pos arr ≠ .outOfFuel) ∧
    (∀ pos obj, 2 * (s.length - pos) + 2 ≤ f →
      parseObjectLoop L s f pos obj ≠ .outOfFuel) := by
  induction f with
  | zero => refine ⟨?_, ?_, ?_⟩ <;> intros <;> omega
  | succ f ih =>
    obtain ⟨ihv, iha, iho⟩ := ih
    obtain ⟨prv, pra, pro⟩ := parse_progress L s f
    refine ⟨?_, ?_, ?_⟩
    · intro pos hf
      rw [parseValue_succ]
      have hq := parseWhiteSpace_ge s pos
      split
      · simp
      · rename_i c hc
        have hlt : parseWhiteSpace s pos < s.length := by
          by_contra hge
          rw [List.getElem?_eq_none_iff.mpr (Nat.le_of_not_lt hge)] at hc
          exact absurd hc (by simp)
        split_ifs
        · exact parseNull_ne_outOfFuel _ _
        · exact parseTrue_ne_outOfFuel _ _
        · exact parseFalse_ne_outOfFuel _ _
        · exact parseString_ne_outOfFuel _ _
        · exact iha _ _ (by omega)
        · exact iho _ _ (by omega)
        · exact parseNumber_ne_outOfFuel _ _ _
    · intro pos arr hf
      rw [parseArrayLoop_succ]
      split_ifs with hg
      · have hv := ihv pos (by omega)
        split
        · rename_i value q hr
          have h1 := prv _ _ _ hr
          have h2 := skipSeparator_ge s ',' q
          exact iha _ _ (by omega)
        · simp
        · simp
        · simp
        · rename_i hr
          exact absurd hr hv
      · simp
    · intro pos obj hf
      rw [parseObjectLoop_succ]
      split_ifs with hg
      · have hv := ihv pos (by omega)
        split
        · rename_i key q hr
          have h1 := prv _ _ _ hr
          have h2 := skipSeparator_ge s ':' q
          have hv2 := ihv (skipSeparator s ':' q) (by omega)
          split
          · rename_i val q2 hr2
            have h3 := prv _ _ _ hr2
            have h4 := skipSeparator_ge s ',' q2
            exact iho _ _ (by omega)
          · simp
          · simp
          · simp
          · rename_i hr2
            exact absurd hr2 hv2
        · simp
        · simp
        · simp
        · simp
        · rename_i hr
          exact absurd hr hv
      · simp

/-- The budget `parser` gives `parseValue` is never exhausted. -/
theorem parseValue_fuel_enough {F : Type} (L : FloatLib F) (s : Text) (pos : Nat) :
    parseValue L s (2 * s.length + 1) pos ≠ .outOfFuel :=
  (parse_fuel_enough L s _).1 pos (by omega)

/-- Whatever `parseValue` gives on some budget without exhausting it, it gives
on the budget of `parser`. -/
theorem parseValue_at_budget {F : Type} (L : FloatLib F) (s : Text) {f pos : Nat}
    {r : Res (Option (Value F) × Nat)} (h : parseValue L s f pos = r)
    (hr : r ≠ .outOfFuel) (g : Nat) (hg : 2 * (s.length - pos) + 1 ≤ g) :
    parseValue L s g pos = r := by
  rcases Nat.le_total f g with hfg | hgf
  · rw [parseValue_fuel_mono L s pos hfg (by rw [h]; exact hr), h]
  · rw [← h]
    exact (parseValue_fuel_mono L s pos hgf ((parse_fuel_enough L s g).1 pos hg)).symm

/-- The `parser` terminates within its budget. -/
theorem parser_ne_outOfFuel {F : Type} (L : FloatLib F) (s : Text) :
    parser L s ≠ .outOfFuel := by
  unfold parser parse
  have h := parseValue_fuel_enough L s (parseWhiteSpace s 0)
  simp only
  split <;> simp_all

/-! ## Object keys that are not strings -/

theorem drop_of_getElem? {s : Text} {pos : Nat} {c : Char} (h : s[pos]? = some c) :
    s.drop pos = c :: s.drop (pos + 1) := by
  obtain ⟨hlt, hc⟩ := List.getElem?_eq_some_iff.mp h
  rw [List.drop_eq_getElem_cons hlt, hc]

theorem parseWhiteSpace_of_not_space {s : Text} {pos : Nat} {c : Char}
    (h : s[pos]? = some c) (hc : isspace c = false) : parseWhiteSpace s pos = pos := by
  unfold parseWhiteSpace
  rw [drop_of_getElem? h]
  simp [scanWhile, hc]

theorem parseWhiteSpace_of_end {s : Text} {pos : Nat} (h : s.length ≤ pos) :
    parseWhiteSpace s pos = pos := by
  unfold parseWhiteSpace
  rw [List.drop_eq_nil_of_le h]
  rfl

/-- At the closing brace `parseValue` falls to `parseNumber`, which scans
nothing and fails to convert the empty text. -/
theorem parseValue_at_closing_brace {F : Type} (L : FloatLib F) (s : Text) (f pos : Nat)
    (h : s[pos]? = some '}') : parseValue L s (f + 1) pos = .ret (none, pos) := by
  have hws : parseWhiteSpace s pos = pos := parseWhiteSpace_of_not_space h (by decide)
  have hlt : ¬ pos > s.length := by
    have := (List.getElem?_eq_some_iff.mp h).1
    omega
  rw [parseValue_succ, hws, h]
  simp only [parseNumber, substr, drop_of_getElem? h, scanWhile, hlt]
  simp [isNumberChar, isdigit, isFloat, stoi]

theorem parseValue_at_end {F : Type} (L : FloatLib F) (s : Text) (f pos : Nat)
    (h : s.length ≤ pos) : parseValue L s (f + 1) pos = .oobRead pos := by
  rw [parseValue_succ, parseWhiteSpace_of_end h, List.getElem?_eq_none_iff.mpr h]

/-- Where a value is parsed, there is text, and it does not start with `}`. -/
theorem parseValue_some_start {F : Type} {L : FloatLib F} {s : Text} {f pos p1 : Nat}
    {v : Value F} (h : parseValue L s f pos = .ret (some v, p1)) :
    pos < s.length ∧ s[pos]? ≠ some '}' := by
  cases f with
  | zero => simp [parseValue] at h
  | succ f =>
    constructor
    · by_contra hge
      rw [parseValue_at_end L s f pos (Nat.le_of_not_lt hge)] at h
      simp at h
    · intro hb
      rw [parseValue_at_closing_brace L s f pos hb] at h
      simp at h

/-- One round of the object loop on a key that is not a String returns the
absent value. -/
theorem parseObjectLoop_nonstring_key {F : Type} (L : FloatLib F) (s : Text)
    (f pos p1 : Nat) (obj : Object F) (v : Value F)
    (hkey : parseValue L s f pos = .ret (some v, p1)) (hv : v.isString = false) :
    parseObjectLoop L s (f + 1) pos obj = .ret (none, p1) := by
  obtain ⟨hlt, hb⟩ := parseValue_some_start hkey
  rw [parseObjectLoop_succ, if_pos ⟨hlt, hb⟩, hkey]
  cases v <;> first | rfl | simp [Value.isString] at hv

/-- C3. A value in key position that parses to something other than a String
makes the object, and with it the parse, fail with an absent result: at any
round of the object loop (whatever the entries read so far), and for `parser`
on a text whose first value is an object with such a first key. The outcome is
a normal return of the absent value: no exception, no tree. -/
theorem parser_nonstring_key_absent {F : Type} (L : FloatLib F) (s : Text) :
    (∀ f pos p1 obj v, parseValue L s f pos = .ret (some v, p1) → v.isString = false →
      parseObjectLoop L s (f + 1) pos obj = .ret (none, p1)) ∧
    (∀ f p1 v, s[parseWhiteSpace s 0]? = some '{' →
      parseValue L s f (parseWhiteSpace s 0 + 1) = .ret (some v, p1) → v.isString = false →
      parser L s = .ret none) := by
  refine ⟨fun f pos p1 obj v hkey hv => parseObjectLoop_nonstring_key L s f pos p1 obj v hkey hv,
    ?_⟩
  intro f p1 v hb hkey hv
  obtain ⟨hlt, -⟩ := parseValue_some_start hkey
  have hn : 2 * s.length + 1 = (2 * s.length - 1 + 1) + 1 := by omega
  have hkey2 : parseValue L s (2 * s.length - 1) (parseWhiteSpace s 0 + 1)
      = .ret (some v, p1) :=
    parseValue_at_budget L s hkey (by simp) _ (by omega)
  have hws : parseWhiteSpace s (parseWhiteSpace s 0) = parseWhiteSpace s 0 :=
    parseWhiteSpace_of_not_space hb (by decide)
  unfold parser parse
  simp only
  rw [hn, parseValue_succ, hws, hb]
  simp only [Char.reduceEq, if_false, if_true, parseObject]
  rw [parseObjectLoop_nonstring_key L s _ _ p1 [] v hkey2 hv]

/-- C3, at concrete texts: `{1:2}`, `{null:1}` and `{[1]:2}` all give
the absent result. -/
theorem parser_nonstring_key_absent_witness :
    parser textFloat "{1:2}".toList = .ret none ∧
    parser textFloat "{null:1}".toList = .ret none ∧
    parser textFloat "{[1]:2}".toList = .ret none ∧
    parser textFloat "\x7b\"a\":1,2:3\x7d".toList = .ret none :=
  ⟨(parser_nonstring_key_absent textFloat "{1:2}".toList).2 1 2 (.int 1) rfl rfl rfl,
    (parser_nonstring_key_absent textFloat "{null:1}".toList).2 1 5 .null rfl rfl rfl,
    (parser_nonstring_key_absent textFloat "{[1]:2}".toList).2 3 4 (.array [.int 1]) rfl rfl rfl,
    rfl⟩

/-! ## Inputs on which the code departs from the specification -/

/-- C2. On `[nul]`, `[x]` and `{"a":tru}` the inner value fails to parse and
`parseArray` / `parseObject` call `value()` on the absent result: the parse
ends with `std::bad_optional_access` leaving `parser`, not with an absent
result. -/
theorem parser_inner_failure_throws {F : Type} (L : FloatLib F) :
    parser L "[nul]".toList = .throw .bad_optional_access ∧
    parser L "[x]".toList = .throw .bad_optional_access ∧
    parser L "\x7b\"a\":tru\x7d".toList = .throw .bad_optional_access ∧
    parseNull (F := F) "[nul]".toList 1 = .ret (none, 1) ∧
    parse L "nul".toList 7 0 = .ret none :=
  ⟨rfl, rfl, rfl, rfl, rfl⟩

/-- C4. On the unterminated string `"abc` (4 characters) the scan of
`parseString` reads `json_str[4]`, outside the buffer, and no absent result
is returned; on the lone quote `"` the scan is not entered and the parse
returns a present, empty String. -/
theorem parser_unterminated_string {F : Type} (L : FloatLib F) :
    parser L "\"abc".toList = .oobRead 4 ∧
    "\"abc".toList.length = 4 ∧
    "\"abc".toList.tail = "abc".toList ∧
    parser L "\"".toList = .ret (some (.string [])) :=
  ⟨rfl, rfl, rfl, rfl⟩

/-- C5. The digits `2147483648` (2^31, well inside the 64-bit `Int`) are
rejected: `std::stoi` throws `std::out_of_range`, `parseNumber` turns that
into an absent value and so does `parser`. One less is accepted, and
`parser("42")` is `Int(42)`. -/
theorem parser_int_above_int_max {F : Type} (L : FloatLib F) :
    parser L "2147483648".toList = .ret none ∧
    decimalValue "2147483648".toList = 2 ^ 31 ∧
    stoi "2147483648".toList = none ∧
    parser L "2147483647".toList = .ret (some (.int 2147483647)) ∧
    parser L "42".toList = .ret (some (.int 42)) :=
  ⟨rfl, rfl, rfl, rfl, rfl⟩

/-- C1. The tree `Int(2147483648)` renders as `2147483648`, which `parser`
rejects, so the round trip through the compact generator fails on it; inside
an array the rejected element makes `parseArray` throw. -/
theorem roundtrip_int_above_int_max {F : Type} (L : FloatLib F) :
    generate L (.int 2147483648) = "2147483648".toList ∧
    parser L (generate L (.int 2147483648)) = .ret none ∧
    generate L (.array [.int 2147483648]) = "[2147483648]".toList ∧
    parser L (generate L (.array [.int 2147483648])) = .throw .bad_optional_access := by
  have h1 : generate L (.int 2147483648) = "2147483648".toList := rfl
  have h2 : generate L (.array [.int 2147483648]) = "[2147483648]".toList := rfl
  refine ⟨h1, ?_, h2, ?_⟩
  · rw [h1]
    rfl
  · rw [h2]
    rfl

/-! ## Reading a text at the cursor -/

theorem getElem?_of_drop {s : Text} {pos : Nat} {c : Char} {rest : Text}
    (h : s.drop pos = c :: rest) : s[pos]? = some c := by
  have := List.head?_drop s pos
  rw [h] at this
  simpa using this.symm

theorem lt_length_of_drop {s : Text} {pos : Nat} {c : Char} {rest : Text}
    (h : s.drop pos = c :: rest) : pos < s.length := by
  by_contra hge
  rw [List.drop_eq_nil_of_le (Nat.le_of_not_lt hge)] at h
  exact absurd h (by simp)

theorem drop_add_of_drop {s : Text} {pos : Nat} (a b : Text) (h : s.drop pos = a ++ b) :
    s.drop (pos + a.length) = b := by
  rw [← List.drop_drop, h, List.drop_left]

theorem drop_succ_of_drop {s : Text} {pos : Nat} {c : Char} {rest : Text}
    (h : s.drop pos = c :: rest) : s.drop (pos + 1) = rest :=
  drop_add_of_drop [c] rest h

theorem parseWhiteSpace_of_drop {s : Text} {pos : Nat} {c : Char} {rest : Text}
    (h : s.drop pos = c :: rest) (hc : isspace c = false) : parseWhiteSpace s pos = pos :=
  parseWhiteSpace_of_not_space (getElem?_of_drop h) hc

theorem scanWhile_append (p : Char → Bool) (d rest : Text) (pos : Nat)
    (hd : ∀ c ∈ d, p c = true) (hrest : ∀ c, rest.head? = some c → p c = false) :
    scanWhile p (d ++ rest) pos = pos + d.length := by
  induction d generalizing pos with
  | nil =>
    cases rest with
    | nil => rfl
    | cons c r => simp [scanWhile, hrest c rfl]
  | cons c d ih =>
    have hc : p c = true := hd c (List.mem_cons_self _ _)
    rw [List.cons_append]
    simp only [scanWhile, hc, if_true, List.length_cons]
    rw [ih (pos + 1) fun x hx => hd x (List.mem_cons_of_mem _ hx)]
    omega

/-! ## Decimal digits -/

theorem digitChar_spec (k : Nat) (hk : k < 10) :
    isdigit (Char.ofNat (48 + k)) = true ∧ digitValue (Char.ofNat (48 + k)) = k := by
  interval_cases k <;> exact ⟨by decide, by decide⟩

theorem natDigits_acc (f n : Nat) (acc : Text) :
    natDigits f n acc = natDigits f n [] ++ acc := by
  induction f generalizing n acc with
  | zero => rfl
  | succ f ih =>
    simp only [natDigits]
    split
    · rfl
    · rw [ih (n / 10) (Char.ofNat (48 + n % 10) :: acc), ih (n / 10) [Char.ofNat (48 + n % 10)]]
      simp

theorem decimalValue_append_singleton (ds : Text) (c : Char) :
    decimalValue (ds ++ [c]) = 10 * decimalValue ds + digitValue c := by
  simp [decimalValue, List.foldl_append]

/-- The digits `std::to_string` prints: at least one, all decimal, and their
value is the number. -/
theorem natDigits_spec (f n : Nat) (h : n < f) :
    natDigits f n [] ≠ [] ∧ (∀ c ∈ natDigits f n [], isdigit c = true) ∧
      decimalValue (natDigits f n []) = n := by
  induction f generalizing n with
  | zero => omega
  | succ f ih =>
    have hd := digitChar_spec (n % 10) (Nat.mod_lt _ (by decide))
    simp only [natDigits]
    split
    · rename_i h0
      have hn : n % 10 = n := by omega
      refine ⟨by simp, ?_, ?_⟩
      · intro c hc
        rw [List.mem_singleton] at hc
        rw [hc]
        exact hd.1
      · simp only [decimalValue, List.foldl_cons, List.foldl_nil, hd.2]
        omega
    · rename_i h0
      have hlt : n / 10 < f := by omega
      obtain ⟨h1, h2, h3⟩ := ih (n / 10) hlt
      rw [natDigits_acc]
      refine ⟨by simp, ?_, ?_⟩
      · intro c hc
        rcases List.mem_append.mp hc with hc | hc
        · exact h2 c hc
        · rw [List.mem_singleton] at hc
          rw [hc]
          exact hd.1
      · rw [decimalValue_append_singleton, h3, hd.2]
        omega

theorem isdigit_facts {c : Char} (h : isdigit c = true) :
    isspace c = false ∧ isNumberChar c = true ∧ c ≠ '.' ∧ c ≠ 'e' ∧ c ≠ 'n' ∧ c ≠ 't' ∧
      c ≠ 'f' ∧ c ≠ '"' ∧ c ≠ '[' ∧ c ≠ '{' ∧ c ≠ ']' ∧ c ≠ '}' := by
  refine ⟨?_, by simp [isNumberChar, h], ?_, ?_, ?_, ?_, ?_, ?_, ?_, ?_, ?_, ?_⟩
  · cases hs : isspace c with
    | false => rfl
    | true =>
      simp only [isspace, Bool.or_eq_true, decide_eq_true_eq] at hs
      rcases hs with ((((hs | hs) | hs) | hs) | hs) | hs <;> subst hs <;> revert h <;> decide
  all_goals
    intro hc
    subst hc
    revert h
    decide

theorem isFloat_of_digits {d : Text} (hd : ∀ c ∈ d, isdigit c = true) : isFloat d = false := by
  simp only [isFloat, Bool.or_eq_false_iff]
  constructor
  · cases h : d.contains '.' with
    | false => rfl
    | true =>
      have hm : '.' ∈ d := by simpa using h
      exact absurd (hd _ hm) (by decide)
  · cases h : d.contains 'e' with
    | false => rfl
    | true =>
      have hm : 'e' ∈ d := by simpa using h
      exact absurd (hd _ hm) (by decide)

theorem stoi_of_digits {d : Text} (hne : d ≠ []) (hd : ∀ c ∈ d, isdigit c = true) :
    stoi d = if decimalValue d ≤ INT_MAX then some (Int.ofNat (decimalValue d)) else none := by
  have htw : d.takeWhile isdigit = d := List.takeWhile_eq_self_iff.mpr hd
  simp only [stoi, htw]
  cases d with
  | nil => exact absurd rfl hne
  | cons c d => simp

/-- `parseNumber` on a run of digits that ends the text or is followed by a
character the scan stops at: an Int when the value fits an `int`, else the
absent value; the cursor is behind the digits. -/
theorem parseNumber_digits {F : Type} (L : FloatLib F) {s : Text} {pos : Nat} {d post : Text}
    (hs : s.drop pos = d ++ post) (hne : d ≠ []) (hd : ∀ c ∈ d, isdigit c = true)
    (hpost : ∀ c, post.head? = some c → isNumberChar c = false) :
    parseNumber L s pos =
      if decimalValue d ≤ INT_MAX then .ret (some (.int (Int.ofNat (decimalValue d))), pos + d.length)
      else .ret (none, pos + d.length) := by
  have hlen : ¬ pos > s.length := by
    intro hgt
    rw [List.drop_eq_nil_of_le (Nat.le_of_lt hgt)] at hs
    cases d with
    | nil => exact hne rfl
    | cons c d => simp at hs
  have hscan : scanWhile isNumberChar (d ++ post) pos = pos + d.length :=
    scanWhile_append _ _ _ _ (fun c hc => (isdigit_facts (hd c hc)).2.1) hpost
  unfold parseNumber substr
  rw [hs]
  simp only [hscan, hlen, if_false, Nat.add_sub_cancel_left, List.take_left',
    isFloat_of_digits hd, Bool.false_eq_true, stoi_of_digits hne hd]
  by_cases hv : decimalValue d ≤ INT_MAX
  · simp only [hv, if_true]
  · simp only [hv, if_false]

/-! ## Round trip of the scalars -/

theorem parseValue_dispatch {F : Type} (L : FloatLib F) {s : Text} {pos : Nat} {c : Char}
    {rest : Text} (f : Nat) (h : s.drop pos = c :: rest) (hc : isspace c = false) :
    parseValue L s (f + 1) pos =
      if c = 'n' then parseNull s pos
      else if c = 't' then parseTrue s pos
      else if c = 'f' then parseFalse s pos
      else if c = '"' then parseString s pos
      else if c = '[' then parseArray L s f pos
      else if c = '{' then parseObject L s f pos
      else parseNumber L s pos := by
  rw [parseValue_succ, parseWhiteSpace_of_drop h hc, getElem?_of_drop h]

theorem substr_of_drop {α : Type} {s : Text} {pos : Nat} (a b : Text) (k : Text → Res α)
    (h : s.drop pos = a ++ b) (hne : a ++ b ≠ []) : substr s pos a.length k = k a := by
  have hlen : ¬ pos > s.length := by
    intro hgt
    rw [List.drop_eq_nil_of_le (Nat.le_of_lt hgt)] at h
    exact hne h.symm
  simp only [substr, hlen, if_false, h, List.take_left']

theorem parsesBack_null {F : Type} (L : FloatLib F) : ParsesBack L (.null : Node F) := by
  intro s pos post hs _
  refine ⟨1, ?_⟩
  have hs1 : s.drop pos = 'n' :: ("ull".toList ++ post) := hs
  rw [parseValue_dispatch L 0 hs1 (by decide)]
  simp only [if_true, parseNull]
  exact substr_of_drop "null".toList post _ hs (by simp)

theorem parsesBack_bool {F : Type} (L : FloatLib F) (b : Bool) :
    ParsesBack L (.bool b : Node F) := by
  intro s pos post hs _
  refine ⟨1, ?_⟩
  cases b with
  | true =>
    have hs1 : s.drop pos = 't' :: ("rue".toList ++ post) := hs
    rw [parseValue_dispatch L 0 hs1 (by decide)]
    simp only [Char.reduceEq, if_true, if_false, parseTrue]
    exact substr_of_drop "true".toList post _ hs (by simp)
  | false =>
    have hs1 : s.drop pos = 'f' :: ("alse".toList ++ post) := hs
    rw [parseValue_dispatch L 0 hs1 (by decide)]
    simp only [Char.reduceEq, if_true, if_false, parseFalse]
    exact substr_of_drop "false".toList post _ hs (by simp)

theorem parseValue_digits {F : Type} (L : FloatLib F) {s : Text} {pos : Nat} {d post : Text}
    (f : Nat) (hs : s.drop pos = d ++ post) (hne : d ≠ []) (hd : ∀ c ∈ d, isdigit c = true)
    (hpost : ∀ c, post.head? = some c → isNumberChar c = false) :
    parseValue L s (f + 1) pos =
      if decimalValue d ≤ INT_MAX then .ret (some (.int (Int.ofNat (decimalValue d))), pos + d.length)
      else .ret (none, pos + d.length) := by
  cases d with
  | nil => exact absurd rfl hne
  | cons c d =>
    have hc := isdigit_facts (hd c (List.mem_cons_self _ _))
    obtain ⟨h1, -, -, -, h5, h6, h7, h8, h9, h10, -, -⟩ := hc
    have hs1 : s.drop pos = c :: (d ++ post) := hs
    rw [parseValue_dispatch L f hs1 h1]
    simp only [h5, h6, h7, h8, h9, h10, if_false]
    exact parseNumber_digits L hs hne hd hpost

theorem to_string_ofNat (n : Nat) : to_string (Int.ofNat n) = natDigits (n + 1) n [] := rfl

theorem parsesBack_int {F : Type} (L : FloatLib F) (i : Int) (h0 : 0 ≤ i)
    (h1 : i ≤ (INT_MAX : Int)) : ParsesBack L (.int i : Node F) := by
  intro s pos post hs hpost
  obtain ⟨n, rfl⟩ := Int.eq_ofNat_of_zero_le h0
  have hn : n ≤ INT_MAX := by exact_mod_cast h1
  obtain ⟨d1, d2, d3⟩ := natDigits_spec (n + 1) n (Nat.lt_succ_self n)
  refine ⟨1, ?_⟩
  have hg : generate L (.int (n : Int)) = natDigits (n + 1) n [] := rfl
  rw [hg] at hs ⊢
  rw [parseValue_digits L 0 hs d1 d2 hpost, d3, if_pos hn]
  rfl

theorem scanQuote_append {α : Type} (str rest : Text) (endpos : Nat) (k : Nat → Res α)
    (h : '"' ∉ str) : scanQuote (str ++ '"' :: rest) endpos k = k (endpos + str.length) := by
  induction str generalizing endpos with
  | nil => simp [scanQuote]
  | cons c str ih =>
    have hc : c ≠ '"' := fun hc => h (by simp [hc])
    have hstr : '"' ∉ str := fun hm => h (List.mem_cons_of_mem _ hm)
    rw [List.cons_append]
    simp only [scanQuote, hc, ne_eq, not_false_eq_true, if_true, List.length_cons]
    rw [ih (endpos + 1) hstr]
    congr 1
    omega

theorem parseString_closed {F : Type} {s : Text} {pos : Nat} (str post : Text)
    (hs : s.drop pos = '"' :: (str ++ '"' :: post)) (h : '"' ∉ str) :
    (parseString s pos : Res (Option (Value F) × Nat)) =
      .ret (some (.string str), pos + (str.length + 2)) := by
  have hs1 : s.drop (pos + 1) = str ++ '"' :: post := drop_succ_of_drop hs
  have hlt : pos + 1 < s.length := by
    by_contra hge
    rw [List.drop_eq_nil_of_le (Nat.le_of_not_lt hge)] at hs1
    exact absurd hs1.symm (by simp)
  unfold parseString
  simp only [hlt, if_true, hs1]
  rw [scanQuote_append str post (pos + 1) _ h, Nat.add_sub_cancel_left,
    substr_of_drop str ('"' :: post) _ hs1 (by simp)]
  have harith : pos + 1 + str.length + 1 = pos + (str.length + 2) := by omega
  rw [harith]

theorem parsesBack_string {F : Type} (L : FloatLib F) (str : Text) (h : '"' ∉ str) :
    ParsesBack L (.string str : Node F) := by
  intro s pos post hs _
  refine ⟨1, ?_⟩
  have hs1 : s.drop pos = '"' :: (str ++ '"' :: post) := by
    rw [hs]
    simp [generate, generateString]
  rw [parseValue_dispatch L 0 hs1 (by decide)]
  simp only [Char.reduceEq, if_true, if_false]
  rw [parseString_closed str post hs1 h]
  simp [generate, generateString]

/-! ## Round trip of the containers -/

/-- The rendering of a plain tree starts with a character that is no blank
and closes no container. -/
theorem generate_head {F : Type} (L : FloatLib F) (T : Node F) (hT : T.plain) :
    ∃ c tl, generate L T = c :: tl ∧ isspace c = false ∧ c ≠ ']' ∧ c ≠ '}' := by
  cases T with
  | null => exact ⟨'n', "ull".toList, rfl, by decide, by decide, by decide⟩
  | bool b =>
    cases b with
    | true => exact ⟨'t', "rue".toList, rfl, by decide, by decide, by decide⟩
    | false => exact ⟨'f', "alse".toList, rfl, by decide, by decide, by decide⟩
  | int i =>
    simp only [Value.plain] at hT
    obtain ⟨n, rfl⟩ := Int.eq_ofNat_of_zero_le hT.1
    obtain ⟨d1, d2, -⟩ := natDigits_spec (n + 1) n (Nat.lt_succ_self n)
    have hg : generate L (.int (n : Int)) = natDigits (n + 1) n [] := rfl
    rw [hg]
    cases hd : natDigits (n + 1) n [] with
    | nil => exact absurd hd d1
    | cons c tl =>
      have hc := isdigit_facts (d2 c (by rw [hd]; exact List.mem_cons_self _ _))
      exact ⟨c, tl, rfl, hc.1, hc.2.2.2.2.2.2.2.2.2.2.1, hc.2.2.2.2.2.2.2.2.2.2.2⟩
  | float x => simp [Value.plain] at hT
  | string str =>
    exact ⟨'"', str ++ ['"'], by simp [generate, generateString], by decide, by decide,
      by decide⟩
  | array a =>
    rw [generate_array_eq]
    exact ⟨'[', _, rfl, by decide, by decide, by decide⟩
  | object o =>
    rw [generate_object_eq]
    exact ⟨'{', _, rfl, by decide, by decide, by decide⟩

theorem skipSeparator_at_other {s : Text} {p : Nat} {c c1 : Char} {r : Text}
    (hs : s.drop p = c1 :: r) (hsp : isspace c1 = false) (hne : c1 ≠ c) :
    skipSeparator s c p = p := by
  have hget := getElem?_of_drop hs
  have hne2 : ¬ (p < s.length ∧ s[p]? = some c) := by
    rw [hget]
    intro h
    exact hne (by simpa using h.2)
  unfold skipSeparator
  simp only [parseWhiteSpace_of_drop hs hsp, hne2, if_false]

theorem skipSeparator_at_sep {s : Text} {p : Nat} {c c2 : Char} {r : Text}
    (hs : s.drop p = c :: c2 :: r) (hsp : isspace c = false) (hsp2 : isspace c2 = false) :
    skipSeparator s c p = p + 1 := by
  have hget := getElem?_of_drop hs
  have hlt := lt_length_of_drop hs
  have hs2 : s.drop (p + 1) = c2 :: r := drop_succ_of_drop hs
  unfold skipSeparator
  simp only [parseWhiteSpace_of_drop hs hsp, hget, hlt, and_self, if_true,
    parseWhiteSpace_of_drop hs2 hsp2]

theorem parseArrayLoop_step {F : Type} {L : FloatLib F} {s : Text} {pos p1 : Nat}
    {arr : Array F} {v : Node F} {r : Res (Option (Value F) × Nat)}
    (hlt : pos < s.length) (hne : s[pos]? ≠ some ']')
    (hv : ∃ f, parseValue L s f pos = .ret (some v, p1))
    (hl : ∃ f, parseArrayLoop L s f (skipSeparator s ',' p1) (arr ++ [v]) = r)
    (hr : r ≠ .outOfFuel) : ∃ f, parseArrayLoop L s f pos arr = r := by
  obtain ⟨f1, h1⟩ := hv
  obtain ⟨f2, h2⟩ := hl
  refine ⟨max f1 f2 + 1, ?_⟩
  rw [parseArrayLoop_succ, if_pos ⟨hlt, hne⟩,
    parseValue_fuel_mono L s pos (le_max_left f1 f2) (by rw [h1]; simp), h1]
  simp only
  rw [parseArrayLoop_fuel_mono L s _ _ (le_max_right f1 f2) (by rw [h2]; exact hr), h2]

theorem parseObjectLoop_step {F : Type} {L : FloatLib F} {s : Text} {pos p1 p2 : Nat}
    {obj : Object F} {key : Text} {v : Node F} {r : Res (Option (Value F) × Nat)}
    (hlt : pos < s.length) (hne : s[pos]? ≠ some '}')
    (hk : ∃ f, parseValue L s f pos = .ret (some (.string key), p1))
    (hv : ∃ f, parseValue L s f (skipSeparator s ':' p1) = .ret (some v, p2))
    (hl : ∃ f, parseObjectLoop L s f (skipSeparator s ',' p2) (mapAssign obj key v) = r)
    (hr : r ≠ .outOfFuel) : ∃ f, parseObjectLoop L s f pos obj = r := by
  obtain ⟨f1, h1⟩ := hk
  obtain ⟨f2, h2⟩ := hv
  obtain ⟨f3, h3⟩ := hl
  refine ⟨max f1 (max f2 f3) + 1, ?_⟩
  have l1 : f1 ≤ max f1 (max f2 f3) := le_max_left _ _
  have l2 : f2 ≤ max f1 (max f2 f3) := le_trans (le_max_left _ _) (le_max_right _ _)
  have l3 : f3 ≤ max f1 (max f2 f3) := le_trans (le_max_right _ _) (le_max_right _ _)
  rw [parseObjectLoop_succ, if_pos ⟨hlt, hne⟩,
    parseValue_fuel_mono L s pos l1 (by rw [h1]; simp), h1]
  simp only
  rw [parseValue_fuel_mono L s _ l2 (by rw [h2]; simp), h2]
  simp only
  rw [parseObjectLoop_fuel_mono L s _ _ l3 (by rw [h3]; exact hr), h3]

theorem isNumberChar_closers :
    isNumberChar ']' = false ∧ isNumberChar '}' = false ∧ isNumberChar ',' = false ∧
      isNumberChar ':' = false := by decide

/-- The array loop reads back the elements that are left, up to the closing
bracket. -/
theorem parseArrayLoop_elements {F : Type} (L : FloatLib F) (rest : Array F)
    (h : ∀ x ∈ rest, ParsesBack L x ∧ x.plain) (s : Text) (pos : Nat) (arr : Array F)
    (post : Text)
    (hs : s.drop pos = [','].intercalate (rest.map (generate L)) ++ ']' :: post) :
    ∃ f, parseArrayLoop L s f pos arr =
      .ret (some (.array (arr ++ rest)),
        pos + ([','].intercalate (rest.map (generate L))).length + 1) := by
  induction rest generalizing pos arr with
  | nil =>
    refine ⟨1, ?_⟩
    have hs1 : s.drop pos = ']' :: post := by simpa [List.intercalate] using hs
    have hg : ¬ (pos < s.length ∧ s[pos]? ≠ some ']') := by
      rw [getElem?_of_drop hs1]
      simp
    rw [parseArrayLoop_succ, if_neg hg]
    simp [List.intercalate]
  | cons x xs ih =>
    obtain ⟨hx, hxp⟩ := h x (List.mem_cons_self _ _)
    have hxs : ∀ y ∈ xs, ParsesBack L y ∧ y.plain := fun y hy =>
      h y (List.mem_cons_of_mem _ hy)
    obtain ⟨c, tl, hgen, hsp, hb1, -⟩ := generate_head L x hxp
    cases xs with
    | nil =>
      have hs1 : s.drop pos = generate L x ++ ']' :: post := by
        simpa [intercalate_single] using hs
      have hs0 : s.drop pos = c :: (tl ++ ']' :: post) := by rw [hs1, hgen]; rfl
      have hv := hx s pos (']' :: post) hs1 (by
        intro c hc
        simp only [List.head?_cons, Option.some.injEq] at hc
        rw [← hc]
        exact isNumberChar_closers.1)
      have hs2 : s.drop (pos + (generate L x).length) = ']' :: post :=
        drop_add_of_drop _ _ hs1
      have hsep : skipSeparator s ',' (pos + (generate L x).length)
          = pos + (generate L x).length :=
        skipSeparator_at_other hs2 (by decide) (by decide)
      obtain ⟨f2, hf2⟩ := ih hxs
        (pos + (generate L x).length) (arr ++ [x]) (by simpa [List.intercalate] using hs2)
      rw [← hsep] at hf2
      have hres := parseArrayLoop_step (lt_length_of_drop hs0)
        (by rw [getElem?_of_drop hs0]; simpa using hb1) hv ⟨f2, hf2⟩ (by simp)
      obtain ⟨f, hf⟩ := hres
      rw [hsep] at hf
      refine ⟨f, ?_⟩
      rw [hf]
      simp [List.intercalate, Nat.add_assoc]
    | cons y ys =>
      obtain ⟨hy, hyp⟩ := hxs y (List.mem_cons_self _ _)
      obtain ⟨c2, tl2, hgen2, hsp2, -, -⟩ := generate_head L y hyp
      have hj : [','].intercalate ((x :: y :: ys).map (generate L))
          = generate L x ++ ([','] ++ [','].intercalate ((y :: ys).map (generate L))) := by
        simp only [List.map_cons]
        exact intercalate_cons_cons _ _ _ _
      have hs1 : s.drop pos = generate L x ++
          (',' :: ([','].intercalate ((y :: ys).map (generate L)) ++ ']' :: post)) := by
        rw [hs, hj]
        simp
      have hs0 : s.drop pos = c :: (tl ++
          (',' :: ([','].intercalate ((y :: ys).map (generate L)) ++ ']' :: post))) := by
        rw [hs1, hgen]
        rfl
      have hv := hx s pos _ hs1 (by
        intro c hc
        simp only [List.head?_cons, Option.some.injEq] at hc
        rw [← hc]
        exact isNumberChar_closers.2.2.1)
      have hs2 := drop_add_of_drop _ _ hs1
      have hy0 : ∃ r2, [','].intercalate ((y :: ys).map (generate L)) ++ ']' :: post
          = c2 :: r2 := by
        cases ys with
        | nil => exact ⟨tl2 ++ ']' :: post, by simp [intercalate_single, hgen2]⟩
        | cons z zs =>
          refine ⟨tl2 ++ ([','] ++ [','].intercalate ((z :: zs).map (generate L)))
            ++ ']' :: post, ?_⟩
          simp only [List.map_cons]
          rw [intercalate_cons_cons, hgen2]
          simp
      obtain ⟨r2, hr2⟩ := hy0
      have hsep : skipSeparator s ',' (pos + (generate L x).length)
          = pos + (generate L x).length + 1 :=
        skipSeparator_at_sep (by rw [hs2, hr2]) (by decide) hsp2
      obtain ⟨f2, hf2⟩ := ih hxs (pos + (generate L x).length + 1) (arr ++ [x])
        (drop_succ_of_drop hs2)
      rw [← hsep] at hf2
      have hres := parseArrayLoop_step (lt_length_of_drop hs0)
        (by rw [getElem?_of_drop hs0]; simpa using hb1) hv ⟨f2, hf2⟩ (by simp)
      obtain ⟨f, hf⟩ := hres
      rw [hsep] at hf
      refine ⟨f, ?_⟩
      rw [hf, hj]
      simp only [List.append_assoc, List.singleton_append, List.length_append,
        List.length_cons]
      congr 2
      omega

theorem parsesBack_array {F : Type} (L : FloatLib F) (a : Array F)
    (h : ∀ x ∈ a, ParsesBack L x ∧ x.plain) : ParsesBack L (.array a) := by
  intro s pos post hs _
  rw [generate_array_eq] at hs ⊢
  have hs0 : s.drop pos = '[' :: ([','].intercalate (a.map (generate L)) ++ ']' :: post) := by
    rw [hs]
    simp
  obtain ⟨f, hf⟩ := parseArrayLoop_elements L a h s (pos + 1) [] post (drop_succ_of_drop hs0)
  refine ⟨f + 1, ?_⟩
  rw [parseValue_dispatch L f hs0 (by decide)]
  simp only [Char.reduceEq, if_true, if_false, parseArray]
  rw [hf]
  simp only [List.nil_append, List.length_append, List.length_cons, List.length_nil]
  congr 2
  omega

theorem mapAssign_append_last {F : Type} (obj : Object F) (k : Text) (v : Node F)
    (h : ∀ e ∈ obj, strLt e.1 k = true) : mapAssign obj k v = obj ++ [(k, v)] := by
  induction obj with
  | nil => rfl
  | cons e rest ih =>
    obtain ⟨k0, w⟩ := e
    have h0 : strLt k0 k = true := h (k0, w) (List.mem_cons_self _ _)
    simp only [mapAssign, h0, if_true, List.cons_append]
    rw [ih fun e he => h e (List.mem_cons_of_mem _ he)]

theorem entry_text_eq {F : Type} (L : FloatLib F) (e : Text × Node F) :
    (['"'] ++ e.1 ++ ['"'] ++ [':']) ++ generate L e.2 =
      generate L (.string e.1) ++ (':' :: generate L e.2) := by
  simp [generate, generateString]

theorem entries_text_head {F : Type} (L : FloatLib F) (y : Text × Node F)
    (ys : Object F) (post : Text) :
    ∃ r2, [','].intercalate
      ((y :: ys).map fun e => (['"'] ++ e.1 ++ ['"'] ++ [':']) ++ generate L e.2) ++ post
        = '"' :: r2 := by
  cases ys with
  | nil =>
    exact ⟨(y.1 ++ ['"'] ++ [':'] ++ generate L y.2) ++ post, by simp [intercalate_single]⟩
  | cons z zs =>
    refine ⟨(y.1 ++ ['"'] ++ [':'] ++ generate L y.2) ++ ([','] ++ [','].intercalate
      ((z :: zs).map fun e => (['"'] ++ e.1 ++ ['"'] ++ [':']) ++ generate L e.2)) ++ post, ?_⟩
    simp only [List.map_cons]
    rw [intercalate_cons_cons]
    simp

theorem parseObjectLoop_step_at {F : Type} {L : FloatLib F} {s : Text}
    {pos p1 q1 p2 q2 : Nat} {obj obj1 : Object F} {key : Text} {v : Node F}
    {r : Res (Option (Value F) × Nat)}
    (hlt : pos < s.length) (hne : s[pos]? ≠ some '}')
    (hk : ∃ f, parseValue L s f pos = .ret (some (.string key), p1))
    (hq1 : skipSeparator s ':' p1 = q1)
    (hv : ∃ f, parseValue L s f q1 = .ret (some v, p2))
    (hq2 : skipSeparator s ',' p2 = q2) (hobj : mapAssign obj key v = obj1)
    (hl : ∃ f, parseObjectLoop L s f q2 obj1 = r)
    (hr : r ≠ .outOfFuel) : ∃ f, parseObjectLoop L s f pos obj = r := by
  subst hq1 hq2 hobj
  exact parseObjectLoop_step hlt hne hk hv hl hr

/-- The object loop reads back the entries that are left, up to the closing
brace; the entries come in key order, so each one is appended to the map. -/
theorem parseObjectLoop_entries {F : Type} (L : FloatLib F) (rest : Object F)
    (h : ∀ e ∈ rest, '"' ∉ e.1 ∧ ParsesBack L e.2 ∧ e.2.plain) (s : Text) (pos : Nat)
    (obj : Object F) (post : Text) (hord : mapOrdered (obj ++ rest))
    (hs : s.drop pos = [','].intercalate
      (rest.map fun e => (['"'] ++ e.1 ++ ['"'] ++ [':']) ++ generate L e.2) ++ '}' :: post) :
    ∃ f, parseObjectLoop L s f pos obj =
      .ret (some (.object (obj ++ rest)),
        pos + ([','].intercalate
          (rest.map fun e => (['"'] ++ e.1 ++ ['"'] ++ [':']) ++ generate L e.2)).length + 1) := by
  induction rest generalizing pos obj with
  | nil =>
    refine ⟨1, ?_⟩
    have hs1 : s.drop pos = '}' :: post := by simpa [List.intercalate] using hs
    have hg : ¬ (pos < s.length ∧ s[pos]? ≠ some '}') := by
      rw [getElem?_of_drop hs1]
      simp
    rw [parseObjectLoop_succ, if_neg hg]
    simp [List.intercalate]
  | cons e xs ih =>
    obtain ⟨hq, hx, hxp⟩ := h e (List.mem_cons_self _ _)
    have hxs : ∀ y ∈ xs, '"' ∉ y.1 ∧ ParsesBack L y.2 ∧ y.2.plain := fun y hy =>
      h y (List.mem_cons_of_mem _ hy)
    obtain ⟨c, tl, hgen, hsp, -, -⟩ := generate_head L e.2 hxp
    have hkey := parsesBack_string L e.1 hq
    have hassign : mapAssign obj e.1 e.2 = obj ++ [e] := by
      rw [mapAssign_append_last obj e.1 e.2]
      intro e0 he0
      have := List.pairwise_append.mp hord
      exact this.2.2 e0 he0 e (List.mem_cons_self _ _)
    have hord2 : mapOrdered ((obj ++ [e]) ++ xs) := by simpa using hord
    -- the text from the cursor: key, colon, value, then what follows the entry
    have key : ∀ (follow : Text) (p3 : Nat) (c3 : Char) (r3 : Text),
        s.drop pos = generate L (.string e.1) ++ (':' :: (generate L e.2 ++ follow)) →
        follow = c3 :: r3 → isNumberChar c3 = false →
        skipSeparator s ','
          (pos + (generate L (.string e.1)).length + 1 + (generate L e.2).length) = p3 →
        (∃ f, parseObjectLoop L s f p3 (obj ++ [e]) =
          .ret (some (.object (obj ++ [e] ++ xs)),
            p3 + ([','].intercalate
              (xs.map fun e => (['"'] ++ e.1 ++ ['"'] ++ [':']) ++ generate L e.2)).length + 1)) →
        ∃ f, parseObjectLoop L s f pos obj =
          .ret (some (.object (obj ++ [e] ++ xs)),
            p3 + ([','].intercalate
              (xs.map fun e => (['"'] ++ e.1 ++ ['"'] ++ [':']) ++ generate L e.2)).length + 1) := by
      intro follow p3 c3 r3 hs1 hfollow hc3 hsep hloop
      have hs0 : s.drop pos = '"' :: (e.1 ++ '"' :: ':' :: (generate L e.2 ++ follow)) := by
        rw [hs1]
        simp [generate, generateString]
      have hk := hkey s pos (':' :: (generate L e.2 ++ follow)) hs1 (by
        intro c hc
        simp only [List.head?_cons, Option.some.injEq] at hc
        rw [← hc]
        exact isNumberChar_closers.2.2.2)
      have hs2 := drop_add_of_drop _ _ hs1
      have hsep1 : skipSeparator s ':' (pos + (generate L (.string e.1)).length)
          = pos + (generate L (.string e.1)).length + 1 :=
        skipSeparator_at_sep (by rw [hs2, hgen]; rfl) (by decide) hsp
      have hs3 : s.drop (pos + (generate L (.string e.1)).length + 1)
          = generate L e.2 ++ follow := drop_succ_of_drop hs2
      have hv := hx s _ follow hs3 (by
        intro c hc
        rw [hfollow] at hc
        simp only [List.head?_cons, Option.some.injEq] at hc
        rw [← hc]
        exact hc3)
      exact parseObjectLoop_step_at (lt_length_of_drop hs0)
        (by rw [getElem?_of_drop hs0]; decide) hk hsep1 hv hsep hassign hloop (by simp)
    cases xs with
    | nil =>
      have hs1 : s.drop pos = generate L (.string e.1) ++
          (':' :: (generate L e.2 ++ '}' :: post)) := by
        rw [hs]
        simp [intercalate_single, generate, generateString]
      have hs4 : s.drop (pos + (generate L (.string e.1)).length + 1 + (generate L e.2).length)
          = '}' :: post :=
        drop_add_of_drop _ _ (drop_succ_of_drop (drop_add_of_drop _ _ hs1))
      obtain ⟨f2, hf2⟩ := ih hxs
        (pos + (generate L (.string e.1)).length + 1 + (generate L e.2).length) (obj ++ [e])
        hord2 (by simpa [List.intercalate] using hs4)
      obtain ⟨f, hf⟩ := key ('}' :: post) _ '}' post hs1 rfl isNumberChar_closers.2.1
        (skipSeparator_at_other hs4 (by decide) (by decide)) ⟨f2, hf2⟩
      refine ⟨f, ?_⟩
      rw [hf]
      simp [List.intercalate, generate, generateString]
      omega
    | cons y ys =>
      have hj : [','].intercalate
          ((e :: y :: ys).map fun e => (['"'] ++ e.1 ++ ['"'] ++ [':']) ++ generate L e.2)
          = ((['"'] ++ e.1 ++ ['"'] ++ [':']) ++ generate L e.2) ++ ([','] ++ [','].intercalate
            ((y :: ys).map fun e => (['"'] ++ e.1 ++ ['"'] ++ [':']) ++ generate L e.2)) := by
        simp only [List.map_cons]
        exact intercalate_cons_cons _ _ _ _
      have hs1 : s.drop pos = generate L (.string e.1) ++ (':' :: (generate L e.2 ++
          (',' :: ([','].intercalate
            ((y :: ys).map fun e => (['"'] ++ e.1 ++ ['"'] ++ [':']) ++ generate L e.2)
              ++ '}' :: post)))) := by
        rw [hs, hj, entry_text_eq]
        simp
      have hs4 := drop_add_of_drop _ _ (drop_succ_of_drop (drop_add_of_drop _ _ hs1))
      have hy0 := entries_text_head L y ys ('}' :: post)
      obtain ⟨r2, hr2⟩ := hy0
      have hsep : skipSeparator s ','
          (pos + (generate L (.string e.1)).length + 1 + (generate L e.2).length)
          = pos + (generate L (.string e.1)).length + 1 + (generate L e.2).length + 1 :=
        skipSeparator_at_sep (by rw [hs4, hr2]) (by decide) (by decide)
      obtain ⟨f2, hf2⟩ := ih hxs
        (pos + (generate L (.string e.1)).length + 1 + (generate L e.2).length + 1)
        (obj ++ [e]) hord2 (drop_succ_of_drop hs4)
      obtain ⟨f, hf⟩ := key _ _ ',' _ hs1 rfl isNumberChar_closers.2.2.1 hsep ⟨f2, hf2⟩
      refine ⟨f, ?_⟩
      rw [hf, hj]
      simp only [List.append_assoc, List.singleton_append, List.length_append,
        List.length_cons, List.cons_append, List.nil_append, generate, generateString,
        List.length_nil]
      congr 2
      omega

theorem parsesBack_object {F : Type} (L : FloatLib F) (o : Object F) (hord : mapOrdered o)
    (h : ∀ e ∈ o, '"' ∉ e.1 ∧ ParsesBack L e.2 ∧ e.2.plain) : ParsesBack L (.object o) := by
  intro s pos post hs _
  rw [generate_object_eq] at hs ⊢
  have hs0 : s.drop pos = '{' :: ([','].intercalate
      (o.map fun e => (['"'] ++ e.1 ++ ['"'] ++ [':']) ++ generate L e.2) ++ '}' :: post) := by
    rw [hs]
    simp
  obtain ⟨f, hf⟩ := parseObjectLoop_entries L o h s (pos + 1) [] post (by simpa using hord)
    (drop_succ_of_drop hs0)
  refine ⟨f + 1, ?_⟩
  rw [parseValue_dispatch L f hs0 (by decide)]
  simp only [Char.reduceEq, if_true, if_false, parseObject]
  rw [hf]
  simp only [List.nil_append, List.length_append, List.length_cons, List.length_nil]
  congr 2
  omega

mutual
/-- Every plain tree is read back from its compact rendering. -/
theorem parsesBack_of_plain {F : Type} (L : FloatLib F) :
    (T : Node F) → T.plain → ParsesBack L T
  | .null, _ => parsesBack_null L
  | .bool b, _ => parsesBack_bool L b
  | .int i, h => parsesBack_int L i (by simp only [Value.plain] at h; exact h.1)
      (by simp only [Value.plain] at h; exact h.2)
  | .float _, h => by simp [Value.plain] at h
  | .string str, h => parsesBack_string L str (by simpa [Value.plain] using h)
  | .array a, h => parsesBack_array L a
      (parsesBack_elements L a (by simpa [Value.plain] using h))
  | .object o, h => parsesBack_object L o (by simp only [Value.plain] at h; exact h.1)
      (parsesBack_entries L o (by simp only [Value.plain] at h; exact h.2))
/-- The elements of a plain array are read back. -/
theorem parsesBack_elements {F : Type} (L : FloatLib F) :
    (a : List (Node F)) → plainArray a → ∀ x ∈ a, ParsesBack L x ∧ x.plain
  | [], _ => fun _ hx => absurd hx (List.not_mem_nil _)
  | y :: rest, h => fun x hx => by
    simp only [plainArray] at h
    rcases List.mem_cons.mp hx with hxy | hxr
    · rw [hxy]
      exact ⟨parsesBack_of_plain L y h.1, h.1⟩
    · exact parsesBack_elements L rest h.2 x hxr
/-- The mapped values of a plain object are read back. -/
theorem parsesBack_entries {F : Type} (L : FloatLib F) :
    (o : List (Text × Node F)) → plainObject o →
      ∀ e ∈ o, '"' ∉ e.1 ∧ ParsesBack L e.2 ∧ e.2.plain
  | [], _ => fun _ hx => absurd hx (List.not_mem_nil _)
  | y :: rest, h => fun x hx => by
    simp only [plainObject] at h
    rcases List.mem_cons.mp hx with hxy | hxr
    · rw [hxy]
      exact ⟨h.1.1, parsesBack_of_plain L y.2 h.1.2, h.1.2⟩
    · exact parsesBack_entries L rest h.2 x hxr
end

/-- Round trip through the compact generator on the plain trees: Null, Bool,
Int from 0 to 2^31 - 1, strings and keys without a double quote, arrays and
objects. `parser` returns the tree it was rendered from. -/
theorem parser_generate_plain {F : Type} (L : FloatLib F) (T : Node F) (hT : T.plain) :
    parser L (generate L T) = .ret (some T) := by
  obtain ⟨c, tl, hgen, hsp, -, -⟩ := generate_head L T hT
  have hs : (generate L T).drop 0 = generate L T ++ [] := by simp
  have hs0 : (generate L T).drop 0 = c :: tl := by simp [hgen]
  obtain ⟨f, hf⟩ := parsesBack_of_plain L T hT (generate L T) 0 [] hs (by simp)
  have hb := parseValue_at_budget L (generate L T) hf (by simp)
    (2 * (generate L T).length + 1) (by omega)
  unfold parser parse
  simp only [parseWhiteSpace_of_drop hs0 hsp, hb]

/-- The round trip at a concrete tree with every plain variant. -/
theorem parser_generate_plain_example :
    parser textFloat (generate textFloat
      (.object [("a".toList, .array [.null, .bool true, .int 2147483647]),
        ("b".toList, .string "x y".toList), ("c".toList, .object [])]))
      = .ret (some (.object [("a".toList, .array [.null, .bool true, .int 2147483647]),
        ("b".toList, .string "x y".toList), ("c".toList, .object [])])) :=
  parser_generate_plain textFloat _ (by
    simp [Value.plain, plainObject, plainArray, mapOrdered, strLt, INT_MAX])

/-! ## The departures in general -/

/-- `parser` on a text of decimal digits: an Int up to `INT_MAX`, absent above. -/
theorem parser_digits {F : Type} (L : FloatLib F) (d : Text) (hne : d ≠ [])
    (hd : ∀ c ∈ d, isdigit c = true) :
    parser L d =
      if decimalValue d ≤ INT_MAX then .ret (some (.int (Int.ofNat (decimalValue d))))
      else .ret none := by
  cases hd0 : d with
  | nil => exact absurd hd0 hne
  | cons c tl =>
    rw [← hd0]
    have hc := (isdigit_facts (hd c (by rw [hd0]; exact List.mem_cons_self _ _))).1
    have hs0 : d.drop 0 = c :: tl := by simp [hd0]
    have hs : d.drop 0 = d ++ [] := by simp
    unfold parser parse
    simp only [parseWhiteSpace_of_drop hs0 hc]
    rw [parseValue_digits L (2 * d.length) hs hne hd (by simp)]
    by_cases hv : decimalValue d ≤ INT_MAX
    · simp only [hv, if_true]
    · simp only [hv, if_false]

theorem scanQuote_unterminated {α : Type} (body : Text) (endpos : Nat) (k : Nat → Res α)
    (h : '"' ∉ body) : scanQuote body endpos k = .oobRead (endpos + body.length) := by
  induction body generalizing endpos with
  | nil => rfl
  | cons c body ih =>
    have hc : c ≠ '"' := fun hc => h (by simp [hc])
    simp only [scanQuote, hc, ne_eq, not_false_eq_true, if_true, List.length_cons]
    rw [ih (endpos + 1) fun hm => h (List.mem_cons_of_mem _ hm)]
    congr 1
    omega

/-- `parser` on an opening quote followed by text without a quote: the scan
reads the position right behind the buffer, unless nothing follows the quote,
in which case a present empty String is returned. -/
theorem parser_unterminated {F : Type} (L : FloatLib F) (body : Text) (h : '"' ∉ body) :
    parser L ('"' :: body) =
      if body = [] then .ret (some (.string [])) else .oobRead (body.length + 1) := by
  have hs0 : ('"' :: body).drop 0 = '"' :: body := rfl
  unfold parser parse
  simp only [parseWhiteSpace_of_drop hs0 (by decide : isspace '"' = false)]
  rw [parseValue_dispatch L _ hs0 (by decide)]
  simp only [Char.reduceEq, if_true, if_false, parseString]
  cases body with
  | nil => rfl
  | cons c body =>
    simp only [List.length_cons, Nat.zero_add, Nat.lt_add_left_iff_pos, Nat.zero_lt_succ,
      if_true, List.drop_succ_cons, List.drop_zero]
    rw [scanQuote_unterminated (c :: body) 1 _ h]
    simp [Nat.add_comm]

/-- A round of the array loop whose element is absent throws. -/
theorem parseArrayLoop_inner_absent {F : Type} (L : FloatLib F) (s : Text) (f pos p1 : Nat)
    (arr : Array F) (hlt : pos < s.length) (hne : s[pos]? ≠ some ']')
    (hv : parseValue L s f pos = .ret (none, p1)) :
    parseArrayLoop L s (f + 1) pos arr = .throw .bad_optional_access := by
  rw [parseArrayLoop_succ, if_pos ⟨hlt, hne⟩, hv]

/-- A round of the object loop whose key or whose value is absent throws. -/
theorem parseObjectLoop_inner_absent {F : Type} (L : FloatLib F) (s : Text) (f pos p1 : Nat)
    (obj : Object F) (hlt : pos < s.length) (hne : s[pos]? ≠ some '}') :
    (parseValue L s f pos = .ret (none, p1) →
      parseObjectLoop L s (f + 1) pos obj = .throw .bad_optional_access) ∧
    (∀ key p2, parseValue L s f pos = .ret (some (.string key), p1) →
      parseValue L s f (skipSeparator s ':' p1) = .ret (none, p2) →
      parseObjectLoop L s (f + 1) pos obj = .throw .bad_optional_access) := by
  constructor
  · intro hv
    rw [parseObjectLoop_succ, if_pos ⟨hlt, hne⟩, hv]
  · intro key p2 hk hv
    rw [parseObjectLoop_succ, if_pos ⟨hlt, hne⟩, hk]
    simp only [hv]

/-! ## The indented generator -/

theorem flatten_replicate_two_spaces (n : Nat) :
    (List.replicate n [' ', ' ']).flatten = indentText n := by
  induction n with
  | zero => rfl
  | succ n ih =>
    rw [List.replicate_succ, List.flatten_cons, ih]
    simp only [indentText, Nat.mul_succ, List.replicate_succ]
    rfl

theorem addIndent_natCast (d : Nat) (str : Text) :
    JsonGeneratorFormat.addIndent (d : Int) str = str ++ indentText d := by
  simp [JsonGeneratorFormat.addIndent, flatten_replicate_two_spaces]

theorem flatten_map_append_sep {α : Type} (sep : List α) (items : List (List α))
    (h : items ≠ []) :
    (items.map fun x => x ++ sep).flatten = sep.intercalate items ++ sep := by
  induction items with
  | nil => exact absurd rfl h
  | cons x rest ih =>
    cases rest with
    | nil => simp [intercalate_single]
    | cons y r =>
      rw [List.map_cons, List.flatten_cons, ih (by simp), intercalate_cons_cons]
      simp


theorem renderItems_isEmpty {F : Type} (L : FloatLib F)
    (container : Char → Char → List Text → Nat → Text) (a : List (Node F)) (d : Nat) :
    (renderItems L container a d).isEmpty = a.isEmpty := by
  cases a <;> simp [renderItems]

theorem renderEntries_isEmpty {F : Type} (L : FloatLib F)
    (container : Char → Char → List Text → Nat → Text) (o : List (Text × Node F)) (d : Nat) :
    (renderEntries L container o d).isEmpty = o.isEmpty := by
  cases o <;> simp [renderEntries]

mutual
/-- The indented generator, started with the counter at `d`, writes the pure
rendering at depth `d` and leaves the counter at `d`. -/
theorem fmt_generate_eq {F : Type} (L : FloatLib F) :
    (T : Node F) → ∀ (b : Bool) (d : Nat),
      JsonGeneratorFormat.generate L T b (d : Int) =
        ((if b then indentText d else []) ++ codeRender L T d, (d : Int))
  | .null, b, d => by
    cases b <;> simp [JsonGeneratorFormat.generate, addIndent_natCast, codeRender, renderWith,
      generate]
  | .bool v, b, d => by
    cases b <;> simp [JsonGeneratorFormat.generate, addIndent_natCast, codeRender, renderWith,
      generate]
  | .int i, b, d => by
    cases b <;> simp [JsonGeneratorFormat.generate, addIndent_natCast, codeRender, renderWith,
      generate]
  | .float x, b, d => by
    cases b <;> simp [JsonGeneratorFormat.generate, addIndent_natCast, codeRender, renderWith,
      generate]
  | .string s, b, d => by
    cases b <;> simp [JsonGeneratorFormat.generate, addIndent_natCast, codeRender, renderWith,
      generate, generateString, JsonGeneratorFormat.generateString]
  | .array a, b, d => by
    have hl := fmt_arrayLoop_eq L a "[\n".toList (d + 1)
    have hc : ((d : Int) + 1) = ((d + 1 : Nat) : Int) := by push_cast; rfl
    have hd : (((d + 1 : Nat) : Int) - 1) = (d : Int) := by push_cast; omega
    simp only [JsonGeneratorFormat.generate, hc, hl, hd, addIndent_natCast, codeRender,
      renderWith, codeContainer, specContainer, renderItems_isEmpty]
    cases a with
    | nil => cases b <;> simp
    | cons x xs => cases b <;> simp
  | .object o, b, d => by
    have hl := fmt_objectLoop_eq L o "\x7b\n".toList (d + 1)
    have hc : ((d : Int) + 1) = ((d + 1 : Nat) : Int) := by push_cast; rfl
    have hd : (((d + 1 : Nat) : Int) - 1) = (d : Int) := by push_cast; omega
    simp only [JsonGeneratorFormat.generate, hc, hl, hd, addIndent_natCast, codeRender,
      renderWith, codeContainer, specContainer, renderEntries_isEmpty]
    cases o with
    | nil => cases b <;> simp [renderEntries]
    | cons x xs =>
      have hne : renderEntries L codeContainer (x :: xs) (d + 1) ≠ [] := by
        simp [renderEntries]
      rw [flatten_map_append_sep _ _ hne]
      have h2 : ∀ (p q : Text), (p ++ (q ++ [',', '\n'])).dropLast.dropLast = p ++ q := by
        intro p q
        have : p ++ (q ++ [',', '\n']) = ((p ++ q) ++ [',']) ++ ['\n'] := by simp
        rw [this, List.dropLast_concat, List.dropLast_concat]
      rw [h2]
      cases b <;> simp
/-- The array loop of the indented generator. -/
theorem fmt_arrayLoop_eq {F : Type} (L : FloatLib F) :
    (rest : List (Node F)) → ∀ (str : Text) (d : Nat),
      JsonGeneratorFormat.generateArrayLoop L rest (str, (d : Int)) =
        (str ++ (if rest.isEmpty then []
          else [',', '\n'].intercalate (renderItems L codeContainer rest d) ++ ['\n']),
          (d : Int))
  | [], str, d => by simp [JsonGeneratorFormat.generateArrayLoop]
  | x :: xs, str, d => by
    have hx := fmt_generate_eq L x true d
    have hxs := fmt_arrayLoop_eq L xs
    simp only [JsonGeneratorFormat.generateArrayLoop, hx, hxs]
    cases xs with
    | nil => simp [renderItems, intercalate_single, codeRender]
    | cons y ys =>
      simp only [renderItems]
      rw [intercalate_cons_cons]
      simp [codeRender]
/-- The object loop of the indented generator. -/
theorem fmt_objectLoop_eq {F : Type} (L : FloatLib F) :
    (rest : List (Text × Node F)) → ∀ (str : Text) (d : Nat),
      JsonGeneratorFormat.generateObjectLoop L rest (str, (d : Int)) =
        (str ++ ((renderEntries L codeContainer rest d).map fun x => x ++ [',', '\n']).flatten,
          (d : Int))
  | [], str, d => by simp [JsonGeneratorFormat.generateObjectLoop, renderEntries]
  | e :: xs, str, d => by
    have hx := fmt_generate_eq L e.2 false d
    have hxs := fmt_objectLoop_eq L xs
    simp only [JsonGeneratorFormat.generateObjectLoop, hx, hxs, addIndent_natCast]
    simp [renderEntries, codeRender, JsonGeneratorFormat.generateString]
end

/-- C14, where it fails: the empty Array. The code writes `[`, one newline and
`]`; the reference of the specification has a newline after the bracket and
another one before the closing bracket. -/
theorem generateToFormatString_empty_array :
    (JsonGeneratorFormat.generateToFormatString textFloat (.array [])).1 = "[\n]".toList ∧
    specRender textFloat (.array []) 0 = "[\n\n]".toList ∧
    (JsonGeneratorFormat.generateToFormatString textFloat (.array [])).1
      ≠ specRender textFloat (.array []) 0 := by
  refine ⟨rfl, rfl, ?_⟩
  decide

/-- C14, amended. For every tree, `generateToFormatString` (with its shared
counter) writes the pure rendering at depth 0 in which a container with items
is as the specification words it (bracket, newline, the items behind
`2 * (d + 1)` spaces and separated by `,` newline, a newline, `2 * d` spaces,
bracket; an entry is the quoted key, `: ` and the value inline) and a container
without items is the bracket, one newline, `2 * d` spaces and the bracket. -/
theorem generateToFormatString_eq_codeRender {F : Type} (L : FloatLib F) (T : Node F) :
    (JsonGeneratorFormat.generateToFormatString L T).1 = codeRender L T 0 := by
  have h := fmt_generate_eq L T true 0
  simp only [Nat.cast_zero] at h
  simp [JsonGeneratorFormat.generateToFormatString, h, indentText]

mutual
/-- A call of `JsonGeneratorFormat::generate` leaves the counter as it found
it, whatever its value. -/
theorem fmt_generate_level {F : Type} (L : FloatLib F) :
    (T : Node F) → ∀ (b : Bool) (lvl : Int), (JsonGeneratorFormat.generate L T b lvl).2 = lvl
  | .null, _, _ => rfl
  | .bool _, _, _ => rfl
  | .int _, _, _ => rfl
  | .float _, _, _ => rfl
  | .string _, _, _ => rfl
  | .array a, b, lvl => by
    simp only [JsonGeneratorFormat.generate, fmt_arrayLoop_level L a]
    omega
  | .object o, b, lvl => by
    simp only [JsonGeneratorFormat.generate, fmt_objectLoop_level L o]
    omega
/-- So does the array loop. -/
theorem fmt_arrayLoop_level {F : Type} (L : FloatLib F) :
    (rest : List (Node F)) → ∀ (st : Text × Int),
      (JsonGeneratorFormat.generateArrayLoop L rest st).2 = st.2
  | [], _ => rfl
  | x :: xs, st => by
    simp only [JsonGeneratorFormat.generateArrayLoop, fmt_arrayLoop_level L xs,
      fmt_generate_level L x]
/-- So does the object loop. -/
theorem fmt_objectLoop_level {F : Type} (L : FloatLib F) :
    (rest : List (Text × Node F)) → ∀ (st : Text × Int),
      (JsonGeneratorFormat.generateObjectLoop L rest st).2 = st.2
  | [], _ => rfl
  | e :: xs, st => by
    simp only [JsonGeneratorFormat.generateObjectLoop, fmt_objectLoop_level L xs,
      fmt_generate_level L e.2]
end

theorem renderCall_initial {F : Type} (L : FloatLib F) (viaStream : Bool) (t : Node F) :
    renderCall L viaStream t 0 = ((JsonGeneratorFormat.generateToFormatString L t).1, 0) := by
  have h := fmt_generate_level L t true 0
  cases viaStream
  · simp only [renderCall, Bool.false_eq_true, if_false]
    exact Prod.ext rfl h
  · simp only [renderCall, if_true, operatorOut]
    exact Prod.ext rfl h

theorem renderCalls_initial {F : Type} (L : FloatLib F) (calls : List (Bool × Node F)) :
    renderCalls L calls 0 =
      (calls.map fun call => (JsonGeneratorFormat.generateToFormatString L call.2).1, 0) := by
  induction calls with
  | nil => rfl
  | cons call rest ih => simp only [renderCalls, renderCall_initial, ih, List.map_cons]

/-- C15. Rendering has no state drift. A call of
`JsonGeneratorFormat::generate` returns with `currentIndentLevel` as it found
it, whatever its value; so two renders of a tree in succession write the same
text, and in any sequence of renders started on the initial counter, through
`operator<<` (no reset) or `generateToFormatString` (reset), every call writes
the text of `generateToFormatString` and the counter ends at its initial
value. The compact generator reads and writes no state: it is the function
`generate`, the same text at every call. -/
theorem indent_counter_restored {F : Type} (L : FloatLib F) :
    (∀ (T : Node F) (b : Bool) (lvl : Int), (JsonGeneratorFormat.generate L T b lvl).2 = lvl) ∧
    (∀ (T : Node F) (lvl : Int),
      (operatorOut L T (operatorOut L T lvl).2).1 = (operatorOut L T lvl).1) ∧
    (∀ (T : Node F),
      (operatorOut L T JsonGeneratorFormat.initialIndentLevel).1
        = (JsonGeneratorFormat.generateToFormatString L T).1) ∧
    (∀ calls : List (Bool × Node F),
      renderCalls L calls JsonGeneratorFormat.initialIndentLevel =
        (calls.map fun call => (JsonGeneratorFormat.generateToFormatString L call.2).1,
          JsonGeneratorFormat.initialIndentLevel)) := by
  refine ⟨fmt_generate_level L, ?_, fun _ => rfl, renderCalls_initial L⟩
  intro T lvl
  simp only [operatorOut, fmt_generate_level L T true lvl]

/-! ## Malformed text at the top level -/

theorem parseWhiteSpace_leading (w : Text) (c : Char) (rest : Text)
    (hw : ∀ x ∈ w, isspace x = true) (hc : isspace c = false) :
    parseWhiteSpace (w ++ c :: rest) 0 = w.length := by
  unfold parseWhiteSpace
  rw [List.drop_zero, scanWhile_append isspace w (c :: rest) 0 hw (by
    intro x hx
    simp only [List.head?_cons, Option.some.injEq] at hx
    rw [← hx]
    exact hc)]
  omega

theorem parser_of_first_char {F : Type} (L : FloatLib F) (w : Text) (c : Char) (rest : Text)
    (hw : ∀ x ∈ w, isspace x = true) (hc : isspace c = false)
    (r : Option (Value F)) (p1 : Nat)
    (h : ∀ f, parseValue L (w ++ c :: rest) (f + 1) w.length = .ret (r, p1)) :
    parser L (w ++ c :: rest) = .ret r := by
  unfold parser parse
  simp only [parseWhiteSpace_leading w c rest hw hc, h]
  cases r <;> rfl

theorem parseNumber_not_number {F : Type} (L : FloatLib F) {s : Text} {pos : Nat} {c : Char}
    {rest : Text} (hs : s.drop pos = c :: rest) (hc : isNumberChar c = false) :
    parseNumber L s pos = .ret (none, pos) := by
  have hlen : ¬ pos > s.length := Nat.not_lt.mpr (Nat.le_of_lt (lt_length_of_drop hs))
  unfold parseNumber substr
  simp only [hs, scanWhile, hc, Bool.false_eq_true, if_false, hlen, Nat.sub_self,
    List.take_zero]
  rfl

/-- C16. A text whose first character behind leading whitespace is `n`, `t`
or `f` without the literal `null`, `true` or `false` standing there, or is
none of `n`, `t`, `f`, `"`, `[`, `{`, a decimal digit, `.`, `e`, makes `parser`
return the absent result: a normal return, no exception. -/
theorem parser_malformed_absent {F : Type} (L : FloatLib F) (w : Text) (c : Char)
    (rest : Text) (hw : ∀ x ∈ w, isspace x = true) (hc : isspace c = false) :
    (c = 'n' → (c :: rest).take 4 ≠ "null".toList → parser L (w ++ c :: rest) = .ret none) ∧
    (c = 't' → (c :: rest).take 4 ≠ "true".toList → parser L (w ++ c :: rest) = .ret none) ∧
    (c = 'f' → (c :: rest).take 5 ≠ "false".toList → parser L (w ++ c :: rest) = .ret none) ∧
    (c ≠ 'n' → c ≠ 't' → c ≠ 'f' → c ≠ '"' → c ≠ '[' → c ≠ '{' → isdigit c = false →
      c ≠ '.' → c ≠ 'e' → parser L (w ++ c :: rest) = .ret none) := by
  have hs : (w ++ c :: rest).drop w.length = c :: rest := List.drop_left w (c :: rest)
  have hlen : ¬ w.length > (w ++ c :: rest).length := by simp
  refine ⟨?_, ?_, ?_, ?_⟩
  · intro h1 h2
    subst h1
    refine parser_of_first_char L w _ rest hw hc none w.length fun f => ?_
    rw [parseValue_dispatch L f hs hc]
    simp only [if_true, parseNull, substr, hlen, if_false]
    rw [hs, if_neg h2]
  · intro h1 h2
    subst h1
    refine parser_of_first_char L w _ rest hw hc none w.length fun f => ?_
    rw [parseValue_dispatch L f hs hc]
    simp only [Char.reduceEq, if_true, if_false, parseTrue, substr, hlen]
    rw [hs, if_neg h2]
  · intro h1 h2
    subst h1
    refine parser_of_first_char L w _ rest hw hc none w.length fun f => ?_
    rw [parseValue_dispatch L f hs hc]
    simp only [Char.reduceEq, if_true, if_false, parseFalse, substr, hlen]
    rw [hs, if_neg h2]
  · intro h1 h2 h3 h4 h5 h6 h7 h8 h9
    refine parser_of_first_char L w c rest hw hc none w.length fun f => ?_
    rw [parseValue_dispatch L f hs hc]
    simp only [h1, h2, h3, h4, h5, h6, if_false]
    exact parseNumber_not_number L hs (by simp [isNumberChar, h7, h8, h9])

/-- C16, at concrete texts: `nul`, ` tru`, `fals`, `nope` and `-1`. -/
theorem parser_malformed_absent_witness :
    parser textFloat "nul".toList = .ret none ∧
    parser textFloat " tru".toList = .ret none ∧
    parser textFloat "fals".toList = .ret none ∧
    parser textFloat "nope".toList = .ret none ∧
    parser textFloat "-1".toList = .ret none :=
  ⟨(parser_malformed_absent textFloat [] 'n' "ul".toList (by simp) (by decide)).1 rfl
      (by decide),
    (parser_malformed_absent textFloat [' '] 't' "ru".toList (by simp [isspace]) (by decide)).2.1
      rfl (by decide),
    (parser_malformed_absent textFloat [] 'f' "als".toList (by simp) (by decide)).2.2.1 rfl
      (by decide),
    (parser_malformed_absent textFloat [] 'n' "ope".toList (by simp) (by decide)).1 rfl
      (by decide),
    (parser_malformed_absent textFloat [] '-' "1".toList (by simp) (by decide)).2.2.2
      (by decide) (by decide) (by decide) (by decide) (by decide) (by decide) (by decide)
      (by decide) (by decide)⟩

/-! ## The cursor never moves backwards -/

theorem substr_ret_cursor {α : Type} {s : Text} {pos n : Nat} {k : Text → Res (α × Nat)}
    {x : α} {p1 bound : Nat} (hk : ∀ t, k t = .ret (x, p1) → bound ≤ p1)
    (h : substr s pos n k = .ret (x, p1)) : bound ≤ p1 := by
  unfold substr at h
  split at h
  · simp at h
  · exact hk _ h

theorem parseNumber_cursor {F : Type} {L : FloatLib F} {s : Text} {pos p1 : Nat}
    {x : Option (Value F)} (h : parseNumber L s pos = .ret (x, p1)) : pos ≤ p1 := by
  have hge := scanWhile_ge isNumberChar (s.drop pos) pos
  unfold parseNumber at h
  refine substr_ret_cursor ?_ h
  intro t ht
  simp only at ht
  split at ht
  · split at ht <;> simp at ht <;> omega
  · split at ht <;> simp at ht <;> omega

theorem parseNull_cursor {F : Type} {s : Text} {pos p1 : Nat} {x : Option (Value F)}
    (h : parseNull s pos = .ret (x, p1)) : pos ≤ p1 := by
  unfold parseNull at h
  refine substr_ret_cursor ?_ h
  intro t ht
  split at ht <;> simp at ht <;> omega

theorem parseTrue_cursor {F : Type} {s : Text} {pos p1 : Nat} {x : Option (Value F)}
    (h : parseTrue s pos = .ret (x, p1)) : pos ≤ p1 := by
  unfold parseTrue at h
  refine substr_ret_cursor ?_ h
  intro t ht
  split at ht <;> simp at ht <;> omega

theorem parseFalse_cursor {F : Type} {s : Text} {pos p1 : Nat} {x : Option (Value F)}
    (h : parseFalse s pos = .ret (x, p1)) : pos ≤ p1 := by
  unfold parseFalse at h
  refine substr_ret_cursor ?_ h
  intro t ht
  split at ht <;> simp at ht <;> omega

theorem parseValue_cursor {F : Type} {L : FloatLib F} {s : Text} {f pos p1 : Nat}
    {x : Option (Value F)} (h : parseValue L s f pos = .ret (x, p1)) : pos ≤ p1 := by
  cases f with
  | zero => simp [parseValue] at h
  | succ f =>
    obtain ⟨-, pra, pro⟩ := parse_progress L s f
    have hq := parseWhiteSpace_ge s pos
    rw [parseValue_succ] at h
    split at h
    · simp at h
    · split_ifs at h
      · exact Nat.le_trans hq (parseNull_cursor h)
      · exact Nat.le_trans hq (parseTrue_cursor h)
      · exact Nat.le_trans hq (parseFalse_cursor h)
      · exact Nat.le_trans hq (Nat.le_of_lt (parseString_progress h))
      · have := pra _ _ _ _ h
        omega
      · have := pro _ _ _ _ h
        omega
      · exact Nat.le_trans hq (parseNumber_cursor h)

/-- C17. For every text and cursor, a production that returns, with a value
or with the absent result, returns a cursor that is not smaller than the one
it was called with: `parseWhiteSpace`, `parseNull`, `parseTrue`, `parseFalse`,
`parseNumber`, `parseString`, `parseArray`, `parseObject` and `parseValue`. -/
theorem cursor_never_backwards {F : Type} (L : FloatLib F) (s : Text) (pos : Nat) :
    pos ≤ parseWhiteSpace s pos ∧
    (∀ (x : Option (Value F)) p1, parseNull s pos = .ret (x, p1) → pos ≤ p1) ∧
    (∀ (x : Option (Value F)) p1, parseTrue s pos = .ret (x, p1) → pos ≤ p1) ∧
    (∀ (x : Option (Value F)) p1, parseFalse s pos = .ret (x, p1) → pos ≤ p1) ∧
    (∀ x p1, parseNumber L s pos = .ret (x, p1) → pos ≤ p1) ∧
    (∀ (x : Option (Value F)) p1, parseString s pos = .ret (x, p1) → pos ≤ p1) ∧
    (∀ f x p1, parseArray L s f pos = .ret (x, p1) → pos ≤ p1) ∧
    (∀ f x p1, parseObject L s f pos = .ret (x, p1) → pos ≤ p1) ∧
    (∀ f x p1, parseValue L s f pos = .ret (x, p1) → pos ≤ p1) := by
  refine ⟨parseWhiteSpace_ge s pos, fun _ _ h => parseNull_cursor h,
    fun _ _ h => parseTrue_cursor h, fun _ _ h => parseFalse_cursor h,
    fun _ _ h => parseNumber_cursor h,
    fun _ _ h => Nat.le_of_lt (parseString_progress h), ?_, ?_,
    fun _ _ _ h => parseValue_cursor h⟩
  · intro f x p1 h
    have := (parse_progress L s f).2.1 _ _ _ _ h
    omega
  · intro f x p1 h
    have := (parse_progress L s f).2.2 _ _ _ _ h
    omega

/-- C17, at a concrete state: on `[1, nul` the failing `parseNull` at cursor 4
leaves the cursor at 4, and `parseNumber` at cursor 1 moves it to 2. -/
theorem cursor_never_backwards_witness :
    (parseNull "[1, nul".toList 4 : Res (Option (Value Text) × Nat)) = .ret (none, 4) ∧
    4 ≤ 4 ∧
    parseNumber textFloat "[1, nul".toList 1 = .ret (some (.int 1), 2) ∧ 1 ≤ 2 :=
  ⟨rfl,
    (cursor_never_backwards textFloat "[1, nul".toList 4).2.1 none 4 rfl,
    rfl,
    (cursor_never_backwards textFloat "[1, nul".toList 1).2.2.2.2.1 (some (.int 1)) 2 rfl⟩

/-! ## Termination -/

/-- C18. Every loop of the embedded parser ends: on every text `parser` ends
within its budget. But it does not always end with a tree, an absent result or
an exception: on the unterminated string `"abc` the scan of `parseString`
leaves the buffer (it reads `json_str[4]` of a 4-character text), and from
there on the C++ loop is bounded by nothing in the text. Unterminated arrays
end with a tree, an unparsable element with an exception. -/
theorem parser_completes_or_leaves_buffer {F : Type} (L : FloatLib F) :
    (∀ s, parser L s ≠ .outOfFuel) ∧
    parser L "\"abc".toList = .oobRead 4 ∧
    "\"abc".toList.length = 4 ∧
    parser L "[1,2".toList = .ret (some (.array [.int 1, .int 2])) ∧
    parser L "[1,x".toList = .throw .bad_optional_access ∧
    parser L "\x7b\"a\":1".toList = .ret (some (.object [("a".toList, .int 1)])) :=
  ⟨parser_ne_outOfFuel L, rfl, rfl, rfl, rfl, rfl⟩

/-! ## Key order -/

theorem mem_keys_mapAssign {F : Type} (o : Object F) (key : Text) (val : Node F) (k : Text) :
    k ∈ (mapAssign o key val).map Prod.fst ↔ k = key ∨ k ∈ o.map Prod.fst := by
  induction o with
  | nil => simp [mapAssign]
  | cons e rest ih =>
    obtain ⟨k0, w⟩ := e
    by_cases h1 : strLt k0 key = true
    · simp only [mapAssign, h1, if_true, List.map_cons, List.mem_cons, ih]
      tauto
    · by_cases h2 : strLt key k0 = true
      · simp [mapAssign, h1, h2]
      · have hk : k0 = key := strLt_connex (by simpa using h1) (by simpa using h2)
        subst hk
        simp [mapAssign, strLt_irrefl]

theorem mapSubscript_snd {F : Type} (o : Object F) (key : Text) (ho : mapOrdered o) :
    (mapSubscript o key).2 = o ∨ (mapFind o key = none ∧
      (mapSubscript o key).2 = mapAssign o key .null) := by
  cases hf : mapFind o key with
  | some v => exact Or.inl (by rw [mapSubscript_found ho hf])
  | none => exact Or.inr ⟨rfl, by rw [mapSubscript_missing hf]⟩

theorem mapFind_isSome_iff_mem_keys {F : Type} (o : Object F) (k : Text) :
    (mapFind o k).isSome = true ↔ k ∈ o.map Prod.fst := by
  induction o with
  | nil => simp [mapFind]
  | cons e rest ih =>
    by_cases hk : e.1 = k
    · simp [mapFind, hk]
    · have hk2 : ¬ k = e.1 := fun h => hk h.symm
      simp [mapFind, hk, hk2, ih]

theorem apply_spec {F : Type} (o : Object F) (i : Insertion F) (ho : mapOrdered o) :
    mapOrdered (i.apply o) ∧
      ∀ k, k ∈ (i.apply o).map Prod.fst ↔ k = i.key ∨ k ∈ o.map Prod.fst := by
  cases i with
  | assign key val =>
    exact ⟨mapOrdered_mapAssign key val ho, mem_keys_mapAssign o key val⟩
  | access key =>
    simp only [Insertion.apply, Insertion.key]
    rcases mapSubscript_snd o key ho with h | ⟨-, h⟩
    · rw [h]
      refine ⟨ho, fun k => ⟨Or.inr, ?_⟩⟩
      rintro (hk | hk)
      · subst hk
        have hsome : mapFind o k ≠ none := by
          intro hn
          have := mapSubscript_missing (F := F) hn
          rw [this] at h
          have hm : k ∈ (mapAssign o k Value.null).map Prod.fst :=
            (mem_keys_mapAssign o k .null k).mpr (Or.inl rfl)
          simp only at h
          rw [h] at hm
          have := (mapFind_isSome_iff_mem_keys o k).mpr hm
          rw [hn] at this
          simp at this
        exact (mapFind_isSome_iff_mem_keys o k).mp (by
          cases hf : mapFind o k with
          | none => exact absurd hf hsome
          | some v => rfl)
      · exact hk
    · rw [h]
      exact ⟨mapOrdered_mapAssign key .null ho, mem_keys_mapAssign o key .null⟩

theorem insertAll_spec {F : Type} (ins : List (Insertion F)) (o : Object F)
    (ho : mapOrdered o) :
    mapOrdered (insertAll o ins) ∧
      ∀ k, k ∈ (insertAll o ins).map Prod.fst ↔
        k ∈ ins.map Insertion.key ∨ k ∈ o.map Prod.fst := by
  induction ins generalizing o with
  | nil => simp [insertAll, ho]
  | cons i rest ih =>
    obtain ⟨h1, h2⟩ := apply_spec o i ho
    obtain ⟨h3, h4⟩ := ih (i.apply o) h1
    refine ⟨h3, fun k => ?_⟩
    have h5 := h4 k
    simp only [insertAll, List.foldl_cons] at h5 ⊢
    rw [h5, h2 k]
    simp only [List.map_cons, List.mem_cons]
    tauto

theorem keys_nodup_of_ordered {F : Type} {o : Object F} (ho : mapOrdered o) :
    (o.map Prod.fst).Nodup := by
  unfold List.Nodup
  rw [List.pairwise_map]
  exact ho.imp fun h => strLt_ne h

/-- Two ordered maps with the same keys list them in the same sequence. -/
theorem keys_eq_of_ordered {F : Type} {o1 o2 : Object F} (h1 : mapOrdered o1)
    (h2 : mapOrdered o2) (h : ∀ k, k ∈ o1.map Prod.fst ↔ k ∈ o2.map Prod.fst) :
    o1.map Prod.fst = o2.map Prod.fst := by
  have hp : (o1.map Prod.fst).Perm (o2.map Prod.fst) :=
    (List.perm_ext_iff_of_nodup (keys_nodup_of_ordered h1) (keys_nodup_of_ordered h2)).mpr h
  have s1 : (o1.map Prod.fst).Pairwise (fun a b => strLt a b = true) := by
    rw [List.pairwise_map]
    exact h1
  have s2 : (o2.map Prod.fst).Pairwise (fun a b => strLt a b = true) := by
    rw [List.pairwise_map]
    exact h2
  haveI : IsAntisymm Text (fun a b => strLt a b = true) :=
    ⟨fun a b hab hba => by
      rw [strLt_asymm hab] at hba
      exact absurd hba (by simp)⟩
  exact List.eq_of_perm_of_sorted hp s1 s2

theorem renderEntries_eq_map {F : Type} (L : FloatLib F)
    (container : Char → Char → List Text → Nat → Text) (o : Object F) (d : Nat) :
    renderEntries L container o d = o.map fun e =>
      indentText d ++ ((['"'] ++ e.1 ++ ['"']) ++ ([':', ' '] ++ renderWith L container e.2 d)) := by
  induction o with
  | nil => rfl
  | cons e rest ih => simp only [renderEntries, ih, List.map_cons]

/-- C11. Whatever the sequence of insertions into an empty object, by
assignment (as the parser inserts) or by key access, the map ends with its
keys strictly ascending, each inserted key once and no other, and this
sequence of keys depends only on which keys were inserted, not on their order.
Both generators write the entries in this sequence: the compact one as the
entries `"key":value` joined by `,` between braces, the indented one as the
entries `"key": value` joined by `,` newline. -/
theorem keys_ascending_any_insertion_order {F : Type} (L : FloatLib F)
    (ins : List (Insertion F)) :
    mapOrdered (insertAll [] ins) ∧
    ((insertAll [] ins).map Prod.fst).Nodup ∧
    (∀ k, k ∈ (insertAll [] ins).map Prod.fst ↔ k ∈ ins.map Insertion.key) ∧
    (∀ ins2 : List (Insertion F),
      (∀ k, k ∈ ins2.map Insertion.key ↔ k ∈ ins.map Insertion.key) →
      (insertAll [] ins2).map Prod.fst = (insertAll [] ins).map Prod.fst) ∧
    generate L (.object (insertAll [] ins)) =
      ['{'] ++ [','].intercalate ((insertAll [] ins).map fun e =>
        (['"'] ++ e.1 ++ ['"'] ++ [':']) ++ generate L e.2) ++ ['}'] ∧
    (JsonGeneratorFormat.generateToFormatString L (.object (insertAll [] ins))).1 =
      codeContainer '{' '}' ((insertAll [] ins).map fun e =>
        indentText 1 ++ ((['"'] ++ e.1 ++ ['"']) ++ ([':', ' '] ++ codeRender L e.2 1))) 0 := by
  have hnil : mapOrdered ([] : Object F) := List.Pairwise.nil
  obtain ⟨h1, h2⟩ := insertAll_spec ins [] hnil
  refine ⟨h1, keys_nodup_of_ordered h1, ?_, ?_, generate_object_eq L _, ?_⟩
  · intro k
    rw [h2 k]
    simp
  · intro ins2 hk
    obtain ⟨h3, h4⟩ := insertAll_spec ins2 [] hnil
    refine keys_eq_of_ordered h3 h1 fun k => ?_
    rw [h4 k, h2 k, hk k]
  · have h := fmt_generate_eq L (.object (insertAll [] ins)) true 0
    simp only [Nat.cast_zero] at h
    unfold JsonGeneratorFormat.generateToFormatString
    rw [h]
    simp [indentText, codeRender, renderWith, renderEntries_eq_map]

/-- C11, at the insertions of the specification: `b`, then `a`, then `c`, by
key access, by assignment in another order, and by parsing. -/
theorem keys_ascending_any_insertion_order_witness :
    (insertAll ([] : Object Text) [.access "b".toList, .access "a".toList,
      .access "c".toList]).map Prod.fst = ["a".toList, "b".toList, "c".toList] ∧
    (insertAll ([] : Object Text) [.assign "c".toList (.int 3), .assign "a".toList (.int 1),
        .assign "b".toList (.int 2)]).map Prod.fst
      = (insertAll ([] : Object Text) [.access "b".toList, .access "a".toList,
        .access "c".toList]).map Prod.fst ∧
    generate textFloat (.object (insertAll [] [.access "b".toList, .access "a".toList,
      .access "c".toList])) = "\x7b\"a\":null,\"b\":null,\"c\":null\x7d".toList ∧
    (JsonGeneratorFormat.generateToFormatString textFloat (.object (insertAll []
      [.access "b".toList, .access "a".toList, .access "c".toList]))).1
      = "\x7b\n  \"a\": null,\n  \"b\": null,\n  \"c\": null\n\x7d".toList ∧
    parser textFloat "\x7b\"b\":1,\"a\":2,\"c\":3\x7d".toList
      = .ret (some (.object [("a".toList, .int 2), ("b".toList, .int 1),
        ("c".toList, .int 3)])) := by
  refine ⟨rfl, ?_, rfl, rfl, rfl⟩
  exact (keys_ascending_any_insertion_order textFloat
    [.access "b".toList, .access "a".toList, .access "c".toList]).2.2.2.1
    [.assign "c".toList (.int 3), .assign "a".toList (.int 1), .assign "b".toList (.int 2)]
    (by
      intro k
      simp only [List.map_cons, List.map_nil, Insertion.key, List.mem_cons]
      tauto)

/-! ## Leading whitespace -/

theorem scanWhile_shift (p : Char → Bool) (l : Text) (pos n : Nat) :
    scanWhile p l (pos + n) = scanWhile p l pos + n := by
  induction l generalizing pos with
  | nil => rfl
  | cons c rest ih =>
    simp only [scanWhile]
    split
    · have : pos + n + 1 = pos + 1 + n := by omega
      rw [this, ih]
    · rfl

theorem scanWhile_append_all (p : Char → Bool) (w l : Text) (pos : Nat)
    (hw : ∀ c ∈ w, p c = true) : scanWhile p (w ++ l) pos = scanWhile p l (pos + w.length) := by
  induction w generalizing pos with
  | nil => rfl
  | cons c w ih =>
    have hc : p c = true := hw c (List.mem_cons_self _ _)
    rw [List.cons_append]
    simp only [scanWhile, hc, if_true, List.length_cons]
    rw [ih (pos + 1) fun x hx => hw x (List.mem_cons_of_mem _ hx)]
    congr 1
    omega

theorem drop_shift (pre s : Text) (pos : Nat) :
    (pre ++ s).drop (pos + pre.length) = s.drop pos := by
  rw [Nat.add_comm, ← List.drop_drop, List.drop_left]

theorem getElem?_shift (pre s : Text) (pos : Nat) :
    (pre ++ s)[pos + pre.length]? = s[pos]? := by
  rw [List.getElem?_append_right (by omega)]
  simp

theorem parseWhiteSpace_shift (pre s : Text) (pos : Nat) :
    parseWhiteSpace (pre ++ s) (pos + pre.length) = parseWhiteSpace s pos + pre.length := by
  unfold parseWhiteSpace
  rw [drop_shift, scanWhile_shift]

theorem skipSeparator_shift (pre s : Text) (c : Char) (pos : Nat) :
    skipSeparator (pre ++ s) c (pos + pre.length) = skipSeparator s c pos + pre.length := by
  unfold skipSeparator
  simp only [parseWhiteSpace_shift, getElem?_shift, List.length_append]
  by_cases h : parseWhiteSpace s pos < s.length ∧ s[parseWhiteSpace s pos]? = some c
  · have h2 : parseWhiteSpace s pos + pre.length < pre.length + s.length ∧
        s[parseWhiteSpace s pos]? = some c := ⟨by omega, h.2⟩
    rw [if_pos h, if_pos h2]
    have : parseWhiteSpace s pos + pre.length + 1 = parseWhiteSpace s pos + 1 + pre.length := by
      omega
    rw [this, parseWhiteSpace_shift]
  · have h2 : ¬ (parseWhiteSpace s pos + pre.length < pre.length + s.length ∧
        s[parseWhiteSpace s pos]? = some c) := fun h2 => h ⟨by omega, h2.2⟩
    rw [if_neg h, if_neg h2, parseWhiteSpace_shift]

theorem substr_shift {α : Type} (pre s : Text) (pos m : Nat) (k k2 : Text → Res (α × Nat))
    (hk : ∀ t, k2 t = (k t).shift pre.length) :
    substr (pre ++ s) (pos + pre.length) m k2 = (substr s pos m k).shift pre.length := by
  unfold substr
  rw [drop_shift]
  by_cases h : pos > s.length
  · have h2 : pos + pre.length > (pre ++ s).length := by simp; omega
    rw [if_pos h, if_pos h2]
    rfl
  · have h2 : ¬ pos + pre.length > (pre ++ s).length := by simp; omega
    rw [if_neg h, if_neg h2, hk]

theorem parseNull_shift {F : Type} (pre s : Text) (pos : Nat) :
    (parseNull (pre ++ s) (pos + pre.length) : Res (Option (Value F) × Nat)) =
      (parseNull s pos).shift pre.length := by
  unfold parseNull
  apply substr_shift
  intro t
  split
  · simp only [Res.shift]
    congr 2
    omega
  · rfl

theorem parseTrue_shift {F : Type} (pre s : Text) (pos : Nat) :
    (parseTrue (pre ++ s) (pos + pre.length) : Res (Option (Value F) × Nat)) =
      (parseTrue s pos).shift pre.length := by
  unfold parseTrue
  apply substr_shift
  intro t
  split
  · simp only [Res.shift]
    congr 2
    omega
  · rfl

theorem parseFalse_shift {F : Type} (pre s : Text) (pos : Nat) :
    (parseFalse (pre ++ s) (pos + pre.length) : Res (Option (Value F) × Nat)) =
      (parseFalse s pos).shift pre.length := by
  unfold parseFalse
  apply substr_shift
  intro t
  split
  · simp only [Res.shift]
    congr 2
    omega
  · rfl

theorem parseNumber_shift {F : Type} (L : FloatLib F) (pre s : Text) (pos : Nat) :
    parseNumber L (pre ++ s) (pos + pre.length) = (parseNumber L s pos).shift pre.length := by
  unfold parseNumber
  simp only [drop_shift, scanWhile_shift]
  have hsub : scanWhile isNumberChar (s.drop pos) pos + pre.length - (pos + pre.length)
      = scanWhile isNumberChar (s.drop pos) pos - pos := by omega
  rw [hsub]
  apply substr_shift
  intro t
  split
  · split <;> rfl
  · split <;> rfl

theorem scanQuote_shift {α : Type} (l : Text) (e n : Nat) (k k2 : Nat → Res (α × Nat))
    (hk : ∀ e, k2 (e + n) = (k e).shift n) :
    scanQuote l (e + n) k2 = (scanQuote l e k).shift n := by
  induction l generalizing e with
  | nil => rfl
  | cons c rest ih =>
    simp only [scanQuote]
    split
    · have : e + n + 1 = e + 1 + n := by omega
      rw [this, ih]
    · exact hk e

theorem parseString_shift {F : Type} (pre s : Text) (pos : Nat) :
    (parseString (pre ++ s) (pos + pre.length) : Res (Option (Value F) × Nat)) =
      (parseString s pos).shift pre.length := by
  have hk : ∀ e, substr (pre ++ s) (pos + pre.length + 1) (e + pre.length - (pos + pre.length + 1))
      (fun str => (.ret (some (.string str), e + pre.length + 1) : Res (Option (Value F) × Nat)))
      = (substr s (pos + 1) (e - (pos + 1))
        (fun str => (.ret (some (.string str), e + 1) : Res (Option (Value F) × Nat)))).shift
          pre.length := by
    intro e
    have h1 : pos + pre.length + 1 = pos + 1 + pre.length := by omega
    have h2 : e + pre.length - (pos + 1 + pre.length) = e - (pos + 1) := by omega
    rw [h1, h2]
    apply substr_shift
    intro t
    simp only [Res.shift]
    congr 2
    omega
  unfold parseString
  simp only [List.length_append]
  by_cases h : pos + 1 < s.length
  · have h2 : pos + pre.length + 1 < pre.length + s.length := by omega
    rw [if_pos h, if_pos h2]
    have h1 : pos + pre.length + 1 = pos + 1 + pre.length := by omega
    rw [h1, drop_shift]
    apply scanQuote_shift
    intro e
    have := hk e
    rw [h1] at this
    exact this
  · have h2 : ¬ pos + pre.length + 1 < pre.length + s.length := by omega
    rw [if_neg h, if_neg h2]
    have := hk (pos + 1)
    have h1 : pos + 1 + pre.length = pos + pre.length + 1 := by omega
    rw [h1] at this
    exact this

/-- The recursive productions on a text with more characters in front, called
at the moved cursor, give the moved outcome. -/
theorem parse_shift {F : Type} (L : FloatLib F) (pre s : Text) (f : Nat) :
    (∀ pos, parseValue L (pre ++ s) f (pos + pre.length)
      = (parseValue L s f pos).shift pre.length) ∧
    (∀ pos arr, parseArrayLoop L (pre ++ s) f (pos + pre.length) arr
      = (parseArrayLoop L s f pos arr).shift pre.length) ∧
    (∀ pos obj, parseObjectLoop L (pre ++ s) f (pos + pre.length) obj
      = (parseObjectLoop L s f pos obj).shift pre.length) := by
  induction f with
  | zero => exact ⟨fun _ => rfl, fun _ _ => rfl, fun _ _ => rfl⟩
  | succ f ih =>
    obtain ⟨ihv, iha, iho⟩ := ih
    have hguard : ∀ (pos : Nat) (c : Char),
        (pos + pre.length < (pre ++ s).length ∧ (pre ++ s)[pos + pre.length]? ≠ some c) ↔
          (pos < s.length ∧ s[pos]? ≠ some c) := by
      intro pos c
      rw [getElem?_shift, List.length_append]
      constructor
      · exact fun h => ⟨by omega, h.2⟩
      · exact fun h => ⟨by omega, h.2⟩
    refine ⟨?_, ?_, ?_⟩
    · intro pos
      rw [parseValue_succ, parseValue_succ, parseWhiteSpace_shift, getElem?_shift]
      cases hc : s[parseWhiteSpace s pos]? with
      | none => rfl
      | some c =>
        simp only
        have h1 : parseWhiteSpace s pos + pre.length + 1
            = parseWhiteSpace s pos + 1 + pre.length := by omega
        split_ifs
        · exact parseNull_shift pre s _
        · exact parseTrue_shift pre s _
        · exact parseFalse_shift pre s _
        · exact parseString_shift pre s _
        · simp only [parseArray]
          rw [h1]
          exact iha _ _
        · simp only [parseObject]
          rw [h1]
          exact iho _ _
        · exact parseNumber_shift L pre s _
    · intro pos arr
      rw [parseArrayLoop_succ, parseArrayLoop_succ]
      by_cases hg : pos < s.length ∧ s[pos]? ≠ some ']'
      · rw [if_pos hg, if_pos ((hguard pos ']').mpr hg), ihv]
        cases hr : parseValue L s f pos with
        | ret a =>
          obtain ⟨x, q⟩ := a
          cases x with
          | none => rfl
          | some v =>
            simp only [Res.shift]
            rw [skipSeparator_shift]
            exact iha _ _
        | throw e => rfl
        | oobRead i => rfl
        | outOfFuel => rfl
      · rw [if_neg hg, if_neg (fun h => hg ((hguard pos ']').mp h))]
        simp only [Res.shift]
        congr 2
        omega
    · intro pos obj
      rw [parseObjectLoop_succ, parseObjectLoop_succ]
      by_cases hg : pos < s.length ∧ s[pos]? ≠ some '}'
      · rw [if_pos hg, if_pos ((hguard pos '}').mpr hg), ihv]
        cases hr : parseValue L s f pos with
        | ret a =>
          obtain ⟨x, q⟩ := a
          cases x with
          | none => rfl
          | some v =>
            cases v with
            | string key =>
              simp only [Res.shift]
              rw [skipSeparator_shift, ihv]
              cases hr2 : parseValue L s f (skipSeparator s ':' q) with
              | ret a2 =>
                obtain ⟨x2, q2⟩ := a2
                cases x2 with
                | none => rfl
                | some v2 =>
                  simp only [Res.shift]
                  rw [skipSeparator_shift]
                  exact iho _ _
              | throw e => rfl
              | oobRead i => rfl
              | outOfFuel => rfl
            | _ => rfl
        | throw e => rfl
        | oobRead i => rfl
        | outOfFuel => rfl
      · rw [if_neg hg, if_neg (fun h => hg ((hguard pos '}').mp h))]
        simp only [Res.shift]
        congr 2
        omega

theorem parseWhiteSpace_leading_all (w s : Text) (hw : ∀ c ∈ w, isspace c = true) :
    parseWhiteSpace (w ++ s) 0 = parseWhiteSpace s 0 + w.length := by
  unfold parseWhiteSpace
  rw [List.drop_zero, List.drop_zero, scanWhile_append_all isspace w s 0 hw, Nat.zero_add]
  have := scanWhile_shift isspace s 0 w.length
  rw [Nat.zero_add] at this
  exact this

theorem parser_leading_whitespace_eq {F : Type} (L : FloatLib F) (w s : Text)
    (hw : ∀ c ∈ w, isspace c = true) :
    parser L (w ++ s) = (parser L s).shiftRead w.length := by
  have hb := parseValue_fuel_enough L s (parseWhiteSpace s 0)
  have hm : parseValue L s (2 * (w ++ s).length + 1) (parseWhiteSpace s 0)
      = parseValue L s (2 * s.length + 1) (parseWhiteSpace s 0) :=
    parseValue_fuel_mono L s _ (by simp) hb
  unfold parser parse
  simp only [parseWhiteSpace_leading_all w s hw]
  rw [(parse_shift L w s _).1, hm]
  cases hr : parseValue L s (2 * s.length + 1) (parseWhiteSpace s 0) with
  | ret a =>
    obtain ⟨x, q⟩ := a
    cases x <;> rfl
  | throw e => rfl
  | oobRead i => rfl
  | outOfFuel => rfl

/-- C12. Whitespace in front of a text does not change what `parser` gives:
the same tree, the same absent result, the same exception; a read outside the
buffer happens on both texts, at the same place of the text (its index moved
by the length of the whitespace). -/
theorem parser_leading_whitespace {F : Type} (L : FloatLib F) (w s : Text)
    (hw : ∀ c ∈ w, isspace c = true) :
    parser L (w ++ s) = (parser L s).shiftRead w.length ∧
    (∀ r, parser L (w ++ s) = .ret r ↔ parser L s = .ret r) ∧
    (∀ e, parser L (w ++ s) = .throw e ↔ parser L s = .throw e) ∧
    (∀ i, parser L (w ++ s) = .oobRead (i + w.length) ↔ parser L s = .oobRead i) := by
  have h := parser_leading_whitespace_eq L w s hw
  refine ⟨h, ?_, ?_, ?_⟩
  · intro r
    rw [h]
    cases parser L s <;> simp [Res.shiftRead]
  · intro e
    rw [h]
    cases parser L s <;> simp [Res.shiftRead]
  · intro i
    rw [h]
    cases parser L s <;> simp [Res.shiftRead]

/-- C12, at the texts of the specification: ` { "k" : 1 } ` and `{"k":1}` give
the same tree, the object mapping `k` to `Int 1`. -/
theorem parser_leading_whitespace_witness :
    parser textFloat " \x7b \"k\" : 1 \x7d ".toList
      = .ret (some (.object [("k".toList, .int 1)])) ∧
    parser textFloat "\x7b\"k\":1\x7d".toList
      = .ret (some (.object [("k".toList, .int 1)])) ∧
    parser textFloat (" \t\n\r".toList ++ "\x7b\"k\":1\x7d".toList)
      = .ret (some (.object [("k".toList, .int 1)])) := by
  refine ⟨rfl, rfl, ?_⟩
  exact ((parser_leading_whitespace textFloat " \t\n\r".toList "\x7b\"k\":1\x7d".toList
    (by decide)).2.1 _).mpr rfl

/-! ## Text behind the parsed value -/

theorem getElem?_append_lt (a b : Text) {pos : Nat} (h : pos < a.length) :
    (a ++ b)[pos]? = a[pos]? :=
  List.getElem?_append_left h

theorem drop_append_le (a b : Text) {pos : Nat} (h : pos ≤ a.length) :
    (a ++ b).drop pos = a.drop pos ++ b :=
  List.drop_append_of_le_length h

theorem scanWhile_agree (p : Char → Bool) (l b1 b2 : Text) (pos q : Nat)
    (h : scanWhile p (l ++ b1) pos = q) (hq : q < pos + l.length) :
    scanWhile p (l ++ b2) pos = q := by
  induction l generalizing pos with
  | nil =>
    have := scanWhile_ge p ([] ++ b1) pos
    simp only [List.length_nil] at hq
    omega
  | cons c l ih =>
    rw [List.cons_append] at h ⊢
    simp only [scanWhile] at h ⊢
    split
    · rename_i hc
      rw [if_pos hc] at h
      exact ih (pos + 1) h (by simp only [List.length_cons] at hq; omega)
    · rename_i hc
      rw [if_neg hc] at h
      exact h

theorem parseWhiteSpace_agree (a b1 b2 : Text) (pos q : Nat)
    (h : parseWhiteSpace (a ++ b1) pos = q) (hq : q < a.length) :
    parseWhiteSpace (a ++ b2) pos = q := by
  have hpos : pos ≤ a.length := by
    have := parseWhiteSpace_ge (a ++ b1) pos
    omega
  unfold parseWhiteSpace at h ⊢
  rw [drop_append_le a _ hpos] at h ⊢
  exact scanWhile_agree isspace _ b1 b2 pos q h (by simp; omega)

theorem guard_agree (a b1 b2 : Text) (c : Char) {pos : Nat} (h : pos < a.length) :
    (pos < (a ++ b1).length ∧ (a ++ b1)[pos]? ≠ some c) ↔
      (pos < (a ++ b2).length ∧ (a ++ b2)[pos]? ≠ some c) := by
  simp only [getElem?_append_lt a _ h, List.length_append]
  constructor
  · exact fun h1 => ⟨by omega, h1.2⟩
  · exact fun h1 => ⟨by omega, h1.2⟩

theorem skipSeparator_agree (a b1 b2 : Text) (c : Char) (pos q : Nat)
    (h : skipSeparator (a ++ b1) c pos = q) (hq : q < a.length) :
    skipSeparator (a ++ b2) c pos = q := by
  unfold skipSeparator at h ⊢
  simp only at h ⊢
  have h1 := parseWhiteSpace_ge (a ++ b1) pos
  by_cases hg : parseWhiteSpace (a ++ b1) pos < (a ++ b1).length ∧
      (a ++ b1)[parseWhiteSpace (a ++ b1) pos]? = some c
  · rw [if_pos hg] at h
    have h2 := parseWhiteSpace_ge (a ++ b1) (parseWhiteSpace (a ++ b1) pos + 1)
    have hw : parseWhiteSpace (a ++ b1) pos < a.length := by omega
    have hw2 := parseWhiteSpace_agree a b1 b2 pos _ rfl hw
    rw [hw2]
    have hg2 : parseWhiteSpace (a ++ b1) pos < (a ++ b2).length ∧
        (a ++ b2)[parseWhiteSpace (a ++ b1) pos]? = some c := by
      rw [getElem?_append_lt a _ hw] at hg ⊢
      exact ⟨by simp; omega, hg.2⟩
    rw [if_pos hg2]
    exact parseWhiteSpace_agree a b1 b2 _ q h hq
  · rw [if_neg hg] at h
    have h2 := parseWhiteSpace_ge (a ++ b1) (parseWhiteSpace (a ++ b1) pos)
    have hw : parseWhiteSpace (a ++ b1) pos < a.length := by omega
    have hw2 := parseWhiteSpace_agree a b1 b2 pos _ rfl hw
    rw [hw2]
    have hg2 : ¬ (parseWhiteSpace (a ++ b1) pos < (a ++ b2).length ∧
        (a ++ b2)[parseWhiteSpace (a ++ b1) pos]? = some c) := by
      rw [getElem?_append_lt a _ hw] at hg ⊢
      exact fun h3 => hg ⟨by simp; omega, h3.2⟩
    rw [if_neg hg2]
    exact parseWhiteSpace_agree a b1 b2 _ q h hq

theorem take_drop_agree (a b1 b2 : Text) (pos m : Nat) (h : pos + m ≤ a.length) :
    ((a ++ b1).drop pos).take m = ((a ++ b2).drop pos).take m := by
  have hpos : pos ≤ a.length := by omega
  rw [drop_append_le a _ hpos, drop_append_le a _ hpos,
    List.take_append_of_le_length (by simp; omega),
    List.take_append_of_le_length (by simp; omega)]

theorem literal_agree {F : Type} (a b1 b2 : Text) (pos m : Nat) (lit : Text) (v : Value F)
    (x : Value F) (p1 : Nat)
    (h : substr (a ++ b1) pos m (fun t =>
      if t = lit then (.ret (some v, pos + m) : Res (Option (Value F) × Nat))
      else .ret (none, pos)) = .ret (some x, p1))
    (hp : p1 ≤ a.length) :
    substr (a ++ b2) pos m (fun t =>
      if t = lit then (.ret (some v, pos + m) : Res (Option (Value F) × Nat))
      else .ret (none, pos)) = .ret (some x, p1) := by
  unfold substr at h ⊢
  split at h
  · simp at h
  · simp only at h
    split at h
    · rename_i hlen hlit
      simp only [Res.ret.injEq, Prod.mk.injEq, Option.some.injEq] at h
      have hpm : pos + m ≤ a.length := by omega
      have hlen2 : ¬ pos > (a ++ b2).length := by simp; omega
      rw [if_neg hlen2]
      simp only
      rw [← take_drop_agree a b1 b2 pos m hpm, if_pos hlit]
      simp [h]
    · simp at h

theorem scanQuote_found {α : Type} (l : Text) (e0 : Nat) (k : Nat → Res α) (r : α)
    (h : scanQuote l e0 k = .ret r) :
    ∃ e, e0 ≤ e ∧ e - e0 < l.length ∧ k e = .ret r ∧
      ∀ (l2 : Text) (k2 : Nat → Res α), l2.take (e - e0 + 1) = l.take (e - e0 + 1) →
        scanQuote l2 e0 k2 = k2 e := by
  induction l generalizing e0 with
  | nil => simp [scanQuote] at h
  | cons c rest ih =>
    simp only [scanQuote] at h
    by_cases hc : c ≠ '"'
    · rw [if_pos hc] at h
      obtain ⟨e, he, hlt, hk, hall⟩ := ih (e0 + 1) h
      refine ⟨e, by omega, by simp only [List.length_cons]; omega, hk, ?_⟩
      intro l2 k2 htake
      have hsub : e - e0 + 1 = (e - (e0 + 1) + 1) + 1 := by omega
      rw [hsub] at htake
      cases l2 with
      | nil => simp at htake
      | cons c2 rest2 =>
        simp only [List.take_succ_cons, List.cons.injEq] at htake
        simp only [scanQuote]
        rw [htake.1, if_pos hc]
        exact hall rest2 k2 htake.2
    · rw [if_neg hc] at h
      refine ⟨e0, Nat.le_refl _, by simp, h, ?_⟩
      intro l2 k2 htake
      simp only [Nat.sub_self, Nat.zero_add] at htake
      cases l2 with
      | nil => simp at htake
      | cons c2 rest2 =>
        simp only [List.take_succ_cons, List.take_zero, List.cons.injEq, and_true] at htake
        simp only [scanQuote]
        rw [htake, if_neg hc]

theorem parseString_agree {F : Type} (a b1 b2 : Text) (pos p1 : Nat) (x : Option (Value F))
    (h : parseString (a ++ b1) pos = .ret (x, p1)) (hp : p1 ≤ a.length) :
    (parseString (a ++ b2) pos : Res (Option (Value F) × Nat)) = .ret (x, p1) := by
  unfold parseString at h ⊢
  simp only at h ⊢
  by_cases hlt : pos + 1 < (a ++ b1).length
  · rw [if_pos hlt] at h
    obtain ⟨e, he, -, hk, hall⟩ := scanQuote_found _ _ _ _ h
    unfold substr at hk
    split at hk
    · simp at hk
    · simp only [Res.ret.injEq, Prod.mk.injEq] at hk
      obtain ⟨hx, hp1⟩ := hk
      have hen : e + 1 ≤ a.length := by omega
      have hlt2 : pos + 1 < (a ++ b2).length := by simp; omega
      rw [if_pos hlt2]
      rw [hall ((a ++ b2).drop (pos + 1)) _ (by
        have := take_drop_agree a b2 b1 (pos + 1) (e - (pos + 1) + 1) (by omega)
        exact this)]
      have hlen2 : ¬ pos + 1 > (a ++ b2).length := by omega
      simp only [substr, hlen2, if_false]
      rw [take_drop_agree a b2 b1 (pos + 1) (e - (pos + 1)) (by omega), hx, hp1]
  · rw [if_neg hlt] at h
    unfold substr at h
    split at h
    · simp at h
    · simp only [Res.ret.injEq, Prod.mk.injEq] at h
      simp only [List.length_append] at hlt
      omega

theorem parseNumber_isNumber {F : Type} {L : FloatLib F} {s : Text} {pos p1 : Nat}
    {x : Value F} (h : parseNumber L s pos = .ret (some x, p1)) : x.isNumber = true := by
  unfold parseNumber substr at h
  simp only at h
  split at h
  · simp at h
  · split at h
    · split at h
      · simp only [Res.ret.injEq, Prod.mk.injEq, Option.some.injEq] at h
        rw [← h.1]
        rfl
      · simp at h
    · split at h
      · simp only [Res.ret.injEq, Prod.mk.injEq, Option.some.injEq] at h
        rw [← h.1]
        rfl
      · simp at h

theorem parseNumber_agree {F : Type} (L : FloatLib F) (a b1 b2 : Text) (pos p1 : Nat)
    (x : Option (Value F)) (h : parseNumber L (a ++ b1) pos = .ret (x, p1))
    (hp : p1 < a.length) : parseNumber L (a ++ b2) pos = .ret (x, p1) := by
  have hcur := parseNumber_cursor h
  have hpos : pos ≤ a.length := by omega
  have hend : scanWhile isNumberChar ((a ++ b1).drop pos) pos = p1 := by
    unfold parseNumber substr at h
    simp only at h
    split at h
    · simp at h
    · split at h
      · split at h <;> simp at h <;> exact h.2
      · split at h <;> simp at h <;> exact h.2
  have hend2 : scanWhile isNumberChar ((a ++ b2).drop pos) pos = p1 := by
    rw [drop_append_le a _ hpos] at hend ⊢
    exact scanWhile_agree _ _ b1 b2 pos p1 hend (by simp; omega)
  have hlen1 : ¬ pos > (a ++ b1).length := by simp; omega
  have hlen2 : ¬ pos > (a ++ b2).length := by simp; omega
  unfold parseNumber substr at h ⊢
  simp only [hend, hend2, hlen1, hlen2, if_false] at h ⊢
  rw [take_drop_agree a b2 b1 pos (p1 - pos) (by omega)]
  exact h

/-- A production that returns a value with its cursor inside the first part
`a` of the text returns the same on any text that starts with `a`; a number
must end strictly inside `a`, the other values may end with it. -/
theorem parse_agree {F : Type} (L : FloatLib F) (a b1 b2 : Text) (f : Nat) :
    (∀ pos x p1, parseValue L (a ++ b1) f pos = .ret (some x, p1) →
      (p1 < a.length ∨ (p1 ≤ a.length ∧ x.isNumber = false)) →
      parseValue L (a ++ b2) f pos = .ret (some x, p1)) ∧
    (∀ pos arr x p1, parseArrayLoop L (a ++ b1) f pos arr = .ret (some x, p1) →
      p1 ≤ a.length → parseArrayLoop L (a ++ b2) f pos arr = .ret (some x, p1)) ∧
    (∀ pos obj x p1, parseObjectLoop L (a ++ b1) f pos obj = .ret (some x, p1) →
      p1 ≤ a.length → parseObjectLoop L (a ++ b2) f pos obj = .ret (some x, p1)) := by
  induction f with
  | zero =>
    refine ⟨?_, ?_, ?_⟩ <;> intros <;> simp_all [parseValue, parseArrayLoop, parseObjectLoop]
  | succ f ih =>
    obtain ⟨ihv, iha, iho⟩ := ih
    obtain ⟨prv, pra, pro⟩ := parse_progress L (a ++ b1) f
    refine ⟨?_, ?_, ?_⟩
    · intro pos x p1 h hp
      have hle : p1 ≤ a.length := by
        rcases hp with hp | hp
        · omega
        · exact hp.1
      have hstrict := (parse_progress L (a ++ b1) (f + 1)).1 _ _ _ h
      rw [parseValue_succ] at h
      have hq := parseWhiteSpace_ge (a ++ b1) pos
      cases hc : (a ++ b1)[parseWhiteSpace (a ++ b1) pos]? with
      | none =>
        rw [hc] at h
        simp at h
      | some c =>
        rw [hc] at h
        simp only at h
        have hqlt : parseWhiteSpace (a ++ b1) pos < a.length := by
          have hcur : parseWhiteSpace (a ++ b1) pos < p1 := by
            have h2 : parseValue L (a ++ b1) (f + 1) (parseWhiteSpace (a ++ b1) pos)
                = .ret (some x, p1) := by
              rw [parseValue_succ]
              have hidem : parseWhiteSpace (a ++ b1) (parseWhiteSpace (a ++ b1) pos)
                  = parseWhiteSpace (a ++ b1) pos := by
                by_cases hsp : isspace c = true
                · exfalso
                  split_ifs at h with h1 h2 h3 h4 h5 h6
                  all_goals first
                    | (subst h1; exact absurd hsp (by decide))
                    | (subst h2; exact absurd hsp (by decide))
                    | (subst h3; exact absurd hsp (by decide))
                    | (subst h4; exact absurd hsp (by decide))
                    | (subst h5; exact absurd hsp (by decide))
                    | (subst h6; exact absurd hsp (by decide))
                    | skip
                  have hd := drop_of_getElem? hc
                  have hnum : isNumberChar c = false := by
                    cases hn : isNumberChar c with
                    | false => rfl
                    | true =>
                      simp only [isNumberChar, Bool.or_eq_true, decide_eq_true_eq] at hn
                      rcases hn with (hn | hn) | hn
                      · exact absurd hsp (by rw [(isdigit_facts hn).1]; simp)
                      · subst hn
                        exact absurd hsp (by decide)
                      · subst hn
                        exact absurd hsp (by decide)
                  rw [parseNumber_not_number L hd hnum] at h
                  simp at h
                · exact parseWhiteSpace_of_not_space hc (by simpa using hsp)
              rw [hidem, hc]
              exact h
            exact (parse_progress L (a ++ b1) (f + 1)).1 _ _ _ h2
          omega
        rw [parseValue_succ, parseWhiteSpace_agree a b1 b2 pos _ rfl hqlt,
          getElem?_append_lt a b2 hqlt, ← getElem?_append_lt a b1 hqlt, hc]
        simp only
        split_ifs at h ⊢
        · exact literal_agree a b1 b2 _ 4 _ _ x p1 h hle
        · exact literal_agree a b1 b2 _ 4 _ _ x p1 h hle
        · exact literal_agree a b1 b2 _ 5 _ _ x p1 h hle
        · exact parseString_agree a b1 b2 _ p1 _ h hle
        · exact iha _ _ _ _ h hle
        · exact iho _ _ _ _ h hle
        · have hnum := parseNumber_isNumber h
          have hlt : p1 < a.length := by
            rcases hp with hp | hp
            · exact hp
            · rw [hnum] at hp
              exact absurd hp.2 (by simp)
          exact parseNumber_agree L a b1 b2 _ p1 _ h hlt
    · intro pos arr x p1 h hp
      have hstrict := (parse_progress L (a ++ b1) (f + 1)).2.1 _ _ _ _ h
      have hpos : pos < a.length := by omega
      rw [parseArrayLoop_succ] at h
      rw [parseArrayLoop_succ]
      by_cases hg : pos < (a ++ b1).length ∧ (a ++ b1)[pos]? ≠ some ']'
      · rw [if_pos hg] at h
        rw [if_pos ((guard_agree a b1 b2 ']' hpos).mp hg)]
        cases hr : parseValue L (a ++ b1) f pos with
        | ret r =>
          obtain ⟨v, q⟩ := r
          rw [hr] at h
          cases v with
          | none => simp at h
          | some v =>
            simp only at h
            have h1 := pra _ _ _ _ h
            have h2 := skipSeparator_ge (a ++ b1) ',' q
            rw [ihv pos v q hr (Or.inl (by omega))]
            simp only
            rw [skipSeparator_agree a b1 b2 ',' q _ rfl (by omega)]
            exact iha _ _ _ _ h hp
        | throw e => rw [hr] at h; simp at h
        | oobRead i => rw [hr] at h; simp at h
        | outOfFuel => rw [hr] at h; simp at h
      · rw [if_neg hg] at h
        rw [if_neg (fun h2 => hg ((guard_agree a b1 b2 ']' hpos).mpr h2))]
        exact h
    · intro pos obj x p1 h hp
      have hstrict := (parse_progress L (a ++ b1) (f + 1)).2.2 _ _ _ _ h
      have hpos : pos < a.length := by omega
      rw [parseObjectLoop_succ] at h
      rw [parseObjectLoop_succ]
      by_cases hg : pos < (a ++ b1).length ∧ (a ++ b1)[pos]? ≠ some '}'
      · rw [if_pos hg] at h
        rw [if_pos ((guard_agree a b1 b2 '}' hpos).mp hg)]
        cases hr : parseValue L (a ++ b1) f pos with
        | ret r =>
          obtain ⟨v, q⟩ := r
          rw [hr] at h
          cases v with
          | none => simp at h
          | some v =>
            cases v with
            | string key =>
              simp only at h
              cases hr2 : parseValue L (a ++ b1) f (skipSeparator (a ++ b1) ':' q) with
              | ret r2 =>
                obtain ⟨v2, q2⟩ := r2
                rw [hr2] at h
                cases v2 with
                | none => simp at h
                | some v2 =>
                  simp only at h
                  have h1 := pro _ _ _ _ h
                  have h2 := skipSeparator_ge (a ++ b1) ',' q2
                  have h3 := prv _ _ _ hr2
                  have h4 := skipSeparator_ge (a ++ b1) ':' q
                  rw [ihv pos _ q hr (Or.inl (by omega))]
                  simp only
                  rw [skipSeparator_agree a b1 b2 ':' q _ rfl (by omega),
                    ihv _ v2 q2 hr2 (Or.inl (by omega))]
                  simp only
                  rw [skipSeparator_agree a b1 b2 ',' q2 _ rfl (by omega)]
                  exact iho _ _ _ _ h hp
              | throw e => rw [hr2] at h; simp at h
              | oobRead i => rw [hr2] at h; simp at h
              | outOfFuel => rw [hr2] at h; simp at h
            | _ => simp at h
        | throw e => rw [hr] at h; simp at h
        | oobRead i => rw [hr] at h; simp at h
        | outOfFuel => rw [hr] at h; simp at h
      · rw [if_neg hg] at h
        rw [if_neg (fun h2 => hg ((guard_agree a b1 b2 '}' hpos).mpr h2))]
        exact h

/-- What `parser` gives depends only on the text up to the final cursor, for a
root that is not a number. -/
theorem parser_of_agreeing_text {F : Type} (L : FloatLib F) (s s2 : Text) (f : Nat)
    (T : Node F) (p1 : Nat)
    (hparse : parseValue L s f (parseWhiteSpace s 0) = .ret (some T, p1))
    (hp : p1 ≤ s.length) (hT : T.isNumber = false) (h2 : s2.take p1 = s.take p1) :
    parser L s2 = .ret (some T) := by
  have hs : s = s.take p1 ++ s.drop p1 := (List.take_append_drop p1 s).symm
  have hs2 : s2 = s.take p1 ++ s2.drop p1 := by
    rw [← h2]
    exact (List.take_append_drop p1 s2).symm
  have hlen : (s.take p1).length = p1 := by simp [hp]
  have hq : parseWhiteSpace s 0 < p1 := (parse_progress L s f).1 _ _ _ hparse
  rw [hs] at hparse hq
  have hv := (parse_agree L (s.take p1) (s.drop p1) (s2.drop p1) f).1 _ T p1 hparse
    (Or.inr ⟨by omega, hT⟩)
  have hw := parseWhiteSpace_agree (s.take p1) (s.drop p1) (s2.drop p1) 0 _ rfl (by omega)
  rw [← hw, ← hs2] at hv
  have hb := parseValue_at_budget L s2 hv (by simp) (2 * s2.length + 1) (by omega)
  unfold parser parse
  simp only [hb]

/-- C13. When the parse of `s` gives a tree that is not a number and ends
with the cursor at most at the length of `s`, then `parser` gives this tree on
`s`, on `s` followed by any text, and on every text that has the same
characters as `s` before the final cursor: nothing at or behind the final
cursor has a part in the result. -/
theorem trailing_content_ignored {F : Type} (L : FloatLib F) (s t : Text) (f : Nat)
    (T : Node F) (p1 : Nat)
    (hparse : parseValue L s f (parseWhiteSpace s 0) = .ret (some T, p1))
    (hp : p1 ≤ s.length) (hT : T.isNumber = false) :
    parser L s = .ret (some T) ∧
    parser L (s ++ t) = .ret (some T) ∧
    (∀ s2 : Text, s2.take p1 = s.take p1 → parser L s2 = .ret (some T)) := by
  refine ⟨parser_of_agreeing_text L s s f T p1 hparse hp hT rfl, ?_,
    fun s2 h2 => parser_of_agreeing_text L s s2 f T p1 hparse hp hT h2⟩
  exact parser_of_agreeing_text L s (s ++ t) f T p1 hparse hp hT
    (List.take_append_of_le_length hp)

/-- The text `null` followed by anything parses to `Null`. -/
theorem parser_null_append {F : Type} (L : FloatLib F) (t : Text) :
    parser L ("null".toList ++ t) = .ret (some .null) :=
  parser_of_agreeing_text L "null".toList ("null".toList ++ t) 1 .null 4 rfl (by decide) rfl
    rfl

/-- C13, at concrete texts: `[1, "a"]` and `null` followed by other text. -/
theorem trailing_content_ignored_witness :
    parser textFloat ("[1, \"a\"]".toList ++ "]] x".toList)
      = .ret (some (.array [.int 1, .string "a".toList])) ∧
    parser textFloat ("null".toList ++ "ify".toList) = .ret (some .null) :=
  ⟨(trailing_content_ignored textFloat "[1, \"a\"]".toList "]] x".toList 10
      (.array [.int 1, .string "a".toList]) 8 rfl (by decide) rfl).2.1,
    (trailing_content_ignored textFloat "null".toList "ify".toList 1 .null 4 rfl (by decide)
      rfl).2.1⟩

/-! ## A container without its closing bracket -/

theorem skipSeparator_at_end {s : Text} (c : Char) {p : Nat} (h : s.length ≤ p) :
    skipSeparator s c p = p := by
  have hn : ¬ (p < s.length ∧ s[p]? = some c) := fun h2 => by omega
  unfold skipSeparator
  simp only [parseWhiteSpace_of_end h, hn, if_false]

theorem length_le_of_drop_nil {s : Text} {p : Nat} (h : s.drop p = []) : s.length ≤ p :=
  List.drop_eq_nil_iff.mp h

/-- Where the text ends or the closing bracket stands, the loop guard fails
and no separator is skipped. -/
theorem at_close {s : Text} {p : Nat} {cl : Char} {close : Text}
    (hs : s.drop p = close) (hclose : close = [] ∨ ∃ post, close = cl :: post)
    (hcl : isspace cl = false) (hne : cl ≠ ',') :
    ¬ (p < s.length ∧ s[p]? ≠ some cl) ∧ skipSeparator s ',' p = p := by
  rcases hclose with h | ⟨post, h⟩
  · rw [h] at hs
    have hlen := length_le_of_drop_nil hs
    exact ⟨fun h2 => by omega, skipSeparator_at_end ',' hlen⟩
  · rw [h] at hs
    refine ⟨?_, skipSeparator_at_other hs hcl hne⟩
    rw [getElem?_of_drop hs]
    simp

theorem head_of_close {cl : Char} {close : Text}
    (hclose : close = [] ∨ ∃ post, close = cl :: post) (hcl : isNumberChar cl = false) :
    ∀ c, close.head? = some c → isNumberChar c = false := by
  intro c hc
  rcases hclose with h | ⟨post, h⟩
  · rw [h] at hc
    simp at hc
  · rw [h] at hc
    simp only [List.head?_cons, Option.some.injEq] at hc
    rw [← hc]
    exact hcl

/-- The array loop reads back the elements that are left, up to the closing
bracket or, when it is missing, up to the end of the text. -/
theorem parseArrayLoop_elements_upto {F : Type} (L : FloatLib F) (rest : Array F)
    (h : ∀ x ∈ rest, ParsesBack L x ∧ x.plain) (s : Text) (pos : Nat) (arr : Array F)
    (close : Text) (hclose : close = [] ∨ ∃ post, close = ']' :: post)
    (hs : s.drop pos = [','].intercalate (rest.map (generate L)) ++ close) :
    ∃ f, parseArrayLoop L s f pos arr =
      .ret (some (.array (arr ++ rest)),
        pos + ([','].intercalate (rest.map (generate L))).length + 1) := by
  induction rest generalizing pos arr with
  | nil =>
    refine ⟨1, ?_⟩
    have hs1 : s.drop pos = close := by simpa [List.intercalate] using hs
    rw [parseArrayLoop_succ, if_neg (at_close hs1 hclose (by decide) (by decide)).1]
    simp [List.intercalate]
  | cons x xs ih =>
    obtain ⟨hx, hxp⟩ := h x (List.mem_cons_self _ _)
    have hxs : ∀ y ∈ xs, ParsesBack L y ∧ y.plain := fun y hy =>
      h y (List.mem_cons_of_mem _ hy)
    obtain ⟨c, tl, hgen, hsp, hb1, -⟩ := generate_head L x hxp
    cases xs with
    | nil =>
      have hs1 : s.drop pos = generate L x ++ close := by
        simpa [intercalate_single] using hs
      have hs0 : s.drop pos = c :: (tl ++ close) := by rw [hs1, hgen]; rfl
      have hv := hx s pos close hs1 (head_of_close hclose isNumberChar_closers.1)
      have hs2 : s.drop (pos + (generate L x).length) = close := drop_add_of_drop _ _ hs1
      have hsep := (at_close hs2 hclose (by decide) (by decide)).2
      obtain ⟨f2, hf2⟩ := ih hxs
        (pos + (generate L x).length) (arr ++ [x]) (by simpa [List.intercalate] using hs2)
      rw [← hsep] at hf2
      have hres := parseArrayLoop_step (lt_length_of_drop hs0)
        (by rw [getElem?_of_drop hs0]; simpa using hb1) hv ⟨f2, hf2⟩ (by simp)
      obtain ⟨f, hf⟩ := hres
      rw [hsep] at hf
      refine ⟨f, ?_⟩
      rw [hf]
      simp [List.intercalate, Nat.add_assoc]
    | cons y ys =>
      obtain ⟨hy, hyp⟩ := hxs y (List.mem_cons_self _ _)
      obtain ⟨c2, tl2, hgen2, hsp2, -, -⟩ := generate_head L y hyp
      have hj : [','].intercalate ((x :: y :: ys).map (generate L))
          = generate L x ++ ([','] ++ [','].intercalate ((y :: ys).map (generate L))) := by
        simp only [List.map_cons]
        exact intercalate_cons_cons _ _ _ _
      have hs1 : s.drop pos = generate L x ++
          (',' :: ([','].intercalate ((y :: ys).map (generate L)) ++ close)) := by
        rw [hs, hj]
        simp
      have hs0 : s.drop pos = c :: (tl ++
          (',' :: ([','].intercalate ((y :: ys).map (generate L)) ++ close))) := by
        rw [hs1, hgen]
        rfl
      have hv := hx s pos _ hs1 (by
        intro c hc
        simp only [List.head?_cons, Option.some.injEq] at hc
        rw [← hc]
        exact isNumberChar_closers.2.2.1)
      have hs2 := drop_add_of_drop _ _ hs1
      have hy0 : ∃ r2, [','].intercalate ((y :: ys).map (generate L)) ++ close
          = c2 :: r2 := by
        cases ys with
        | nil => exact ⟨tl2 ++ close, by simp [intercalate_single, hgen2]⟩
        | cons z zs =>
          refine ⟨tl2 ++ ([','] ++ [','].intercalate ((z :: zs).map (generate L)))
            ++ close, ?_⟩
          simp only [List.map_cons]
          rw [intercalate_cons_cons, hgen2]
          simp
      obtain ⟨r2, hr2⟩ := hy0
      have hsep : skipSeparator s ',' (pos + (generate L x).length)
          = pos + (generate L x).length + 1 :=
        skipSeparator_at_sep (by rw [hs2, hr2]) (by decide) hsp2
      obtain ⟨f2, hf2⟩ := ih hxs (pos + (generate L x).length + 1) (arr ++ [x])
        (drop_succ_of_drop hs2)
      rw [← hsep] at hf2
      have hres := parseArrayLoop_step (lt_length_of_drop hs0)
        (by rw [getElem?_of_drop hs0]; simpa using hb1) hv ⟨f2, hf2⟩ (by simp)
      obtain ⟨f, hf⟩ := hres
      rw [hsep] at hf
      refine ⟨f, ?_⟩
      rw [hf, hj]
      simp only [List.append_assoc, List.singleton_append, List.length_append,
        List.length_cons]
      congr 2
      omega

/-- The object loop reads back the entries that are left, up to the closing
brace or, when it is missing, up to the end of the text. -/
theorem parseObjectLoop_entries_upto {F : Type} (L : FloatLib F) (rest : Object F)
    (h : ∀ e ∈ rest, '"' ∉ e.1 ∧ ParsesBack L e.2 ∧ e.2.plain) (s : Text) (pos : Nat)
    (obj : Object F) (close : Text) (hclose : close = [] ∨ ∃ post, close = '}' :: post)
    (hord : mapOrdered (obj ++ rest))
    (hs : s.drop pos = [','].intercalate
      (rest.map fun e => (['"'] ++ e.1 ++ ['"'] ++ [':']) ++ generate L e.2) ++ close) :
    ∃ f, parseObjectLoop L s f pos obj =
      .ret (some (.object (obj ++ rest)),
        pos + ([','].intercalate
          (rest.map fun e => (['"'] ++ e.1 ++ ['"'] ++ [':']) ++ generate L e.2)).length + 1) := by
  induction rest generalizing pos obj with
  | nil =>
    refine ⟨1, ?_⟩
    have hs1 : s.drop pos = close := by simpa [List.intercalate] using hs
    rw [parseObjectLoop_succ, if_neg (at_close hs1 hclose (by decide) (by decide)).1]
    simp [List.intercalate]
  | cons e xs ih =>
    obtain ⟨hq, hx, hxp⟩ := h e (List.mem_cons_self _ _)
    have hxs : ∀ y ∈ xs, '"' ∉ y.1 ∧ ParsesBack L y.2 ∧ y.2.plain := fun y hy =>
      h y (List.mem_cons_of_mem _ hy)
    obtain ⟨c, tl, hgen, hsp, -, -⟩ := generate_head L e.2 hxp
    have hkey := parsesBack_string L e.1 hq
    have hassign : mapAssign obj e.1 e.2 = obj ++ [e] := by
      rw [mapAssign_append_last obj e.1 e.2]
      intro e0 he0
      have := List.pairwise_append.mp hord
      exact this.2.2 e0 he0 e (List.mem_cons_self _ _)
    have hord2 : mapOrdered ((obj ++ [e]) ++ xs) := by simpa using hord
    -- the text from the cursor: key, colon, value, then what follows the entry
    have key : ∀ (follow : Text) (p3 : Nat),
        s.drop pos = generate L (.string e.1) ++ (':' :: (generate L e.2 ++ follow)) →
        (∀ c, follow.head? = some c → isNumberChar c = false) →
        skipSeparator s ','
          (pos + (generate L (.string e.1)).length + 1 + (generate L e.2).length) = p3 →
        (∃ f, parseObjectLoop L s f p3 (obj ++ [e]) =
          .ret (some (.object (obj ++ [e] ++ xs)),
            p3 + ([','].intercalate
              (xs.map fun e => (['"'] ++ e.1 ++ ['"'] ++ [':']) ++ generate L e.2)).length + 1)) →
        ∃ f, parseObjectLoop L s f pos obj =
          .ret (some (.object (obj ++ [e] ++ xs)),
            p3 + ([','].intercalate
              (xs.map fun e => (['"'] ++ e.1 ++ ['"'] ++ [':']) ++ generate L e.2)).length + 1) := by
      intro follow p3 hs1 hfollow hsep hloop
      have hs0 : s.drop pos = '"' :: (e.1 ++ '"' :: ':' :: (generate L e.2 ++ follow)) := by
        rw [hs1]
        simp [generate, generateString]
      have hk := hkey s pos (':' :: (generate L e.2 ++ follow)) hs1 (by
        intro c hc
        simp only [List.head?_cons, Option.some.injEq] at hc
        rw [← hc]
        exact isNumberChar_closers.2.2.2)
      have hs2 := drop_add_of_drop _ _ hs1
      have hsep1 : skipSeparator s ':' (pos + (generate L (.string e.1)).length)
          = pos + (generate L (.string e.1)).length + 1 :=
        skipSeparator_at_sep (by rw [hs2, hgen]; rfl) (by decide) hsp
      have hs3 : s.drop (pos + (generate L (.string e.1)).length + 1)
          = generate L e.2 ++ follow := drop_succ_of_drop hs2
      have hv := hx s _ follow hs3 hfollow
      exact parseObjectLoop_step_at (lt_length_of_drop hs0)
        (by rw [getElem?_of_drop hs0]; decide) hk hsep1 hv hsep hassign hloop (by simp)
    cases xs with
    | nil =>
      have hs1 : s.drop pos = generate L (.string e.1) ++
          (':' :: (generate L e.2 ++ close)) := by
        rw [hs]
        simp [intercalate_single, generate, generateString]
      have hs4 : s.drop (pos + (generate L (.string e.1)).length + 1 + (generate L e.2).length)
          = close :=
        drop_add_of_drop _ _ (drop_succ_of_drop (drop_add_of_drop _ _ hs1))
      obtain ⟨f2, hf2⟩ := ih hxs
        (pos + (generate L (.string e.1)).length + 1 + (generate L e.2).length) (obj ++ [e])
        hord2 (by simpa [List.intercalate] using hs4)
      obtain ⟨f, hf⟩ := key close _ hs1 (head_of_close hclose isNumberChar_closers.2.1)
        (at_close hs4 hclose (by decide) (by decide)).2 ⟨f2, hf2⟩
      refine ⟨f, ?_⟩
      rw [hf]
      simp [List.intercalate, generate, generateString]
      omega
    | cons y ys =>
      have hj : [','].intercalate
          ((e :: y :: ys).map fun e => (['"'] ++ e.1 ++ ['"'] ++ [':']) ++ generate L e.2)
          = ((['"'] ++ e.1 ++ ['"'] ++ [':']) ++ generate L e.2) ++ ([','] ++ [','].intercalate
            ((y :: ys).map fun e => (['"'] ++ e.1 ++ ['"'] ++ [':']) ++ generate L e.2)) := by
        simp only [List.map_cons]
        exact intercalate_cons_cons _ _ _ _
      have hs1 : s.drop pos = generate L (.string e.1) ++ (':' :: (generate L e.2 ++
          (',' :: ([','].intercalate
            ((y :: ys).map fun e => (['"'] ++ e.1 ++ ['"'] ++ [':']) ++ generate L e.2)
              ++ close)))) := by
        rw [hs, hj, entry_text_eq]
        simp
      have hs4 := drop_add_of_drop _ _ (drop_succ_of_drop (drop_add_of_drop _ _ hs1))
      have hy0 := entries_text_head L y ys close
      obtain ⟨r2, hr2⟩ := hy0
      have hsep : skipSeparator s ','
          (pos + (generate L (.string e.1)).length + 1 + (generate L e.2).length)
          = pos + (generate L (.string e.1)).length + 1 + (generate L e.2).length + 1 :=
        skipSeparator_at_sep (by rw [hs4, hr2]) (by decide) (by decide)
      obtain ⟨f2, hf2⟩ := ih hxs
        (pos + (generate L (.string e.1)).length + 1 + (generate L e.2).length + 1)
        (obj ++ [e]) hord2 (drop_succ_of_drop hs4)
      obtain ⟨f, hf⟩ := key _ _ hs1 (by
        intro c hc
        simp only [List.head?_cons, Option.some.injEq] at hc
        rw [← hc]
        exact isNumberChar_closers.2.2.1) hsep ⟨f2, hf2⟩
      refine ⟨f, ?_⟩
      rw [hf, hj]
      simp only [List.append_assoc, List.singleton_append, List.length_append,
        List.length_cons, List.cons_append, List.nil_append, generate, generateString,
        List.length_nil]
      congr 2
      omega


theorem parser_of_parseValue {F : Type} (L : FloatLib F) (s : Text) (c : Char) (tl : Text)
    (hs : s = c :: tl) (hc : isspace c = false) (T : Node F) (p1 : Nat)
    (h : ∃ f, parseValue L s f 0 = .ret (some T, p1)) : parser L s = .ret (some T) := by
  obtain ⟨f, hf⟩ := h
  have hs0 : s.drop 0 = c :: tl := by simp [hs]
  have hb := parseValue_at_budget L s hf (by simp) (2 * s.length + 1) (by omega)
  unfold parser parse
  simp only [parseWhiteSpace_of_drop hs0 hc, hb]

theorem parser_open_array {F : Type} (L : FloatLib F) (a : Array F) (ha : plainArray a) :
    parser L (generate L (.array a)).dropLast = .ret (some (.array a)) := by
  have hd : (generate L (.array a)).dropLast
      = '[' :: [','].intercalate (a.map (generate L)) := by
    rw [generate_array_eq, List.dropLast_concat]
    rfl
  rw [hd]
  refine parser_of_parseValue L _ '[' _ rfl (by decide) _
    (1 + ([','].intercalate (a.map (generate L))).length + 1) ?_
  have hs1 : ('[' :: [','].intercalate (a.map (generate L))).drop (0 + 1)
      = [','].intercalate (a.map (generate L)) ++ [] := by simp
  obtain ⟨f, hf⟩ := parseArrayLoop_elements_upto L a (parsesBack_elements L a ha) _ (0 + 1) []
    [] (Or.inl rfl) hs1
  refine ⟨f + 1, ?_⟩
  have hs0 : ('[' :: [','].intercalate (a.map (generate L))).drop 0
      = '[' :: [','].intercalate (a.map (generate L)) := rfl
  rw [parseValue_dispatch L f hs0 (by decide)]
  simp only [Char.reduceEq, if_true, if_false, parseArray]
  rw [hf]
  simp

theorem parser_open_object {F : Type} (L : FloatLib F) (o : Object F) (hord : mapOrdered o)
    (ho : plainObject o) :
    parser L (generate L (.object o)).dropLast = .ret (some (.object o)) := by
  have hd : (generate L (.object o)).dropLast
      = '{' :: [','].intercalate
        (o.map fun e => (['"'] ++ e.1 ++ ['"'] ++ [':']) ++ generate L e.2) := by
    rw [generate_object_eq, List.dropLast_concat]
    rfl
  rw [hd]
  refine parser_of_parseValue L _ '{' _ rfl (by decide) _
    (1 + ([','].intercalate
      (o.map fun e => (['"'] ++ e.1 ++ ['"'] ++ [':']) ++ generate L e.2)).length + 1) ?_
  have hs1 : ('{' :: [','].intercalate
      (o.map fun e => (['"'] ++ e.1 ++ ['"'] ++ [':']) ++ generate L e.2)).drop (0 + 1)
      = [','].intercalate
        (o.map fun e => (['"'] ++ e.1 ++ ['"'] ++ [':']) ++ generate L e.2) ++ [] := by simp
  obtain ⟨f, hf⟩ := parseObjectLoop_entries_upto L o (parsesBack_entries L o ho) _ (0 + 1) []
    [] (Or.inl rfl) (by simpa using hord) hs1
  refine ⟨f + 1, ?_⟩
  have hs0 : ('{' :: [','].intercalate
      (o.map fun e => (['"'] ++ e.1 ++ ['"'] ++ [':']) ++ generate L e.2)).drop 0
      = '{' :: [','].intercalate
        (o.map fun e => (['"'] ++ e.1 ++ ['"'] ++ [':']) ++ generate L e.2) := rfl
  rw [parseValue_dispatch L f hs0 (by decide)]
  simp only [Char.reduceEq, if_true, if_false, parseObject]
  rw [hf]
  simp

/-- C20. For a plain tree (Null, Bool, Int from 0 to 2^31 - 1, strings and
keys without a double quote, arrays, objects) whose root is an Array or an
Object, the compact rendering without its last character, the closing bracket,
still parses to the tree: the end of the text inside a container ends the
container. -/
theorem parser_missing_closing_bracket {F : Type} (L : FloatLib F) (T : Node F)
    (hT : T.plain) (hroot : T.isArray = true ∨ T.isObject = true) :
    parser L (generate L T).dropLast = .ret (some T) := by
  cases T with
  | array a => exact parser_open_array L a (by simpa [Value.plain] using hT)
  | object o =>
    simp only [Value.plain] at hT
    exact parser_open_object L o hT.1 hT.2
  | null => simp [Value.isArray, Value.isObject] at hroot
  | bool b => simp [Value.isArray, Value.isObject] at hroot
  | int i => simp [Value.isArray, Value.isObject] at hroot
  | float x => simp [Value.isArray, Value.isObject] at hroot
  | string s => simp [Value.isArray, Value.isObject] at hroot

/-- C20, at the texts of the specification: `[1`, `[` and `{"a":1`, as
renderings without the closing bracket and as literal texts. -/
theorem parser_missing_closing_bracket_witness :
    (generate textFloat (.array [.int 1])).dropLast = "[1".toList ∧
    parser textFloat (generate textFloat (.array [.int 1])).dropLast
      = .ret (some (.array [.int 1])) ∧
    parser textFloat "[1".toList = .ret (some (.array [.int 1])) ∧
    parser textFloat "[".toList = .ret (some (.array [])) ∧
    parser textFloat "\x7b\"a\":1".toList = .ret (some (.object [("a".toList, .int 1)])) ∧
    parser textFloat (generate textFloat (.object [("a".toList, .array [.object []])])).dropLast
      = .ret (some (.object [("a".toList, .array [.object []])])) :=
  ⟨rfl,
    parser_missing_closing_bracket textFloat (.array [.int 1])
      (by simp [Value.plain, plainArray, INT_MAX]) (Or.inl rfl),
    rfl, rfl, rfl,
    parser_missing_closing_bracket textFloat (.object [("a".toList, .array [.object []])])
      (by simp [Value.plain, plainArray, plainObject, mapOrdered]) (Or.inr rfl)⟩

/-! ## Round trip through the indented generator -/

theorem isspace_indentText (d : Nat) : ∀ c ∈ indentText d, isspace c = true := by
  intro c hc
  rw [indentText, List.mem_replicate] at hc
  rw [hc.2]
  rfl

theorem ws_run {s : Text} {p : Nat} {w : Text} {c : Char} {r : Text}
    (hw : ∀ x ∈ w, isspace x = true) (hs : s.drop p = w ++ c :: r) (hc : isspace c = false) :
    parseWhiteSpace s p = p + w.length := by
  unfold parseWhiteSpace
  rw [hs]
  exact scanWhile_append isspace w (c :: r) p hw (by
    intro x hx
    simp only [List.head?_cons, Option.some.injEq] at hx
    rw [← hx]
    exact hc)

theorem skipSeparator_ws_other {s : Text} {p : Nat} {w : Text} {c c1 : Char} {r : Text}
    (hw : ∀ x ∈ w, isspace x = true) (hs : s.drop p = w ++ c1 :: r)
    (hc1 : isspace c1 = false) (hne : c1 ≠ c) : skipSeparator s c p = p + w.length := by
  have hs2 : s.drop (p + w.length) = c1 :: r := drop_add_of_drop _ _ hs
  have hn : ¬ (p + w.length < s.length ∧ s[p + w.length]? = some c) := by
    rw [getElem?_of_drop hs2]
    intro h
    exact hne (by simpa using h.2)
  unfold skipSeparator
  simp only [ws_run hw hs hc1, hn, if_false, parseWhiteSpace_of_drop hs2 hc1]

theorem skipSeparator_sep_ws {s : Text} {p : Nat} {w : Text} {c c2 : Char} {r : Text}
    (hc : isspace c = false) (hw : ∀ x ∈ w, isspace x = true)
    (hs : s.drop p = c :: (w ++ c2 :: r)) (hc2 : isspace c2 = false) :
    skipSeparator s c p = p + 1 + w.length := by
  have hs2 : s.drop (p + 1) = w ++ c2 :: r := drop_succ_of_drop hs
  have hy : (p < s.length ∧ s[p]? = some c) := ⟨lt_length_of_drop hs, getElem?_of_drop hs⟩
  unfold skipSeparator
  simp only [parseWhiteSpace_of_drop hs hc, hy, and_self, if_true, ws_run hw hs2 hc2]

theorem parseValue_skip_ws {F : Type} (L : FloatLib F) {s : Text} {p : Nat} {w : Text}
    {c : Char} {r : Text} (f : Nat) (hw : ∀ x ∈ w, isspace x = true)
    (hs : s.drop p = w ++ c :: r) (hc : isspace c = false) :
    parseValue L s f p = parseValue L s f (p + w.length) := by
  cases f with
  | zero => rfl
  | succ f =>
    have hs2 : s.drop (p + w.length) = c :: r := drop_add_of_drop _ _ hs
    rw [parseValue_succ, parseValue_succ, ws_run hw hs hc, parseWhiteSpace_of_drop hs2 hc]

theorem guard_at_ws {s : Text} {p : Nat} {w : Text} {c cl : Char} {r : Text}
    (hw : ∀ x ∈ w, isspace x = true) (hs : s.drop p = w ++ c :: r) (hne : c ≠ cl)
    (hcl : isspace cl = false) : p < s.length ∧ s[p]? ≠ some cl := by
  cases w with
  | nil =>
    have hs1 : s.drop p = c :: r := hs
    refine ⟨lt_length_of_drop hs1, ?_⟩
    rw [getElem?_of_drop hs1]
    simpa using hne
  | cons x w =>
    have hs1 : s.drop p = x :: (w ++ c :: r) := hs
    refine ⟨lt_length_of_drop hs1, ?_⟩
    rw [getElem?_of_drop hs1]
    intro h
    have hx := hw x (List.mem_cons_self _ _)
    simp only [Option.some.injEq] at h
    rw [h, hcl] at hx
    exact absurd hx (by simp)

theorem parseArrayLoop_skip_ws {F : Type} (L : FloatLib F) {s : Text} {p : Nat} {w : Text}
    {c : Char} {r : Text} (f : Nat) (arr : Array F) (hw : ∀ x ∈ w, isspace x = true)
    (hs : s.drop p = w ++ c :: r) (hc : isspace c = false) (hne : c ≠ ']') :
    parseArrayLoop L s f p arr = parseArrayLoop L s f (p + w.length) arr := by
  cases f with
  | zero => rfl
  | succ f =>
    have hs2 : s.drop (p + w.length) = [] ++ c :: r := drop_add_of_drop _ _ hs
    rw [parseArrayLoop_succ, parseArrayLoop_succ,
      if_pos (guard_at_ws hw hs hne (by decide)),
      if_pos (guard_at_ws (fun _ h => absurd h (List.not_mem_nil _)) hs2 hne (by decide)),
      parseValue_skip_ws L f hw hs hc]

theorem parseObjectLoop_skip_ws {F : Type} (L : FloatLib F) {s : Text} {p : Nat} {w : Text}
    {c : Char} {r : Text} (f : Nat) (obj : Object F) (hw : ∀ x ∈ w, isspace x = true)
    (hs : s.drop p = w ++ c :: r) (hc : isspace c = false) (hne : c ≠ '}') :
    parseObjectLoop L s f p obj = parseObjectLoop L s f (p + w.length) obj := by
  cases f with
  | zero => rfl
  | succ f =>
    have hs2 : s.drop (p + w.length) = [] ++ c :: r := drop_add_of_drop _ _ hs
    rw [parseObjectLoop_succ, parseObjectLoop_succ,
      if_pos (guard_at_ws hw hs hne (by decide)),
      if_pos (guard_at_ws (fun _ h => absurd h (List.not_mem_nil _)) hs2 hne (by decide)),
      parseValue_skip_ws L f hw hs hc]

theorem renderItems_eq_map {F : Type} (L : FloatLib F)
    (container : Char → Char → List Text → Nat → Text) (a : List (Node F)) (d : Nat) :
    renderItems L container a d = a.map fun x => indentText d ++ renderWith L container x d := by
  induction a with
  | nil => rfl
  | cons x rest ih => simp only [renderItems, ih, List.map_cons]

/-- The indented rendering of a plain tree starts with a character that is no
blank and closes no container. -/
theorem codeRender_head {F : Type} (L : FloatLib F) (T : Node F) (d : Nat) (hT : T.plain) :
    ∃ c tl, codeRender L T d = c :: tl ∧ isspace c = false ∧ c ≠ ']' ∧ c ≠ '}' := by
  cases T with
  | array a =>
    simp only [codeRender, renderWith, codeContainer, specContainer]
    split
    · exact ⟨'[', _, rfl, by decide, by decide, by decide⟩
    · exact ⟨'[', _, rfl, by decide, by decide, by decide⟩
  | object o =>
    simp only [codeRender, renderWith, codeContainer, specContainer]
    split
    · exact ⟨'{', _, rfl, by decide, by decide, by decide⟩
    · exact ⟨'{', _, rfl, by decide, by decide, by decide⟩
  | null => exact generate_head L .null hT
  | bool b => exact generate_head L (.bool b) hT
  | int i => exact generate_head L (.int i) hT
  | float x => exact generate_head L (.float x) hT
  | string str => exact generate_head L (.string str) hT

theorem parsesBackAt_of_parsesBack {F : Type} (L : FloatLib F) (T : Node F) (d : Nat)
    (hr : codeRender L T d = generate L T) (h : ParsesBack L T) : ParsesBackAt L T d := by
  intro s pos post hs hpost
  rw [hr] at hs
  obtain ⟨f, hf⟩ := h s pos post hs hpost
  exact ⟨f, _, hf, drop_add_of_drop _ _ hs⟩

theorem intercalate_head {α : Type} (sep g : List α) (gs : List (List α)) :
    ∃ t, sep.intercalate (g :: gs) = g ++ t := by
  cases gs with
  | nil => exact ⟨[], by rw [intercalate_single, List.append_nil]⟩
  | cons g2 gs => exact ⟨_, intercalate_cons_cons sep g g2 gs⟩

theorem isspace_newline_indentText (d : Nat) :
    ∀ c ∈ '\n' :: indentText d, isspace c = true := by
  intro c hc
  rcases List.mem_cons.mp hc with h | h
  · rw [h]
    rfl
  · exact isspace_indentText d c h

/-- The array loop reads back the elements that are left from their indented
lines, up to the closing bracket on its own line. -/
theorem parseArrayLoop_indented {F : Type} (L : FloatLib F) (d : Nat) (xs : Array F) :
    ∀ (x : Node F), (∀ y ∈ x :: xs, ParsesBackAt L y (d + 1) ∧ y.plain) →
    ∀ (s : Text) (pos : Nat) (arr : Array F) (post : Text),
      s.drop pos = [',', '\n'].intercalate
        ((x :: xs).map fun y => indentText (d + 1) ++ codeRender L y (d + 1)) ++
          ('\n' :: (indentText d ++ ']' :: post)) →
      ∃ f p1, parseArrayLoop L s f pos arr = .ret (some (.array (arr ++ x :: xs)), p1) ∧
        s.drop p1 = post := by
  induction xs with
  | nil =>
    intro x h s pos arr post hs
    obtain ⟨hx, hxp⟩ := h x (List.mem_cons_self _ _)
    obtain ⟨c, tl, hc, hsp, hb, -⟩ := codeRender_head L x (d + 1) hxp
    rw [List.map_singleton, intercalate_single, List.append_assoc] at hs
    have hs0 : s.drop pos =
        indentText (d + 1) ++ c :: (tl ++ '\n' :: (indentText d ++ ']' :: post)) := by
      rw [hs, hc]
      rfl
    have hs1 := drop_add_of_drop _ _ hs
    have hs1c := drop_add_of_drop _ _ hs0
    obtain ⟨f1, p1, hv, hd1⟩ := hx s _ _ hs1 (by
      intro c hc
      simp only [List.head?_cons, Option.some.injEq] at hc
      rw [← hc]
      decide)
    have hd1a : s.drop p1 = ('\n' :: indentText d) ++ ']' :: post := by
      rw [hd1]
      rfl
    have hq : skipSeparator s ',' p1 = p1 + ('\n' :: indentText d).length :=
      skipSeparator_ws_other (isspace_newline_indentText d) hd1a (by decide) (by decide)
    have hd2 := drop_add_of_drop _ _ hd1a
    have hend : parseArrayLoop L s 1 (p1 + ('\n' :: indentText d).length) (arr ++ [x]) =
        .ret (some (.array (arr ++ [x])), p1 + ('\n' :: indentText d).length + 1) := by
      rw [parseArrayLoop_succ, if_neg]
      rw [getElem?_of_drop hd2]
      simp
    have hl : ∃ f, parseArrayLoop L s f (skipSeparator s ',' p1) (arr ++ [x]) =
        .ret (some (.array (arr ++ [x])), p1 + ('\n' :: indentText d).length + 1) :=
      ⟨1, by rw [hq]; exact hend⟩
    obtain ⟨f, hf⟩ := parseArrayLoop_step (lt_length_of_drop hs1c)
      (by rw [getElem?_of_drop hs1c]; simpa using hb) ⟨f1, hv⟩ hl (by simp)
    refine ⟨f, _, ?_, drop_succ_of_drop hd2⟩
    rw [parseArrayLoop_skip_ws L f arr (isspace_indentText _) hs0 hsp hb]
    exact hf
  | cons y ys ih =>
    intro x h s pos arr post hs
    obtain ⟨hx, hxp⟩ := h x (List.mem_cons_self _ _)
    obtain ⟨c, tl, hc, hsp, hb, -⟩ := codeRender_head L x (d + 1) hxp
    obtain ⟨c2, tl2, hc2, hsp2, hb2, -⟩ := codeRender_head L y (d + 1)
      (h y (List.mem_cons_of_mem _ (List.mem_cons_self _ _))).2
    rw [List.map_cons, List.map_cons, intercalate_cons_cons] at hs
    obtain ⟨t, ht⟩ := intercalate_head [',', '\n']
      (indentText (d + 1) ++ codeRender L y (d + 1))
      (ys.map fun y => indentText (d + 1) ++ codeRender L y (d + 1))
    generalize hI : [',', '\n'].intercalate
      ((indentText (d + 1) ++ codeRender L y (d + 1)) ::
        ys.map fun y => indentText (d + 1) ++ codeRender L y (d + 1)) = I at hs ht
    have hs' : s.drop pos = indentText (d + 1) ++ (codeRender L x (d + 1) ++
        (',' :: '\n' :: (I ++ '\n' :: (indentText d ++ ']' :: post)))) := by
      rw [hs]
      simp
    have hs0 : s.drop pos = indentText (d + 1) ++ c :: (tl ++
        (',' :: '\n' :: (I ++ '\n' :: (indentText d ++ ']' :: post)))) := by
      rw [hs', hc]
      rfl
    have hs1 := drop_add_of_drop _ _ hs'
    have hs1c := drop_add_of_drop _ _ hs0
    obtain ⟨f1, p1, hv, hd1⟩ := hx s _ _ hs1 (by
      intro c hc
      simp only [List.head?_cons, Option.some.injEq] at hc
      rw [← hc]
      decide)
    have hd1a : s.drop p1 = ',' :: (('\n' :: indentText (d + 1)) ++
        c2 :: (tl2 ++ (t ++ '\n' :: (indentText d ++ ']' :: post)))) := by
      rw [hd1, ht, hc2]
      simp
    have hq : skipSeparator s ',' p1 = p1 + 1 + ('\n' :: indentText (d + 1)).length :=
      skipSeparator_sep_ws (by decide) (isspace_newline_indentText _) hd1a hsp2
    have hd2 : s.drop (p1 + 2) = I ++ '\n' :: (indentText d ++ ']' :: post) :=
      drop_add_of_drop [',', '\n'] _ hd1
    have hd2a : s.drop (p1 + 2) = indentText (d + 1) ++
        c2 :: (tl2 ++ (t ++ '\n' :: (indentText d ++ ']' :: post))) := by
      rw [hd2, ht, hc2]
      simp
    obtain ⟨f2, p2, hl, hd3⟩ := ih y (fun z hz => h z (List.mem_cons_of_mem _ hz)) s (p1 + 2)
      (arr ++ [x]) post (by rw [List.map_cons, hI]; exact hd2)
    rw [parseArrayLoop_skip_ws L f2 _ (isspace_indentText _) hd2a hsp2 hb2] at hl
    have hqe : p1 + 2 + (indentText (d + 1)).length = skipSeparator s ',' p1 := by
      rw [hq, List.length_cons]
      omega
    rw [hqe] at hl
    obtain ⟨f, hf⟩ := parseArrayLoop_step (lt_length_of_drop hs1c)
      (by rw [getElem?_of_drop hs1c]; simpa using hb) ⟨f1, hv⟩ ⟨f2, hl⟩ (by simp)
    refine ⟨f, p2, ?_, hd3⟩
    rw [parseArrayLoop_skip_ws L f arr (isspace_indentText _) hs0 hsp hb, hf]
    simp

/-- One line of an indented object: the loop reads the key, the colon and the
blank behind it, the value, and goes on behind the value. -/
theorem parseObjectLoop_entry_line {F : Type} (L : FloatLib F) {s : Text} {pos : Nat}
    {obj : Object F} (w : Text) (e : Text × Node F) (D : Nat) (follow post : Text)
    (c3 : Char) (r3 : Text) (T : Node F)
    (hw : ∀ x ∈ w, isspace x = true) (hq : '"' ∉ e.1) (hx : ParsesBackAt L e.2 D)
    (hxp : e.2.plain)
    (hs : s.drop pos =
      w ++ '"' :: (e.1 ++ '"' :: ':' :: ' ' :: (codeRender L e.2 D ++ follow)))
    (hfollow : follow = c3 :: r3) (hc3 : isNumberChar c3 = false)
    (hloop : ∀ p2, s.drop p2 = follow →
      ∃ f p1, parseObjectLoop L s f (skipSeparator s ',' p2) (mapAssign obj e.1 e.2) =
        .ret (some T, p1) ∧ s.drop p1 = post) :
    ∃ f p1, parseObjectLoop L s f pos obj = .ret (some T, p1) ∧ s.drop p1 = post := by
  obtain ⟨cv, tlv, hcv, hspv, -, -⟩ := codeRender_head L e.2 D hxp
  have hs0 := drop_add_of_drop _ _ hs
  have hs1 : s.drop (pos + w.length) = generate L (.string e.1) ++
      (':' :: ' ' :: (codeRender L e.2 D ++ follow)) := by
    rw [hs0]
    simp [generate, generateString]
  have hk := parsesBack_string L e.1 hq s (pos + w.length) _ hs1 (by
    intro c hc
    simp only [List.head?_cons, Option.some.injEq] at hc
    rw [← hc]
    exact isNumberChar_closers.2.2.2)
  have hs2 := drop_add_of_drop _ _ hs1
  have hs2a : s.drop (pos + w.length + (generate L (.string e.1 : Node F)).length) =
      ':' :: ([' '] ++ cv :: (tlv ++ follow)) := by
    rw [hs2, hcv]
    rfl
  have hsep1 := skipSeparator_sep_ws (by decide) (by
    intro x hx
    rw [List.mem_singleton.mp hx]
    rfl) hs2a hspv
  have hs3 : s.drop (pos + w.length + (generate L (.string e.1 : Node F)).length + 1 +
      [' '].length) = codeRender L e.2 D ++ follow :=
    drop_add_of_drop [':', ' '] _ hs2
  obtain ⟨fv, p2, hv, hd2⟩ := hx s _ follow hs3 (by
    intro c hc
    rw [hfollow] at hc
    simp only [List.head?_cons, Option.some.injEq] at hc
    rw [← hc]
    exact hc3)
  obtain ⟨f3, p1, hl, hd3⟩ := hloop p2 hd2
  have hstep : ∃ f, parseObjectLoop L s f (pos + w.length) obj = .ret (some T, p1) :=
    parseObjectLoop_step_at (lt_length_of_drop hs0)
      (by rw [getElem?_of_drop hs0]; decide) hk hsep1 ⟨fv, hv⟩ rfl rfl ⟨f3, hl⟩ (by simp)
  obtain ⟨f, hf⟩ := hstep
  refine ⟨f, p1, ?_, hd3⟩
  rw [parseObjectLoop_skip_ws L f obj hw hs (by decide) (by decide), hf]

/-- The object loop reads back the entries that are left from their indented
lines, up to the closing brace on its own line; the entries come in key order,
so each one is appended to the map. -/
theorem parseObjectLoop_indented {F : Type} (L : FloatLib F) (d : Nat) (xs : Object F) :
    ∀ (e : Text × Node F),
      (∀ y ∈ e :: xs, '"' ∉ y.1 ∧ ParsesBackAt L y.2 (d + 1) ∧ y.2.plain) →
    ∀ (s : Text) (pos : Nat) (obj : Object F) (post : Text), mapOrdered (obj ++ e :: xs) →
      s.drop pos = [',', '\n'].intercalate
        ((e :: xs).map fun e => indentText (d + 1) ++
          ((['"'] ++ e.1 ++ ['"']) ++ ([':', ' '] ++ codeRender L e.2 (d + 1)))) ++
          ('\n' :: (indentText d ++ '}' :: post)) →
      ∃ f p1, parseObjectLoop L s f pos obj = .ret (some (.object (obj ++ e :: xs)), p1) ∧
        s.drop p1 = post := by
  induction xs with
  | nil =>
    intro e h s pos obj post hord hs
    obtain ⟨hq, hx, hxp⟩ := h e (List.mem_cons_self _ _)
    have hassign : mapAssign obj e.1 e.2 = obj ++ [e] := by
      rw [mapAssign_append_last obj e.1 e.2]
      intro e0 he0
      have := List.pairwise_append.mp hord
      exact this.2.2 e0 he0 e (List.mem_cons_self _ _)
    rw [List.map_singleton, intercalate_single] at hs
    refine parseObjectLoop_entry_line L (indentText (d + 1)) e (d + 1)
      ('\n' :: (indentText d ++ '}' :: post)) post '\n' _ _ (isspace_indentText _) hq hx hxp
      (by rw [hs]; simp) rfl (by decide) ?_
    intro p2 hd2
    have hd2a : s.drop p2 = ('\n' :: indentText d) ++ '}' :: post := by
      rw [hd2]
      rfl
    have hsep : skipSeparator s ',' p2 = p2 + ('\n' :: indentText d).length :=
      skipSeparator_ws_other (isspace_newline_indentText d) hd2a (by decide) (by decide)
    have hd3 := drop_add_of_drop _ _ hd2a
    refine ⟨1, _, ?_, drop_succ_of_drop hd3⟩
    rw [hsep, hassign, parseObjectLoop_succ, if_neg]
    rw [getElem?_of_drop hd3]
    simp
  | cons y ys ih =>
    intro e h s pos obj post hord hs
    obtain ⟨hq, hx, hxp⟩ := h e (List.mem_cons_self _ _)
    have hassign : mapAssign obj e.1 e.2 = obj ++ [e] := by
      rw [mapAssign_append_last obj e.1 e.2]
      intro e0 he0
      have := List.pairwise_append.mp hord
      exact this.2.2 e0 he0 e (List.mem_cons_self _ _)
    have hord2 : mapOrdered ((obj ++ [e]) ++ y :: ys) := by simpa using hord
    rw [List.map_cons, List.map_cons, intercalate_cons_cons] at hs
    obtain ⟨t, ht⟩ := intercalate_head [',', '\n']
      (indentText (d + 1) ++
        ((['"'] ++ y.1 ++ ['"']) ++ ([':', ' '] ++ codeRender L y.2 (d + 1))))
      (ys.map fun e => indentText (d + 1) ++
        ((['"'] ++ e.1 ++ ['"']) ++ ([':', ' '] ++ codeRender L e.2 (d + 1))))
    generalize hI : [',', '\n'].intercalate
      ((indentText (d + 1) ++
        ((['"'] ++ y.1 ++ ['"']) ++ ([':', ' '] ++ codeRender L y.2 (d + 1)))) ::
        ys.map fun e => indentText (d + 1) ++
          ((['"'] ++ e.1 ++ ['"']) ++ ([':', ' '] ++ codeRender L e.2 (d + 1)))) = I at hs ht
    have hres : ∃ f p1, parseObjectLoop L s f pos obj =
        .ret (some (.object ((obj ++ [e]) ++ y :: ys)), p1) ∧ s.drop p1 = post := by
      refine parseObjectLoop_entry_line L (indentText (d + 1)) e (d + 1)
        (',' :: '\n' :: (I ++ '\n' :: (indentText d ++ '}' :: post))) post ',' _ _
        (isspace_indentText _) hq hx hxp (by rw [hs]; simp) rfl (by decide) ?_
      intro p2 hd2
      have hd2a : s.drop p2 = ',' :: (('\n' :: indentText (d + 1)) ++
          '"' :: (y.1 ++ ['"'] ++ ([':', ' '] ++ codeRender L y.2 (d + 1)) ++
            (t ++ '\n' :: (indentText d ++ '}' :: post)))) := by
        rw [hd2, ht]
        simp
      have hsep : skipSeparator s ',' p2 = p2 + 1 + ('\n' :: indentText (d + 1)).length :=
        skipSeparator_sep_ws (by decide) (isspace_newline_indentText _) hd2a (by decide)
      have hd3 : s.drop (p2 + 2) = I ++ '\n' :: (indentText d ++ '}' :: post) :=
        drop_add_of_drop [',', '\n'] _ hd2
      have hd3a : s.drop (p2 + 2) = indentText (d + 1) ++
          '"' :: (y.1 ++ ['"'] ++ ([':', ' '] ++ codeRender L y.2 (d + 1)) ++
            (t ++ '\n' :: (indentText d ++ '}' :: post))) := by
        rw [hd3, ht]
        simp
      obtain ⟨f2, p1, hl, hd4⟩ := ih y (fun z hz => h z (List.mem_cons_of_mem _ hz)) s
        (p2 + 2) (obj ++ [e]) post hord2 (by rw [List.map_cons, hI]; exact hd3)
      rw [parseObjectLoop_skip_ws L f2 _ (isspace_indentText _) hd3a (by decide) (by decide)]
        at hl
      have hqe : p2 + 2 + (indentText (d + 1)).length = skipSeparator s ',' p2 := by
        rw [hsep, List.length_cons]
        omega
      rw [hqe] at hl
      exact ⟨f2, p1, by rw [hassign]; exact hl, hd4⟩
    obtain ⟨f, p1, hf, hd⟩ := hres
    exact ⟨f, p1, by rw [hf]; simp, hd⟩

theorem parseArrayLoop_newline {F : Type} (L : FloatLib F) {s : Text} {p : Nat} {w : Text}
    {c : Char} {r : Text} (f : Nat) (arr : Array F) (hw : ∀ x ∈ w, isspace x = true)
    (hs : s.drop p = '\n' :: (w ++ c :: r)) (hc : isspace c = false) (hne : c ≠ ']') :
    parseArrayLoop L s f p arr = parseArrayLoop L s f (p + 1) arr := by
  have hs1 : s.drop p = ('\n' :: w) ++ c :: r := hs
  have hw1 : ∀ x ∈ '\n' :: w, isspace x = true :=
    List.forall_mem_cons.mpr ⟨rfl, hw⟩
  rw [parseArrayLoop_skip_ws L f arr hw1 hs1 hc hne,
    parseArrayLoop_skip_ws L f arr hw (drop_succ_of_drop hs) hc hne, List.length_cons,
    Nat.add_assoc, Nat.add_comm 1]

theorem parseObjectLoop_newline {F : Type} (L : FloatLib F) {s : Text} {p : Nat} {w : Text}
    {c : Char} {r : Text} (f : Nat) (obj : Object F) (hw : ∀ x ∈ w, isspace x = true)
    (hs : s.drop p = '\n' :: (w ++ c :: r)) (hc : isspace c = false) (hne : c ≠ '}') :
    parseObjectLoop L s f p obj = parseObjectLoop L s f (p + 1) obj := by
  have hs1 : s.drop p = ('\n' :: w) ++ c :: r := hs
  have hw1 : ∀ x ∈ '\n' :: w, isspace x = true :=
    List.forall_mem_cons.mpr ⟨rfl, hw⟩
  rw [parseObjectLoop_skip_ws L f obj hw1 hs1 hc hne,
    parseObjectLoop_skip_ws L f obj hw (drop_succ_of_drop hs) hc hne, List.length_cons,
    Nat.add_assoc, Nat.add_comm 1]

theorem parsesBackAt_array {F : Type} (L : FloatLib F) (x : Node F) (xs : Array F) (d : Nat)
    (h : ∀ y ∈ x :: xs, ParsesBackAt L y (d + 1) ∧ y.plain) :
    ParsesBackAt L (.array (x :: xs)) d := by
  intro s pos post hs _
  obtain ⟨c, tl, hc, hsp, hb, -⟩ := codeRender_head L x (d + 1) (h x (List.mem_cons_self _ _)).2
  obtain ⟨t, ht⟩ := intercalate_head [',', '\n']
    (indentText (d + 1) ++ codeRender L x (d + 1))
    (xs.map fun y => indentText (d + 1) ++ codeRender L y (d + 1))
  have hr : codeRender L (.array (x :: xs)) d = '[' :: '\n' :: ([',', '\n'].intercalate
      ((x :: xs).map fun y => indentText (d + 1) ++ codeRender L y (d + 1)) ++
        ('\n' :: (indentText d ++ [']']))) := by
    simp only [codeRender, renderWith, renderItems_eq_map, codeContainer, specContainer,
      List.map_cons, List.isEmpty_cons]
    simp
  rw [hr] at hs
  have hs0 : s.drop pos = '[' :: '\n' :: ([',', '\n'].intercalate
      ((x :: xs).map fun y => indentText (d + 1) ++ codeRender L y (d + 1)) ++
        ('\n' :: (indentText d ++ ']' :: post))) := by
    rw [hs]
    simp
  have hs2 := drop_add_of_drop ['[', '\n'] _ hs0
  obtain ⟨f, p1, hf, hd⟩ := parseArrayLoop_indented L d xs x h s (pos + 2) [] post hs2
  have hs1 : s.drop (pos + 1) = '\n' :: (indentText (d + 1) ++ c :: (tl ++
      (t ++ '\n' :: (indentText d ++ ']' :: post)))) := by
    rw [drop_succ_of_drop hs0, List.map_cons, ht, hc]
    simp
  refine ⟨f + 1, p1, ?_, hd⟩
  rw [parseValue_dispatch L f hs0 (by decide)]
  simp only [Char.reduceEq, if_true, if_false, parseArray]
  rw [parseArrayLoop_newline L f [] (isspace_indentText _) hs1 hsp hb]
  exact hf

theorem parsesBackAt_object {F : Type} (L : FloatLib F) (e : Text × Node F) (xs : Object F)
    (d : Nat) (hord : mapOrdered (e :: xs))
    (h : ∀ y ∈ e :: xs, '"' ∉ y.1 ∧ ParsesBackAt L y.2 (d + 1) ∧ y.2.plain) :
    ParsesBackAt L (.object (e :: xs)) d := by
  intro s pos post hs _
  obtain ⟨t, ht⟩ := intercalate_head [',', '\n']
    (indentText (d + 1) ++
      ((['"'] ++ e.1 ++ ['"']) ++ ([':', ' '] ++ codeRender L e.2 (d + 1))))
    (xs.map fun e => indentText (d + 1) ++
      ((['"'] ++ e.1 ++ ['"']) ++ ([':', ' '] ++ codeRender L e.2 (d + 1))))
  have hr : codeRender L (.object (e :: xs)) d = '{' :: '\n' :: ([',', '\n'].intercalate
      ((e :: xs).map fun e => indentText (d + 1) ++
        ((['"'] ++ e.1 ++ ['"']) ++ ([':', ' '] ++ codeRender L e.2 (d + 1)))) ++
        ('\n' :: (indentText d ++ ['}']))) := by
    simp only [codeRender, renderWith, renderEntries_eq_map, codeContainer, specContainer,
      List.map_cons, List.isEmpty_cons]
    simp
  rw [hr] at hs
  have hs0 : s.drop pos = '{' :: '\n' :: ([',', '\n'].intercalate
      ((e :: xs).map fun e => indentText (d + 1) ++
        ((['"'] ++ e.1 ++ ['"']) ++ ([':', ' '] ++ codeRender L e.2 (d + 1)))) ++
        ('\n' :: (indentText d ++ '}' :: post))) := by
    rw [hs]
    simp
  have hs2 := drop_add_of_drop ['{', '\n'] _ hs0
  obtain ⟨f, p1, hf, hd⟩ := parseObjectLoop_indented L d xs e h s (pos + 2) [] post
    (by simpa using hord) hs2
  have hs1 : s.drop (pos + 1) = '\n' :: (indentText (d + 1) ++ '"' :: (e.1 ++ ['"'] ++
      ([':', ' '] ++ codeRender L e.2 (d + 1)) ++
      (t ++ '\n' :: (indentText d ++ '}' :: post)))) := by
    rw [drop_succ_of_drop hs0, List.map_cons, ht]
    simp
  refine ⟨f + 1, p1, ?_, hd⟩
  rw [parseValue_dispatch L f hs0 (by decide)]
  simp only [Char.reduceEq, if_true, if_false, parseObject]
  rw [parseObjectLoop_newline L f [] (isspace_indentText _) hs1 (by decide) (by decide)]
  exact hf

mutual
/-- Every plain tree without an empty container is read back from its indented
rendering, at every depth. -/
theorem parsesBackAt_of_plain {F : Type} (L : FloatLib F) :
    (T : Node F) → T.plain → T.filled → ∀ d, ParsesBackAt L T d
  | .null, _, _ => fun d => parsesBackAt_of_parsesBack L _ d rfl (parsesBack_null L)
  | .bool b, _, _ => fun d => parsesBackAt_of_parsesBack L _ d rfl (parsesBack_bool L b)
  | .int i, h, _ => fun d => parsesBackAt_of_parsesBack L _ d rfl
      (parsesBack_int L i (by simp only [Value.plain] at h; exact h.1)
        (by simp only [Value.plain] at h; exact h.2))
  | .float _, h, _ => by simp [Value.plain] at h
  | .string str, h, _ => fun d => parsesBackAt_of_parsesBack L _ d rfl
      (parsesBack_string L str (by simpa [Value.plain] using h))
  | .array [], _, hf => by simp [Value.filled] at hf
  | .array (x :: xs), h, hf => fun d => parsesBackAt_array L x xs d
      (parsesBackAt_elements L (x :: xs) (by simpa [Value.plain] using h)
        (by simp only [Value.filled] at hf; exact hf.2) (d + 1))
  | .object [], _, hf => by simp [Value.filled] at hf
  | .object (e :: xs), h, hf => fun d => parsesBackAt_object L e xs d
      (by simp only [Value.plain] at h; exact h.1)
      (parsesBackAt_entries L (e :: xs) (by simp only [Value.plain] at h; exact h.2)
        (by simp only [Value.filled] at hf; exact hf.2) (d + 1))
/-- The elements of a plain array without an empty container are read back. -/
theorem parsesBackAt_elements {F : Type} (L : FloatLib F) :
    (a : List (Node F)) → plainArray a → filledArray a →
      ∀ d, ∀ x ∈ a, ParsesBackAt L x d ∧ x.plain
  | [], _, _ => fun _ _ hx => absurd hx (List.not_mem_nil _)
  | y :: rest, h, hf => fun d x hx => by
    simp only [plainArray] at h
    simp only [filledArray] at hf
    rcases List.mem_cons.mp hx with hxy | hxr
    · rw [hxy]
      exact ⟨parsesBackAt_of_plain L y h.1 hf.1 d, h.1⟩
    · exact parsesBackAt_elements L rest h.2 hf.2 d x hxr
/-- The mapped values of a plain object without an empty container are read
back. -/
theorem parsesBackAt_entries {F : Type} (L : FloatLib F) :
    (o : List (Text × Node F)) → plainObject o → filledObject o →
      ∀ d, ∀ e ∈ o, '"' ∉ e.1 ∧ ParsesBackAt L e.2 d ∧ e.2.plain
  | [], _, _ => fun _ _ hx => absurd hx (List.not_mem_nil _)
  | y :: rest, h, hf => fun d x hx => by
    simp only [plainObject] at h
    simp only [filledObject] at hf
    rcases List.mem_cons.mp hx with hxy | hxr
    · rw [hxy]
      exact ⟨h.1.1, parsesBackAt_of_plain L y.2 h.1.2 hf.1 d, h.1.2⟩
    · exact parsesBackAt_entries L rest h.2 hf.2 d x hxr
end

/-- C19. Round trip through the indented generator: for every tree built from
Null, Bool, Int from 0 to 2^31 - 1, strings and keys without a double quote,
and arrays and objects that are all non-empty, `parser` on the text of
`JsonGeneratorFormat::generateToFormatString` returns the present tree it was
rendered from. -/
theorem parser_generateToFormatString_filled {F : Type} (L : FloatLib F) (T : Node F)
    (hT : T.plain) (hfill : T.filled) :
    parser L (JsonGeneratorFormat.generateToFormatString L T).1 = .ret (some T) := by
  have hg : (JsonGeneratorFormat.generateToFormatString L T).1 = codeRender L T 0 := by
    have h := fmt_generate_eq L T true 0
    simp only [Nat.cast_zero] at h
    unfold JsonGeneratorFormat.generateToFormatString
    rw [h]
    simp [indentText]
  rw [hg]
  obtain ⟨c, tl, hgen, hsp, -, -⟩ := codeRender_head L T 0 hT
  have hs : (codeRender L T 0).drop 0 = codeRender L T 0 ++ [] := by simp
  have hs0 : (codeRender L T 0).drop 0 = c :: tl := by simp [hgen]
  obtain ⟨f, p1, hf, -⟩ := parsesBackAt_of_plain L T hT hfill 0 (codeRender L T 0) 0 [] hs
    (by simp)
  have hb := parseValue_at_budget L (codeRender L T 0) hf (by simp)
    (2 * (codeRender L T 0).length + 1) (by omega)
  unfold parser parse
  simp only [parseWhiteSpace_of_drop hs0 hsp, hb]

/-- The round trip at a tree with nested non-empty containers, with the text
that is parsed; the rendering of an empty array is outside the domain, the
parse of it raises. -/
theorem parser_generateToFormatString_filled_witness :
    (JsonGeneratorFormat.generateToFormatString textFloat
      (.object [("a".toList, .array [.int 1, .null]), ("b".toList, .string "x".toList)])).1
      = "\x7b\n  \"a\": [\n    1,\n    null\n  ],\n  \"b\": \"x\"\n\x7d".toList ∧
    parser textFloat (JsonGeneratorFormat.generateToFormatString textFloat
      (.object [("a".toList, .array [.int 1, .null]), ("b".toList, .string "x".toList)])).1
      = .ret (some (.object [("a".toList, .array [.int 1, .null]),
          ("b".toList, .string "x".toList)])) ∧
    parser textFloat (JsonGeneratorFormat.generateToFormatString textFloat (.array [])).1
      = .throw .bad_optional_access :=
  ⟨by decide, parser_generateToFormatString_filled textFloat _
    (by simp [Value.plain, plainObject, plainArray, mapOrdered, strLt, INT_MAX])
    (by simp [Value.filled, filledObject, filledArray]), by rfl⟩

end json
